import Mathlib

/-!
# Audio-Synthesizer: registry, arpeggiator, envelope, oscillator, effects, filters, block loop

A shallow embedding of `Note.hpp`, `Envelope.hpp`, `Instrument.hpp`,
`Arpeggiator.hpp`, `Oscillator.hpp`, `SoundEffect.hpp`, the comb and low-pass
filters of `Filter.hpp`, the block-filling loop of `SoundCard.hpp` and the
registry code of `Audio-Synthesizer.cpp`.

Conventions of the embedding.

* Double arithmetic.  `fl` rounds a rational to the nearest double (IEEE 754
  binary64, round to nearest, ties to even, subnormal numbers included).  An
  operation of the source on doubles is the exact operation followed by `fl`,
  every operation being rounded on its own (no fused multiply-add), and a
  literal such as `0.1` is `fl (1 / 10)`.  The exponent range is not bounded
  above: overflow to an infinity is not modelled.  `Arpeggiator.note_index`,
  `scale`, the clock of the block-filling loop, `LowPassFilter`, `Flanger` and
  `ADSREnvelope.amplitudeIEEE` compute this way.  The type `Dbl` adds the
  infinities and NaN that a division by zero produces; the envelope and the
  arpeggiator, which divide by their time constants, use it.
* Exact arithmetic.  The registry code, `ADSREnvelope.amplitude`,
  `Instrument.sound`, `generateSound`, `clip`, the delay line, the reverb and
  the comb filter are embedded over the rationals without rounding; what is
  proved about them concerns comparisons, signs, bounds and indices.  There the
  constants of the instrument catalog are the decimals as written, and every
  envelope of the catalog has strictly positive time constants, so that no
  quotient of the catalog divides by zero.
* The oscillator calls `std::sin` and `std::asin`; there a `double` is a real
  number (`ℝ`) and the definitions are not executable.  `std::sin` in the
  flanger and `std::pow` in `scale` are parameters of the definitions.
* A C++ `int` that only serves as an identifier (`Note::a_id`, the entries of a
  chord) is an `Int`.  Where integer width matters, the conversions are
  explicit: `castInt`, `toSizeT`, `castSizeT`, `castInt16`, and the 32 bit
  counters of the block-filling loop.
* `std::vector<Note>` is a `List Note`; operations that mutate the vector
  return the new list.  A method that can index a vector outside its bounds
  returns an `Option`, with `none` for the call that leaves defined behaviour.
* `SAMPLE_RATE` and `RAND_MAX` are constants declared outside these files; they
  are parameters.
-/

namespace AudioSynth

/-! ## Double precision arithmetic -/

/-- Rounding of a rational to the nearest integer, a tie going to the even
neighbour. -/
def roundEven (x : ℚ) : ℤ :=
  let f := ⌊x⌋
  let r := x - f
  if r < 1 / 2 then f
  else if 1 / 2 < r then f + 1
  else if f % 2 = 0 then f else f + 1

/-- The number of halvings that bring `n` below 2, counted with at most `fuel`
steps. -/
def log2Fuel : Nat → Nat → Nat
  | 0, _ => 0
  | fuel + 1, n => if n < 2 then 0 else log2Fuel fuel (n / 2) + 1

/-- The binary logarithm of a natural number, rounded down (0 at 0). -/
def natLog2 (n : Nat) : Nat := log2Fuel n n

/-- The binary exponent of a rational `x ≠ 0`: the integer `e` with
`2 ^ e ≤ |x| < 2 ^ (e + 1)`.  It is the difference of the logarithms of the
numerator and the denominator, or one less. -/
def ilog2 (x : ℚ) : ℤ :=
  if x = 0 then 0
  else
    let e : ℤ := (natLog2 x.num.natAbs : ℤ) - (natLog2 x.den : ℤ)
    if (2 : ℚ) ^ e ≤ |x| then e else e - 1

/-- The exponent `e` such that the doubles next to `x` are the multiples of
`2 ^ e`: 52 below the binary exponent of `x`, and `-1074` in the subnormal
range. -/
def ulpExp (x : ℚ) : ℤ := max (ilog2 x) (-1022) - 52

/-- Rounding to the nearest double (IEEE 754 binary64, round to nearest, ties
to even), the rounding every arithmetic operation on `double` ends with.
Subnormal numbers are included.  The exponent range is not bounded above:
overflow to an infinity is not modelled. -/
def fl (x : ℚ) : ℚ := (roundEven (x / 2 ^ ulpExp x) : ℚ) * 2 ^ ulpExp x

/-- A value of the C++ type `double`: a finite number, an infinity or NaN.  The
two zeros are not told apart; a zero divisor counts as `+0.0`. -/
inductive Dbl where
  | fin (q : ℚ)
  | pinf
  | ninf
  | nan
deriving DecidableEq

/-- The sum of two doubles. -/
def Dbl.add : Dbl → Dbl → Dbl
  | .fin a, .fin b => .fin (fl (a + b))
  | .nan, _ => .nan
  | _, .nan => .nan
  | .pinf, .ninf => .nan
  | .ninf, .pinf => .nan
  | .pinf, _ => .pinf
  | _, .pinf => .pinf
  | .ninf, _ => .ninf
  | _, .ninf => .ninf

/-- The difference of two doubles. -/
def Dbl.sub : Dbl → Dbl → Dbl
  | .fin a, .fin b => .fin (fl (a - b))
  | .nan, _ => .nan
  | _, .nan => .nan
  | .pinf, .pinf => .nan
  | .ninf, .ninf => .nan
  | .pinf, _ => .pinf
  | _, .pinf => .ninf
  | .ninf, _ => .ninf
  | _, .ninf => .pinf

/-- The infinity with the sign of `a`, the sign being flipped when `flip` is
set; NaN when `a` is zero.  This is the product of `a` and an infinity, and the
quotient of `a` by a zero. -/
def Dbl.signedInf (a : ℚ) (flip : Bool) : Dbl :=
  if a = 0 then .nan else if (0 < a) = !flip then .pinf else .ninf

/-- The product of two doubles. -/
def Dbl.mul : Dbl → Dbl → Dbl
  | .fin a, .fin b => .fin (fl (a * b))
  | .nan, _ => .nan
  | _, .nan => .nan
  | .fin a, .pinf => Dbl.signedInf a false
  | .fin a, .ninf => Dbl.signedInf a true
  | .pinf, .fin b => Dbl.signedInf b false
  | .ninf, .fin b => Dbl.signedInf b true
  | .pinf, .pinf => .pinf
  | .ninf, .ninf => .pinf
  | .pinf, .ninf => .ninf
  | .ninf, .pinf => .ninf

/-- The quotient of two doubles. -/
def Dbl.div : Dbl → Dbl → Dbl
  | .fin a, .fin b => if b = 0 then Dbl.signedInf a false else .fin (fl (a / b))
  | .nan, _ => .nan
  | _, .nan => .nan
  | .fin _, .pinf => .fin 0
  | .fin _, .ninf => .fin 0
  | .pinf, .fin b => if 0 ≤ b then .pinf else .ninf
  | .ninf, .fin b => if 0 ≤ b then .ninf else .pinf
  | .pinf, .pinf => .nan
  | .pinf, .ninf => .nan
  | .ninf, .pinf => .nan
  | .ninf, .ninf => .nan

/-- The comparison `a <= b` of two doubles; false when either is NaN. -/
def Dbl.le : Dbl → Dbl → Bool
  | .fin a, .fin b => decide (a ≤ b)
  | .nan, _ => false
  | _, .nan => false
  | .ninf, _ => true
  | _, .pinf => true
  | _, _ => false

/-- The comparison `a < b` of two doubles; false when either is NaN. -/
def Dbl.lt : Dbl → Dbl → Bool
  | .fin a, .fin b => decide (a < b)
  | .nan, _ => false
  | _, .nan => false
  | .ninf, .ninf => false
  | .ninf, _ => true
  | .pinf, _ => false
  | .fin _, .pinf => true
  | .fin _, .ninf => false

instance : Add Dbl := ⟨Dbl.add⟩

instance : Sub Dbl := ⟨Dbl.sub⟩

instance : Mul Dbl := ⟨Dbl.mul⟩

instance : Div Dbl := ⟨Dbl.div⟩

instance : LE Dbl := ⟨fun a b => Dbl.le a b = true⟩

instance : LT Dbl := ⟨fun a b => Dbl.lt a b = true⟩

instance (a b : Dbl) : Decidable (a ≤ b) :=
  inferInstanceAs (Decidable (Dbl.le a b = true))

instance (a b : Dbl) : Decidable (a < b) :=
  inferInstanceAs (Decidable (Dbl.lt a b = true))

/-! ## Note.hpp -/

/-- The `Note` record of `Note.hpp`. -/
structure Note where
  /-- Position in scale. -/
  a_id : Int
  /-- Time note was activated. -/
  a_on : ℚ
  /-- Time note was deactivated. -/
  a_off : ℚ
  a_active : Bool
deriving DecidableEq

/-! ## Envelope.hpp -/

/-- The fields of `ADSREnvelope`. -/
structure ADSREnvelope where
  a_attack_time : ℚ
  a_decay_time : ℚ
  a_sustain_amplitude : ℚ
  a_release_time : ℚ
  a_start_amplitude : ℚ
deriving DecidableEq

/-- The values the constructor `ADSREnvelope()` assigns
(0.1, 0.1, 1.0, 0.2, 1.0). -/
def ADSREnvelope.ctor : ADSREnvelope :=
  { a_attack_time := 1 / 10
    a_decay_time := 1 / 10
    a_sustain_amplitude := 1
    a_release_time := 2 / 10
    a_start_amplitude := 1 }

/-- The method `ADSREnvelope::amplitude(time, time_on, time_off)`.  The three
consecutive `if` statements of each branch are kept in source order: each one
may overwrite the value left by the previous one. -/
def ADSREnvelope.amplitude (e : ADSREnvelope) (time time_on time_off : ℚ) : ℚ :=
  let amplitude : ℚ :=
    if time_on > time_off then
      -- Note is on
      let life_time := time - time_on
      let amplitude : ℚ := 0
      let amplitude :=
        if life_time ≤ e.a_attack_time then
          (life_time / e.a_attack_time) * e.a_start_amplitude
        else amplitude
      let amplitude :=
        if life_time > e.a_attack_time ∧ life_time ≤ e.a_attack_time + e.a_decay_time then
          ((life_time - e.a_attack_time) / e.a_decay_time)
            * (e.a_sustain_amplitude - e.a_start_amplitude) + e.a_start_amplitude
        else amplitude
      let amplitude :=
        if life_time > e.a_attack_time + e.a_decay_time then
          e.a_sustain_amplitude
        else amplitude
      amplitude
    else
      -- Note is off
      let life_time := time_off - time_on
      let release_amplitude : ℚ := 0
      let release_amplitude :=
        if life_time ≤ e.a_attack_time then
          (life_time / e.a_attack_time) * e.a_start_amplitude
        else release_amplitude
      let release_amplitude :=
        if life_time > e.a_attack_time ∧ life_time ≤ e.a_attack_time + e.a_decay_time then
          ((life_time - e.a_attack_time) / e.a_decay_time)
            * (e.a_sustain_amplitude - e.a_start_amplitude) + e.a_start_amplitude
        else release_amplitude
      let release_amplitude :=
        if life_time > e.a_attack_time + e.a_decay_time then
          e.a_sustain_amplitude
        else release_amplitude
      ((time - time_off) / e.a_release_time) * (0 - release_amplitude) + release_amplitude
  -- Amplitude should not be negative
  if amplitude ≤ 0 then 0 else amplitude

/-- The method `ADSREnvelope::amplitude(time, time_on, time_off)` in double
arithmetic: the same statements as `ADSREnvelope.amplitude`, every operation
followed by its rounding, a division by zero giving an infinity or NaN, and a
comparison with NaN being false. -/
def ADSREnvelope.amplitudeIEEE (e : ADSREnvelope) (time time_on time_off : ℚ) : Dbl :=
  let a_attack_time := Dbl.fin e.a_attack_time
  let a_decay_time := Dbl.fin e.a_decay_time
  let a_sustain_amplitude := Dbl.fin e.a_sustain_amplitude
  let a_release_time := Dbl.fin e.a_release_time
  let a_start_amplitude := Dbl.fin e.a_start_amplitude
  let amplitude : Dbl :=
    if time_on > time_off then
      -- Note is on
      let life_time := Dbl.fin time - Dbl.fin time_on
      let amplitude : Dbl := Dbl.fin 0
      let amplitude :=
        if life_time ≤ a_attack_time then
          (life_time / a_attack_time) * a_start_amplitude
        else amplitude
      let amplitude :=
        if life_time > a_attack_time ∧ life_time ≤ a_attack_time + a_decay_time then
          ((life_time - a_attack_time) / a_decay_time)
            * (a_sustain_amplitude - a_start_amplitude) + a_start_amplitude
        else amplitude
      let amplitude :=
        if life_time > a_attack_time + a_decay_time then
          a_sustain_amplitude
        else amplitude
      amplitude
    else
      -- Note is off
      let life_time := Dbl.fin time_off - Dbl.fin time_on
      let release_amplitude : Dbl := Dbl.fin 0
      let release_amplitude :=
        if life_time ≤ a_attack_time then
          (life_time / a_attack_time) * a_start_amplitude
        else release_amplitude
      let release_amplitude :=
        if life_time > a_attack_time ∧ life_time ≤ a_attack_time + a_decay_time then
          ((life_time - a_attack_time) / a_decay_time)
            * (a_sustain_amplitude - a_start_amplitude) + a_start_amplitude
        else release_amplitude
      let release_amplitude :=
        if life_time > a_attack_time + a_decay_time then
          a_sustain_amplitude
        else release_amplitude
      ((Dbl.fin time - Dbl.fin time_off) / a_release_time) * (Dbl.fin 0 - release_amplitude)
        + release_amplitude
  -- Amplitude should not be negative
  if amplitude ≤ Dbl.fin 0 then Dbl.fin 0 else amplitude

/-- The five fields of the envelope hold doubles. -/
def ADSREnvelope.IsDouble (e : ADSREnvelope) : Prop :=
  fl e.a_attack_time = e.a_attack_time ∧ fl e.a_decay_time = e.a_decay_time
    ∧ fl e.a_sustain_amplitude = e.a_sustain_amplitude
    ∧ fl e.a_release_time = e.a_release_time
    ∧ fl e.a_start_amplitude = e.a_start_amplitude

instance (e : ADSREnvelope) : Decidable e.IsDouble :=
  inferInstanceAs (Decidable (_ ∧ _))

/-! ## Instrument.hpp -/

/-- The five instruments of the array `instruments` in
`Audio-Synthesizer.cpp`. -/
inductive Instrument where
  | Piano
  | Accordion
  | Trumpet
  | Saxophone
  | Drum
deriving DecidableEq

/-- The envelope each instrument's constructor leaves in `a_envelope`: the
default `ADSREnvelope()` with attack, decay, sustain and release overwritten;
`a_start_amplitude` keeps its default 1.0. -/
def Instrument.a_envelope : Instrument → ADSREnvelope
  | .Drum =>
    { ADSREnvelope.ctor with
      a_attack_time := 1 / 100, a_decay_time := 1 / 10,
      a_sustain_amplitude := 0, a_release_time := 1 / 10 }
  | .Piano =>
    { ADSREnvelope.ctor with
      a_attack_time := 1 / 100, a_decay_time := 6 / 10,
      a_sustain_amplitude := 8 / 10, a_release_time := 3 / 10 }
  | .Accordion =>
    { ADSREnvelope.ctor with
      a_attack_time := 1 / 10, a_decay_time := 2 / 10,
      a_sustain_amplitude := 9 / 10, a_release_time := 8 / 10 }
  | .Trumpet =>
    { ADSREnvelope.ctor with
      a_attack_time := 1 / 10, a_decay_time := 2 / 10,
      a_sustain_amplitude := 8 / 10, a_release_time := 2 / 10 }
  | .Saxophone =>
    { ADSREnvelope.ctor with
      a_attack_time := 1 / 10, a_decay_time := 2 / 10,
      a_sustain_amplitude := 8 / 10, a_release_time := 5 / 10 }

/-- The field `a_volume` after each constructor. -/
def Instrument.a_volume : Instrument → ℚ
  | .Drum => 8 / 10
  | .Piano => 1
  | .Accordion => 1
  | .Trumpet => 8 / 10
  | .Saxophone => 8 / 10

/-- The method `sound(time, n, is_note_finished)` common to the five
instruments.  `wave` stands for the local `sound` just before the `return`:
the oscillator sum of the instrument, after its filter when it has one.  The
result is the returned sample and the value of the reference parameter
`is_note_finished` after the call. -/
def Instrument.sound (inst : Instrument) (wave : ℚ) (time : ℚ) (n : Note)
    (is_note_finished : Bool) : ℚ × Bool :=
  let amplitude := inst.a_envelope.amplitude time n.a_on n.a_off
  let is_note_finished := if amplitude ≤ 0 then true else is_note_finished
  (amplitude * wave * inst.a_volume, is_note_finished)

/-! ## Audio-Synthesizer.cpp: the registry -/

/-- The function `safeRemove(v, func)`: walk the vector and erase every element
on which `func` is false. -/
def safeRemove (func : Note → Bool) : List Note → List Note
  | [] => []
  | n :: rest =>
    if !func n then safeRemove func rest else n :: safeRemove func rest

/-- The body of the `for_each` lambda of `generateSound`, as far as the note is
concerned: the flag `a_active` is cleared when the instrument reports the note
finished and `a_off > a_on`. -/
def markFinished (inst : Instrument) (wave : Note → ℚ) (time : ℚ) (n : Note) : Note :=
  let is_note_finished := (inst.sound (wave n) time n false).2
  if is_note_finished = true ∧ n.a_off > n.a_on then { n with a_active := false } else n

/-- The function `generateSound(channel, time)` run on the registry `notes` with
the active instrument `inst`; `process` is the `process` method of the active
sound effect.  The result is the returned sample and the registry after the
call. -/
def generateSound (inst : Instrument) (wave : Note → ℚ) (process : ℚ → ℚ) (time : ℚ)
    (notes : List Note) : ℚ × List Note :=
  let mixed_output : ℚ :=
    notes.foldl (fun acc n => acc + (inst.sound (wave n) time n false).1) 0
  let notes := notes.map (markFinished inst wave time)
  let notes := safeRemove (fun item => item.a_active) notes
  (process mixed_output * (1 / 2), notes)

/-- Apply `f` to the first element satisfying `p`, as `find_if` followed by a
write through the iterator does; a list without such an element is returned
unchanged (`note_found == notes.end()`). -/
def modifyFirst (p : Note → Bool) (f : Note → Note) : List Note → List Note
  | [] => []
  | n :: rest => if p n then f n :: rest else n :: modifyFirst p f rest

/-- One iteration of the key polling loop of `main`, for key index `k`:
`key_down` is `note_key_state & 0x8000` and `curr_time` the clock value read at
the top of the iteration. -/
def keyStep (k : Int) (key_down : Bool) (curr_time : ℚ) (notes : List Note) : List Note :=
  if notes.any (fun item => item.a_id == k) then
    -- Note exists in vector
    modifyFirst (fun item => item.a_id == k)
      (fun note_found =>
        if key_down then
          if note_found.a_off > note_found.a_on then
            -- Key has been pressed again during release phase
            { note_found with a_on := curr_time, a_active := true }
          else note_found
        else
          if note_found.a_off < note_found.a_on then
            -- Key has been released, so switch off
            { note_found with a_off := curr_time }
          else note_found)
      notes
  else if key_down then
    -- Add note to vector
    notes ++ [{ a_id := k, a_on := curr_time, a_off := 0, a_active := true }]
  else notes

/-! ## Arpeggiator.hpp -/

/-- The private fields of `Arpeggiator`. -/
structure Arpeggiator where
  a_chord : List Int
  a_note_duration : ℚ
  a_arpeggio_start_time : ℚ

/-- The constructor `Arpeggiator(note_duration)`: no chord, start time 0.0. -/
def Arpeggiator.ctor (note_duration : ℚ) : Arpeggiator :=
  { a_chord := [], a_note_duration := note_duration, a_arpeggio_start_time := 0 }

/-- The method `Arpeggiator::setChord(new_chord, start_time)`. -/
def Arpeggiator.setChord (arp : Arpeggiator) (new_chord : List Int) (start_time : ℚ) :
    Arpeggiator :=
  { arp with a_chord := new_chord, a_arpeggio_start_time := start_time }

/-- Rounding toward zero, the value of a floating to integer conversion. -/
def truncToInt (x : ℚ) : Int :=
  if 0 ≤ x then ⌊x⌋ else ⌈x⌉

/-- The conversion `static_cast<int>(x)` of a `double` to a 32 bit `int`.  When
the truncated value does not fit, C++ leaves the result undefined; the x86
conversion instruction used by the Windows build this program targets returns
the smallest `int`, which is what this definition does. -/
def castInt (x : ℚ) : Int :=
  let t := truncToInt x
  if -2 ^ 31 ≤ t ∧ t < 2 ^ 31 then t else -2 ^ 31

/-- The conversion of an `int` to the 64 bit `size_t` that the usual arithmetic
conversions apply to the left operand of `% a_chord.size()`. -/
def toSizeT (i : Int) : Nat :=
  (i % 2 ^ 64).toNat

/-- The conversion `static_cast<int>(x)` of any `double`: an infinity and NaN
are outside the range of `int` as well and give the smallest `int`. -/
def Dbl.toInt : Dbl → Int
  | .fin q => castInt q
  | _ => -2 ^ 31

/-- The local `note_index` of `Arpeggiator::update`:
`static_cast<int>(elapsed_time / a_note_duration) % a_chord.size()`, the
subtraction and the division in double arithmetic.  The remainder is smaller
than the chord length and is stored back in an `int`; chords are taken to have
fewer than `2 ^ 31` entries, so that store keeps the value. -/
def Arpeggiator.note_index (arp : Arpeggiator) (time : ℚ) : Nat :=
  let elapsed_time := Dbl.fin time - Dbl.fin arp.a_arpeggio_start_time
  toSizeT (Dbl.toInt (elapsed_time / Dbl.fin arp.a_note_duration)) % arp.a_chord.length

/-- The two release blocks of `Arpeggiator::update`: find the first note with
the given id and, when there is one, set `a_off` and clear `a_active`. -/
def releaseNote (id : Int) (time : ℚ) (notes : List Note) : List Note :=
  modifyFirst (fun item => item.a_id == id)
    (fun note_found => { note_found with a_off := time, a_active := false }) notes

/-- The method `Arpeggiator::update(time, sound_generator, notes, mutex_notes)`,
returning the registry after the call. -/
def Arpeggiator.update (arp : Arpeggiator) (time : ℚ) (notes : List Note) : List Note :=
  if arp.a_chord.isEmpty then
    notes
  else
    let note_index := arp.note_index time
    -- Play the note
    let notes := notes ++
      [{ a_id := arp.a_chord.getD note_index 0, a_on := time, a_off := 0, a_active := true }]
    if note_index > 0 then
      -- Stop the previous note
      releaseNote (arp.a_chord.getD (note_index - 1) 0) time notes
    else if arp.a_chord.length > 1 then
      -- If we're at the start of the chord, stop the last note
      releaseNote (arp.a_chord.getLastD 0) time notes
    else notes

/-- The local `chord` of `main`. -/
def chord : List Int :=
  [1, 5, 8, 1, 5, 8, 1, 5, 8, 1, 5, 8, 10, 5, 1, 10, 5, 1, 10, 5, 1, 10, 5, 1]

/-- The global `arp` of `Audio-Synthesizer.cpp` after `main` has called
`arp.setChord(chord, sound_generator.getTime())` at clock value `start_time`. -/
def arp (start_time : ℚ) : Arpeggiator :=
  (Arpeggiator.ctor (1 / 2)).setChord chord start_time

/-! ## Registry predicates -/

/-- A note is sounding when it was switched on after its last release. -/
def Note.sounding (n : Note) : Prop :=
  n.a_on > n.a_off

instance (n : Note) : Decidable n.sounding :=
  inferInstanceAs (Decidable (n.a_on > n.a_off))

/-- No two entries of the registry that are both sounding share an id. -/
def RegistryInvariant (notes : List Note) : Prop :=
  notes.Pairwise (fun a b => a.sounding → b.sounding → a.a_id ≠ b.a_id)

instance (notes : List Note) : Decidable (RegistryInvariant notes) :=
  inferInstanceAs (Decidable (List.Pairwise _ notes))

/-! ## SoundEffect.hpp -/

/-- The private fields of `Delay`. -/
structure Delay where
  a_delay_line : List ℚ
  a_delay_idx : Nat
  a_feedback : ℚ
deriving DecidableEq

/-- The constructor `Delay(int delay_samples, T feedback)`: a delay line of
`delay_samples` zeros and index 0.  The `int` count is converted to `size_t`;
a negative count converts to a size beyond what a vector can hold and the
vector constructor throws, which is the result `none`. -/
def Delay.ctor (delay_samples : Int) (feedback : ℚ) : Option Delay :=
  if 0 ≤ delay_samples then
    some { a_delay_line := List.replicate delay_samples.toNat 0,
           a_delay_idx := 0, a_feedback := feedback }
  else none

/-- The method `Delay::process(input)`: the object after the call and the
returned sample.  The result is `none` when `a_delay_line[a_delay_idx]` is an
access outside the vector. -/
def Delay.process (d : Delay) (input : ℚ) : Option (Delay × ℚ) :=
  if h : d.a_delay_idx < d.a_delay_line.length then
    let outputSample := input + d.a_delay_line[d.a_delay_idx]
    let a_delay_line := d.a_delay_line.set d.a_delay_idx (outputSample * d.a_feedback)
    -- Advance the delay line index
    let a_delay_idx := d.a_delay_idx + 1
    let a_delay_idx := if a_delay_idx ≥ a_delay_line.length then 0 else a_delay_idx
    some ({ a_delay_line := a_delay_line, a_delay_idx := a_delay_idx,
            a_feedback := d.a_feedback }, outputSample)
  else none

/-- Successive calls of `Delay::process` on a sequence of input samples: the
final object and the returned samples in order. -/
def Delay.processAll (d : Delay) : List ℚ → Option (Delay × List ℚ)
  | [] => some (d, [])
  | input :: rest =>
    match d.process input with
    | none => none
    | some (d1, out) =>
      match Delay.processAll d1 rest with
      | none => none
      | some (d2, outs) => some (d2, out :: outs)

/-- Subtraction of two `size_t` values, modulo `2 ^ 64`. -/
def subSizeT (a b : Nat) : Nat :=
  (((a : Int) - (b : Int)) % 2 ^ 64).toNat

/-- The private fields of `MultitapReverb`; a `ReverbTap` is the pair of a delay
in samples and a gain. -/
structure MultitapReverb where
  a_taps : List (Nat × ℚ)
  a_samples : List ℚ
  a_sample_idx : Nat
deriving DecidableEq

/-- The constructor `MultitapReverb(taps)`: the history buffer gets
`largestTimeOffset + 1` zeros, and stays empty when the largest delay is 0. -/
def MultitapReverb.ctor (taps : List (Nat × ℚ)) : MultitapReverb :=
  let largestTimeOffset :=
    taps.foldl (fun largestTimeOffset tap =>
      if tap.1 > largestTimeOffset then tap.1 else largestTimeOffset) 0
  if largestTimeOffset = 0 then
    { a_taps := taps, a_samples := [], a_sample_idx := 0 }
  else
    { a_taps := taps, a_samples := List.replicate (largestTimeOffset + 1) 0,
      a_sample_idx := 0 }

/-- The local `tapSampleIndex` of `MultitapReverb::process` for one tap
delay. -/
def MultitapReverb.tapSampleIndex (r : MultitapReverb) (delay : Nat) : Nat :=
  if delay > r.a_sample_idx then
    subSizeT (subSizeT r.a_samples.length 1) (subSizeT delay r.a_sample_idx)
  else
    subSizeT r.a_sample_idx delay

/-- The method `MultitapReverb::process(input)`: the object after the call and
the returned sample; `none` when a read or the write is outside
`a_samples`. -/
def MultitapReverb.process (r : MultitapReverb) (input : ℚ) :
    Option (MultitapReverb × ℚ) :=
  if r.a_samples.isEmpty then
    some (r, input)
  else
    let outSample : Option ℚ :=
      r.a_taps.foldl (fun outSample tap =>
        match outSample, r.a_samples[r.tapSampleIndex tap.1]? with
        | some out, some s => some (out + s * tap.2)
        | _, _ => none) (some input)
    match outSample with
    | none => none
    | some outSample =>
      if r.a_sample_idx < r.a_samples.length then
        -- Add a gain factor to the output sample
        let gainFactor : ℚ := 1 / 2
        let a_samples := r.a_samples.set r.a_sample_idx (outSample * gainFactor)
        let a_sample_idx := r.a_sample_idx + 1
        let a_sample_idx := if a_sample_idx ≥ a_samples.length then 0 else a_sample_idx
        some ({ a_taps := r.a_taps, a_samples := a_samples, a_sample_idx := a_sample_idx },
          outSample)
      else none

/-- Successive calls of `MultitapReverb::process` on a sequence of inputs. -/
def MultitapReverb.processAll (r : MultitapReverb) : List ℚ → Option (MultitapReverb × List ℚ)
  | [] => some (r, [])
  | input :: rest =>
    match r.process input with
    | none => none
    | some (r1, out) =>
      match MultitapReverb.processAll r1 rest with
      | none => none
      | some (r2, outs) => some (r2, out :: outs)

/-- The recurrence of the specification for the multi-tap reverb, following its
words: `out[n] = in[n] + Σ g_i * h[n - d_i]` with `h[k] = 0.5 * out[k]` the value
written to history at step `k` and `h[k] = 0` for `k < 0`.  `history` holds
`h[0], …, h[n-1]`. -/
def reverbSpecStep (taps : List (Nat × ℚ)) (history : List ℚ) (input : ℚ) : ℚ :=
  input + (taps.map (fun tap =>
    tap.2 * (if tap.1 ≤ history.length then history.getD (history.length - tap.1) 0
             else 0))).sum

/-- The outputs the recurrence of the specification gives for a sequence of
inputs, starting from the history `history`. -/
def reverbSpec (taps : List (Nat × ℚ)) : List ℚ → List ℚ → List ℚ
  | _, [] => []
  | history, input :: rest =>
    let out := reverbSpecStep taps history input
    out :: reverbSpec taps (history ++ [out * (1 / 2)]) rest

/-! ## Filter.hpp: the comb filter -/

/-- The private fields of `CombFilter`. -/
structure CombFilter where
  a_buffer : List ℚ
  a_curr_idx : Nat
  a_feedback : ℚ
deriving DecidableEq

/-- The constructor `CombFilter(size_t delay_samples, T feedback)`. -/
def CombFilter.ctor (delay_samples : Nat) (feedback : ℚ) : CombFilter :=
  { a_buffer := List.replicate delay_samples 0, a_curr_idx := 0, a_feedback := feedback }

/-- The method `CombFilter::filter(x)`: the object after the call and the
returned sample; `none` when `a_buffer[a_curr_idx]` is an access outside the
vector (for an empty buffer the remainder `% a_buffer.size()` also divides by
zero). -/
def CombFilter.filter (c : CombFilter) (x : ℚ) : Option (CombFilter × ℚ) :=
  if h : c.a_curr_idx < c.a_buffer.length then
    let y := x + c.a_feedback * c.a_buffer[c.a_curr_idx]
    let a_buffer := c.a_buffer.set c.a_curr_idx y
    let a_curr_idx := (c.a_curr_idx + 1) % a_buffer.length
    some ({ a_buffer := a_buffer, a_curr_idx := a_curr_idx, a_feedback := c.a_feedback }, y)
  else none

/-! ## SoundEffect.hpp: the flanger

The flanger works in double arithmetic.  `std::sin` belongs to the C library;
it is the parameter `sin`. -/

/-- The conversion `static_cast<size_t>(x)` of a `double`: rounding toward zero.
A value that does not fit `size_t` has no defined result (`none`). -/
def castSizeT (x : ℚ) : Option Nat :=
  if -1 < x ∧ x < 2 ^ 64 then some ⌊x⌋₊ else none

/-- The constant `std::numbers::pi`: the double nearest to π,
`884279719003555 / 2 ^ 48`. -/
def numbers_pi : ℚ := 884279719003555 / 281474976710656

/-- The private fields of `Flanger`. -/
structure Flanger where
  a_max_delay_ms : ℚ
  a_delay_buffer : List ℚ
  a_curr_write_idx : Nat
  a_curr_delay_ms : ℚ
  a_depth : ℚ
  a_rate : ℚ
  a_curr_time : ℚ
deriving DecidableEq

/-- The constructor `Flanger(max_delay_ms, depth, rate)`.  `SAMPLE_RATE` is the
constant of `Common.hpp`, taken as a double.  The buffer gets
`static_cast<size_t>(max_delay_ms * SAMPLE_RATE / 1000.0)` zeros. -/
def Flanger.ctor (SAMPLE_RATE : ℚ) (max_delay_ms depth rate : ℚ) : Option Flanger :=
  match castSizeT (fl (fl (max_delay_ms * SAMPLE_RATE) / 1000)) with
  | none => none
  | some size =>
    some { a_max_delay_ms := max_delay_ms, a_delay_buffer := List.replicate size 0,
           a_curr_write_idx := 0, a_curr_delay_ms := 0, a_depth := depth, a_rate := rate,
           a_curr_time := 0 }

/-- The local `delay_read_index` of `Flanger::process` when the read from the
delay buffer starts: `a_curr_write_idx - delay_samples`, plus the buffer size
when that is negative.  The index and the size are converted to `double`
first. -/
def Flanger.delay_read_index (sin : ℚ → ℚ) (SAMPLE_RATE : ℚ) (f : Flanger) : ℚ :=
  -- Calculate delay time in samples
  let a_curr_delay_ms :=
    fl (fl (fl (f.a_max_delay_ms / 2)
        * fl (1 + sin (fl (fl (fl (2 * numbers_pi) * f.a_rate) * f.a_curr_time))))
      * f.a_depth)
  let delay_samples := fl (fl (a_curr_delay_ms * SAMPLE_RATE) / 1000)
  -- Read from delay buffer
  let delay_read_index := fl (fl (f.a_curr_write_idx : ℚ) - delay_samples)
  if delay_read_index < 0 then fl (delay_read_index + fl (f.a_delay_buffer.length : ℚ))
  else delay_read_index

/-- The method `Flanger::process(input)`: the object after the call and the
returned sample.  The result is `none` when the call leaves defined behaviour:
the buffer is empty (the remainders divide by zero), the read position cannot
be converted to `size_t`, or an index is outside the buffer. -/
def Flanger.process (sin : ℚ → ℚ) (SAMPLE_RATE : ℚ) (f : Flanger) (input : ℚ) :
    Option (Flanger × ℚ) :=
  -- Calculate delay time in samples
  let a_curr_delay_ms :=
    fl (fl (fl (f.a_max_delay_ms / 2)
        * fl (1 + sin (fl (fl (fl (2 * numbers_pi) * f.a_rate) * f.a_curr_time))))
      * f.a_depth)
  -- Read from delay buffer
  let delay_read_index := Flanger.delay_read_index sin SAMPLE_RATE f
  match castSizeT (⌊delay_read_index⌋ : ℚ) with
  | none => none
  | some read_index1 =>
    if f.a_delay_buffer.length = 0 then none
    else
      let read_index2 := ((read_index1 + 1) % 2 ^ 64) % f.a_delay_buffer.length
      let fraction := fl (delay_read_index - fl (read_index1 : ℚ))
      match f.a_delay_buffer[read_index1]?, f.a_delay_buffer[read_index2]? with
      | some s1, some s2 =>
        -- Linear interpolation
        let delayed_sample := fl (fl (fl (1 - fraction) * s1) + fl (fraction * s2))
        if f.a_curr_write_idx < f.a_delay_buffer.length then
          -- Write to delay buffer
          let a_delay_buffer := f.a_delay_buffer.set f.a_curr_write_idx input
          let a_curr_write_idx := ((f.a_curr_write_idx + 1) % 2 ^ 64) % a_delay_buffer.length
          -- Mix dry and wet signals
          let output := fl (1 / 2 * fl (input + delayed_sample))
          some ({ f with
                  a_delay_buffer := a_delay_buffer, a_curr_write_idx := a_curr_write_idx,
                  a_curr_delay_ms := a_curr_delay_ms,
                  a_curr_time := fl (f.a_curr_time + fl (1 / SAMPLE_RATE)) }, output)
        else none
      | _, _ => none

/-! ## Instrument.hpp: the scale -/

/-- The semitone ratio of `scale`: the double the compiler reads in the literal
`1.0594630943592952645618252949463`. -/
def semitone : ℚ :=
  fl (10594630943592952645618252949463 / 10000000000000000000000000000000)

/-- The function `scale(note_id)`, with the global `octave` as a parameter:
`256 * pow(semitone, note_id + 12 * octave)`.  `pow` is `std::pow` of the C
library, a parameter; the `int` sum is taken without overflow. -/
def scale (pow : ℚ → Int → ℚ) (octave : Int) (note_id : Int) : ℚ :=
  fl (256 * pow semitone (note_id + 12 * octave))

/-- A `std::pow` that returns the double nearest to the power. -/
def powNearest (x : ℚ) (n : Int) : ℚ :=
  fl (x ^ n)

/-! ## Oscillator.hpp

The oscillator evaluates `std::sin` and `std::asin`; its arguments and result
are real numbers. -/

/-- The enumeration `OSCILLATOR_TYPE`. -/
inductive OSCILLATOR_TYPE where
  | SINE
  | SQUARE
  | TRIANGLE
  | SAW_ANALOGUE
  | SAW_DIGITAL
  | NOISE
  | PULSE
  | SAW_UP
  | SAW_DOWN
deriving DecidableEq

/-- The function `convertHertzToAngularFrequency(hertz)`. -/
noncomputable def convertHertzToAngularFrequency (hertz : ℝ) : ℝ :=
  hertz * 2 * Real.pi

/-- The library function `fmod(x, y)`: `x - n * y` where `n` is the quotient
`x / y` rounded toward zero, so the result has the sign of `x`. -/
noncomputable def fmod (x y : ℝ) : ℝ :=
  x - (if 0 ≤ x / y then (⌊x / y⌋ : ℝ) else (⌈x / y⌉ : ℝ)) * y

/-- The function `generateWaveform(time, hertz, osc_type, LFO_hertz, LFO_amp,
custom, pulse_width)`.  `rand_value` is the value returned by `std::rand()` in
the `NOISE` case and `RAND_MAX` the library constant.  The loop of the
`SAW_ANALOGUE` case runs `n` over 1, 2, … while `n < custom`. -/
noncomputable def generateWaveform (RAND_MAX rand_value : ℕ) (time hertz : ℝ)
    (osc_type : OSCILLATOR_TYPE) (LFO_hertz LFO_amp custom pulse_width : ℝ) : ℝ :=
  let freq := convertHertzToAngularFrequency hertz * time
    + LFO_amp * hertz * Real.sin (convertHertzToAngularFrequency LFO_hertz * time)
  match osc_type with
  | .SINE => Real.sin freq
  | .SQUARE => if Real.sin freq > 0 then 1 else -1
  | .TRIANGLE => Real.arcsin (Real.sin freq) * (2 / Real.pi)
  | .SAW_ANALOGUE =>
    let output := ∑ n ∈ Finset.Ico 1 ⌈custom⌉₊, Real.sin ((n : ℝ) * freq) / (n : ℝ)
    output * (2 / Real.pi)
  | .SAW_DIGITAL =>
    (2 / Real.pi) * (hertz * Real.pi * fmod time (1 / hertz) - Real.pi / 2)
  | .NOISE => 2 * (rand_value : ℝ) / (RAND_MAX : ℝ) - 1
  | .PULSE =>
    let phase := fmod (time * hertz) 1
    if phase < pulse_width then 1 else -1
  | .SAW_UP => 2 * (time * hertz - ⌊1 / 2 + time * hertz⌋)
  | .SAW_DOWN => 2 * (⌊1 / 2 + time * hertz⌋ - time * hertz)

/-! ## SoundCard.hpp: the block-filling loop -/

/-- The method `SoundGenerator::clip(sample, max)`. -/
def clip (sample max_value : ℚ) : ℚ :=
  if sample ≥ 0 then min sample max_value else max sample (-max_value)

/-- The conversion `static_cast<T>(x)` of a `double` for `T = int16_t`: the
truncated value when it fits; otherwise the low 16 bits of the 32 bit
conversion `castInt`, read as a signed number. -/
def castInt16 (x : ℚ) : Int :=
  (castInt x + 2 ^ 15) % 2 ^ 16 - 2 ^ 15

/-- The local `max_sample` of `soundThread` for `T = int16_t`:
`pow(2, 15) - 1`. -/
def max_sample : ℚ := 32767

/-- The fields of `SoundGenerator` that the block-filling loop reads. -/
structure SoundGenerator where
  a_sample_rate : Nat
  a_channels : Nat
  a_block_count : Nat
  a_block_samples : Nat
  a_block_current : Nat
  a_global_time : ℚ

/-- What the block-filling loop carries from one iteration to the next:
the clock `a_global_time` and the state `user_state` that the user function
reads and updates (the note registry and the effect, for `generateSound`).
Two lists record the run: `writes` holds the stores
`a_block_memory_ptr[index] = new_sample` in the order they are made, and
`clock` the successive values assigned to `a_global_time`. -/
structure BlockRun (σ : Type) where
  a_global_time : ℚ
  user_state : σ
  writes : List (Nat × Int)
  clock : List ℚ

/-- The inner loop `for (uint32_t c = 0; c < a_channels; c++)` for one value of
`n`: every channel calls the user function at the current clock value and
stores the clipped, scaled sample at index `nCurrentBlock + n + c`, computed in
32 bit unsigned arithmetic. -/
def channelLoop {σ : Type} (user : σ → Nat → ℚ → ℚ × σ)
    (a_channels nCurrentBlock n : Nat) (s : BlockRun σ) : BlockRun σ :=
  (List.range a_channels).foldl
    (fun s c =>
      let r := user s.user_state c s.a_global_time
      let new_sample := castInt16 (clip r.1 1 * max_sample)
      { s with
        user_state := r.2
        writes := s.writes ++ [((nCurrentBlock + n + c) % 2 ^ 32, new_sample)] })
    s

/-- The loop `for (uint32_t n = 0; n < a_block_samples; n += a_channels)` of
`soundThread`, run sequentially from the value `n` of the counter, with at most
`fuel` iterations; `none` when the fuel does not suffice.  The counter is a 32
bit unsigned number; the clock is advanced in double arithmetic. -/
def fillLoop {σ : Type} (user : σ → Nat → ℚ → ℚ × σ)
    (a_channels a_block_samples nCurrentBlock : Nat) (time_step : ℚ) :
    Nat → Nat → BlockRun σ → Option (BlockRun σ)
  | 0, n, s => if n < a_block_samples then none else some s
  | fuel + 1, n, s =>
    if n < a_block_samples then
      -- User Process
      let s := channelLoop user a_channels nCurrentBlock n s
      let a_global_time := fl (s.a_global_time + time_step)
      let s := { s with a_global_time := a_global_time, clock := s.clock ++ [a_global_time] }
      fillLoop user a_channels a_block_samples nCurrentBlock time_step fuel
        ((n + a_channels) % 2 ^ 32) s
    else some s

/-- The production of one block by `soundThread`: `time_step` is the double
`1.0 / a_sample_rate`, `nCurrentBlock` is `a_block_current * a_block_samples`
(a 32 bit product) and the loop starts at `n = 0`. -/
def SoundGenerator.fillBlock {σ : Type} (g : SoundGenerator) (user : σ → Nat → ℚ → ℚ × σ)
    (user_state : σ) (fuel : Nat) : Option (BlockRun σ) :=
  fillLoop user g.a_channels g.a_block_samples
    ((g.a_block_current * g.a_block_samples) % 2 ^ 32) (fl (1 / (g.a_sample_rate : ℚ))) fuel 0
    { a_global_time := g.a_global_time, user_state := user_state, writes := [], clock := [] }

/-- The method `create(output_device, channels, blocks, block_samples)`, as far
as the block memory is concerned.  The buffer is allocated with
`a_block_count * a_block_samples` elements, a 32 bit product, while
`ZeroMemory` and the block loop address `a_block_count` blocks of
`a_block_samples` elements: when the product does not fit 32 bits they run past
the allocation, which is the result `none`.  Otherwise the generator starts at
block 0 with the clock at 0.0. -/
def SoundGenerator.create (SAMPLE_RATE channels blocks block_samples : Nat) :
    Option SoundGenerator :=
  if blocks * block_samples < 2 ^ 32 then
    some { a_sample_rate := SAMPLE_RATE, a_channels := channels, a_block_count := blocks,
           a_block_samples := block_samples, a_block_current := 0, a_global_time := 0 }
  else none

/-- The update `a_block_current++; a_block_current %= a_block_count` after a
block has been sent; `none` for a block count of 0 (division by zero). -/
def SoundGenerator.nextBlock (g : SoundGenerator) : Option Nat :=
  if g.a_block_count = 0 then none
  else some (((g.a_block_current + 1) % 2 ^ 32) % g.a_block_count)

/-! ## Filter.hpp: the low-pass filter -/

/-- The private fields of `LowPassFilter`. -/
structure LowPassFilter where
  a_alpha : ℚ
  a_prev_y : ℚ
deriving DecidableEq

/-- The constructor `LowPassFilter(cutoff_freq, time_step)` for `T = double`:
the sum and the quotient are rounded. -/
def LowPassFilter.ctor (cutoff_freq time_step : ℚ) : LowPassFilter :=
  { a_alpha := fl (time_step / fl (cutoff_freq + time_step)), a_prev_y := 0 }

/-- The method `LowPassFilter::filter(x)` for `T = double`: the object after
the call and the returned sample.  Each of the two products, the difference
`1 - a_alpha` and the sum is rounded. -/
def LowPassFilter.filter (f : LowPassFilter) (x : ℚ) : LowPassFilter × ℚ :=
  let a_prev_y := fl (fl (f.a_alpha * x) + fl (fl (1 - f.a_alpha) * f.a_prev_y))
  ({ f with a_prev_y := a_prev_y }, a_prev_y)

/-- Successive calls of `LowPassFilter::filter` on a sequence of inputs: the
final object and the returned samples in order. -/
def LowPassFilter.filterAll (f : LowPassFilter) : List ℚ → LowPassFilter × List ℚ
  | [] => (f, [])
  | x :: rest =>
    let r := f.filter x
    let rs := LowPassFilter.filterAll r.1 rest
    (rs.1, r.2 :: rs.2)

/-! ## Registry predicates, continued -/

/-- No two entries of the registry share an id. -/
def UniqueIds (notes : List Note) : Prop :=
  (notes.map Note.a_id).Nodup

instance (notes : List Note) : Decidable (UniqueIds notes) :=
  inferInstanceAs (Decidable (notes.map Note.a_id).Nodup)

/-! ## Auxiliary definitions for the envelope proofs -/

/-- The level the three consecutive `if`s of `amplitude` leave behind for a
given life time: a later `if` overrides an earlier one. -/
def adsrLevel (e : ADSREnvelope) (life_time : ℚ) : ℚ :=
  if life_time > e.a_attack_time + e.a_decay_time then e.a_sustain_amplitude
  else if life_time > e.a_attack_time ∧ life_time ≤ e.a_attack_time + e.a_decay_time then
    ((life_time - e.a_attack_time) / e.a_decay_time)
      * (e.a_sustain_amplitude - e.a_start_amplitude) + e.a_start_amplitude
  else if life_time ≤ e.a_attack_time then
    (life_time / e.a_attack_time) * e.a_start_amplitude
  else 0

/-- The level the three consecutive `if`s of `amplitudeIEEE` leave behind
for a given life time. -/
def ADSREnvelope.levelIEEE (e : ADSREnvelope) (life_time : Dbl) : Dbl :=
  let a_attack_time := Dbl.fin e.a_attack_time
  let a_decay_time := Dbl.fin e.a_decay_time
  let a_sustain_amplitude := Dbl.fin e.a_sustain_amplitude
  let a_start_amplitude := Dbl.fin e.a_start_amplitude
  let amplitude : Dbl := Dbl.fin 0
  let amplitude :=
    if life_time ≤ a_attack_time then
      (life_time / a_attack_time) * a_start_amplitude
    else amplitude
  let amplitude :=
    if life_time > a_attack_time ∧ life_time ≤ a_attack_time + a_decay_time then
      ((life_time - a_attack_time) / a_decay_time)
        * (a_sustain_amplitude - a_start_amplitude) + a_start_amplitude
    else amplitude
  let amplitude :=
    if life_time > a_attack_time + a_decay_time then
      a_sustain_amplitude
    else amplitude
  amplitude

/-! ## Rounding to double -/

theorem log2Fuel_eq (fuel n : Nat) (h : n ≤ fuel) : log2Fuel fuel n = Nat.log 2 n := by
  induction fuel generalizing n with
  | zero =>
    have : n = 0 := by omega
    subst this
    simp [log2Fuel]
  | succ k ih =>
    unfold log2Fuel
    split_ifs with h2
    · rw [Nat.log_of_lt h2]
    · rw [Nat.log_of_one_lt_of_le (by norm_num) (by omega), ih (n / 2) (by omega)]

theorem natLog2_eq (n : Nat) : natLog2 n = Nat.log 2 n := log2Fuel_eq n n (le_refl n)

theorem ilog2_spec (x : ℚ) (hx : x ≠ 0) : (2 : ℚ) ^ ilog2 x ≤ |x| ∧ |x| < 2 ^ (ilog2 x + 1) := by
  have h2 : (2 : ℚ) ≠ 0 := by norm_num
  have hp0 : x.num.natAbs ≠ 0 := by
    simpa using hx
  have hq0 : x.den ≠ 0 := x.den_nz
  have hp1 := Nat.pow_log_le_self 2 hp0
  have hp2 := Nat.lt_pow_succ_log_self (b := 2) (by norm_num) x.num.natAbs
  have hq1 := Nat.pow_log_le_self 2 hq0
  have hq2 := Nat.lt_pow_succ_log_self (b := 2) (by norm_num) x.den
  have habs : |x| = (x.num.natAbs : ℚ) / (x.den : ℚ) := by
    conv_lhs => rw [← Rat.num_div_den x]
    rw [abs_div, Nat.abs_cast, Nat.cast_natAbs, Int.cast_abs]
  have hqpos : (0 : ℚ) < x.den := by exact_mod_cast x.den_pos
  rw [← natLog2_eq] at hp1 hp2 hq1 hq2
  set lp := natLog2 x.num.natAbs
  set lq := natLog2 x.den
  have hp1' : (2 : ℚ) ^ lp ≤ x.num.natAbs := by exact_mod_cast hp1
  have hp2' : (x.num.natAbs : ℚ) < 2 ^ (lp + 1) := by exact_mod_cast hp2
  have hq1' : (2 : ℚ) ^ lq ≤ x.den := by exact_mod_cast hq1
  have hq2' : (x.den : ℚ) < 2 ^ (lq + 1) := by exact_mod_cast hq2
  have e1 : (2 : ℚ) ^ ((lp : ℤ) - (lq : ℤ) + 1) = 2 ^ (lp + 1) / 2 ^ lq := by
    rw [show ((lp : ℤ) - (lq : ℤ) + 1) = ((lp + 1 : ℕ) : ℤ) - (lq : ℤ) by push_cast; ring,
      zpow_sub₀ h2, zpow_natCast, zpow_natCast]
  have e2 : (2 : ℚ) ^ ((lp : ℤ) - (lq : ℤ) - 1) = 2 ^ lp / 2 ^ (lq + 1) := by
    rw [show ((lp : ℤ) - (lq : ℤ) - 1) = (lp : ℤ) - ((lq + 1 : ℕ) : ℤ) by push_cast; ring,
      zpow_sub₀ h2, zpow_natCast, zpow_natCast]
  unfold ilog2
  rw [if_neg hx]
  simp only []
  split_ifs with h
  · refine ⟨h, ?_⟩
    rw [e1, habs, div_lt_div_iff₀ hqpos (by positivity)]
    calc (x.num.natAbs : ℚ) * 2 ^ lq ≤ x.num.natAbs * x.den :=
          mul_le_mul_of_nonneg_left hq1' (by positivity)
      _ < 2 ^ (lp + 1) * x.den := mul_lt_mul_of_pos_right hp2' hqpos
  · refine ⟨?_, ?_⟩
    · rw [e2, habs, div_le_div_iff₀ (by positivity) hqpos]
      calc (2 : ℚ) ^ lp * x.den ≤ 2 ^ lp * 2 ^ (lq + 1) :=
            mul_le_mul_of_nonneg_left hq2'.le (by positivity)
        _ ≤ x.num.natAbs * 2 ^ (lq + 1) := mul_le_mul_of_nonneg_right hp1' (by positivity)
    · rw [sub_add_cancel]
      exact not_le.mp h

theorem ilog2_eq_log (x : ℚ) : ilog2 x = Int.log 2 |x| := by
  by_cases hx : x = 0
  · subst hx
    simp [ilog2]
  · obtain ⟨h1, h2⟩ := ilog2_spec x hx
    have hpos : 0 < |x| := abs_pos.mpr hx
    have a := (Int.zpow_le_iff_le_log (b := 2) (by norm_num) hpos).mp (by exact_mod_cast h1)
    have b := (Int.lt_zpow_iff_log_lt (b := 2) (by norm_num) hpos).mp (by exact_mod_cast h2)
    omega

theorem ulpExp_eq_log (x : ℚ) : ulpExp x = max (Int.log 2 |x|) (-1022) - 52 := by
  unfold ulpExp
  rw [ilog2_eq_log]

theorem roundEven_cases (x : ℚ) :
    (roundEven x = ⌊x⌋ ∧ x - ⌊x⌋ ≤ 1 / 2) ∨ (roundEven x = ⌊x⌋ + 1 ∧ 1 / 2 ≤ x - ⌊x⌋) := by
  unfold roundEven
  simp only []
  split_ifs with h1 h2 h3
  · exact Or.inl ⟨rfl, h1.le⟩
  · exact Or.inr ⟨rfl, h2.le⟩
  · exact Or.inl ⟨rfl, not_lt.mp h2⟩
  · exact Or.inr ⟨rfl, not_lt.mp h1⟩

theorem roundEven_sub_le (x : ℚ) : |(roundEven x : ℚ) - x| ≤ 1 / 2 := by
  have h0 := Int.floor_le x
  have h1 := Int.lt_floor_add_one x
  rw [abs_le]
  rcases roundEven_cases x with ⟨h, hr⟩ | ⟨h, hr⟩
  · rw [h]; constructor <;> linarith
  · rw [h]; push_cast; constructor <;> linarith

theorem roundEven_intCast (n : ℤ) : roundEven (n : ℚ) = n := by
  unfold roundEven
  simp

theorem roundEven_mono {x y : ℚ} (h : x ≤ y) : roundEven x ≤ roundEven y := by
  have hf : ⌊x⌋ ≤ ⌊y⌋ := Int.floor_mono h
  rcases lt_or_eq_of_le hf with hlt | heq
  · have h1 : roundEven x ≤ ⌊x⌋ + 1 := by
      rcases roundEven_cases x with ⟨h, _⟩ | ⟨h, _⟩ <;> omega
    have h2 : ⌊y⌋ ≤ roundEven y := by
      rcases roundEven_cases y with ⟨h, _⟩ | ⟨h, _⟩ <;> omega
    omega
  · unfold roundEven
    simp only []
    rw [heq]
    have hxy : x - (⌊y⌋ : ℚ) ≤ y - (⌊y⌋ : ℚ) := by linarith
    split_ifs <;> first | omega | (exfalso; linarith)

theorem roundEven_neg (x : ℚ) : roundEven (-x) = -roundEven x := by
  by_cases hx : (⌊x⌋ : ℚ) = x
  · rw [← hx, ← Int.cast_neg, roundEven_intCast, roundEven_intCast]
  · have h0 := Int.floor_le x
    have h1 := Int.lt_floor_add_one x
    have hlt : (⌊x⌋ : ℚ) < x := lt_of_le_of_ne h0 hx
    have hfl : ⌊-x⌋ = -⌊x⌋ - 1 := by
      rw [Int.floor_eq_iff]
      push_cast
      constructor <;> linarith
    unfold roundEven
    simp only []
    rw [hfl]
    push_cast
    split_ifs <;> first | omega | (exfalso; linarith)

theorem two_zpow_pos (e : ℤ) : (0 : ℚ) < 2 ^ e := zpow_pos (by norm_num) e

theorem ulpExp_neg (x : ℚ) : ulpExp (-x) = ulpExp x := by
  rw [ulpExp_eq_log, ulpExp_eq_log, abs_neg]

theorem ulpExp_ge (x : ℚ) : -1074 ≤ ulpExp x := by
  rw [ulpExp_eq_log]
  have := le_max_right (Int.log 2 |x|) (-1022)
  omega

theorem abs_lt_ulpExp (x : ℚ) : |x| < 2 ^ (ulpExp x + 53) := by
  have h1 : |x| < 2 ^ (Int.log 2 |x| + 1) := by
    have := Int.lt_zpow_succ_log_self (b := 2) (by norm_num) |x|
    exact_mod_cast this
  have h2 : Int.log 2 |x| + 1 ≤ ulpExp x + 53 := by
    rw [ulpExp_eq_log]
    have := le_max_left (Int.log 2 |x|) (-1022)
    omega
  exact lt_of_lt_of_le h1 (zpow_le_zpow_right₀ (by norm_num) h2)

theorem ulpExp_le_abs (x : ℚ) (hx : 2 ^ (-1022 : ℤ) ≤ |x|) : 2 ^ (ulpExp x + 52) ≤ |x| := by
  have hpos : 0 < |x| := lt_of_lt_of_le (two_zpow_pos _) hx
  have hlog : -1022 ≤ Int.log 2 |x| := by
    have := (Int.zpow_le_iff_le_log (b := 2) (by norm_num) hpos).mp (by exact_mod_cast hx)
    exact this
  have he : ulpExp x + 52 = Int.log 2 |x| := by
    rw [ulpExp_eq_log]
    rw [max_eq_left hlog]; ring
  rw [he]
  have := Int.zpow_log_le_self (b := 2) (by norm_num) hpos
  exact_mod_cast this

theorem ulpExp_of_small (x : ℚ) (hx : |x| < 2 ^ (-1022 : ℤ)) (h0 : x ≠ 0) : ulpExp x = -1074 := by
  have hpos : 0 < |x| := abs_pos.mpr h0
  have hlog : Int.log 2 |x| < -1022 := by
    have := (Int.lt_zpow_iff_log_lt (b := 2) (by norm_num) hpos).mp (by exact_mod_cast hx)
    exact this
  rw [ulpExp_eq_log]
  rw [max_eq_right hlog.le]; norm_num

theorem fl_zero : fl 0 = 0 := by
  unfold fl
  simp [roundEven]

theorem fl_neg (x : ℚ) : fl (-x) = -fl x := by
  unfold fl
  rw [ulpExp_neg, neg_div, roundEven_neg]
  push_cast
  ring

theorem fl_sub_abs_le (x : ℚ) : |fl x - x| ≤ 2 ^ (ulpExp x) / 2 := by
  have hp := two_zpow_pos (ulpExp x)
  have h := roundEven_sub_le (x / 2 ^ ulpExp x)
  have e : fl x - x = ((roundEven (x / 2 ^ ulpExp x) : ℚ) - x / 2 ^ ulpExp x) * 2 ^ ulpExp x := by
    unfold fl
    field_simp
  rw [e, abs_mul, abs_of_pos hp]
  calc |(roundEven (x / 2 ^ ulpExp x) : ℚ) - x / 2 ^ ulpExp x| * 2 ^ ulpExp x
      ≤ 1 / 2 * 2 ^ ulpExp x := mul_le_mul_of_nonneg_right h hp.le
    _ = 2 ^ ulpExp x / 2 := by ring

/-- Relative error of one rounding, outside the subnormal range. -/
theorem fl_rel_error (x : ℚ) (hx : 2 ^ (-1022 : ℤ) ≤ |x|) :
    |fl x - x| ≤ 2 ^ (-53 : ℤ) * |x| := by
  have h1 := fl_sub_abs_le x
  have h2 := ulpExp_le_abs x hx
  have e : (2 : ℚ) ^ (ulpExp x) / 2 = 2 ^ (-53 : ℤ) * 2 ^ (ulpExp x + 52) := by
    rw [← zpow_add₀ (by norm_num : (2 : ℚ) ≠ 0)]
    rw [div_eq_mul_inv, show (2 : ℚ)⁻¹ = 2 ^ (-1 : ℤ) by norm_num,
      ← zpow_add₀ (by norm_num : (2 : ℚ) ≠ 0)]
    congr 1
    ring
  rw [e] at h1
  exact le_trans h1 (mul_le_mul_of_nonneg_left h2 (two_zpow_pos _).le)

/-- Error of one rounding, subnormal range included. -/
theorem fl_error (x : ℚ) : |fl x - x| ≤ 2 ^ (-53 : ℤ) * |x| + 2 ^ (-1075 : ℤ) := by
  rcases le_or_lt ((2 : ℚ) ^ (-1022 : ℤ)) |x| with h | h
  · have := fl_rel_error x h
    have := two_zpow_pos (-1075)
    linarith
  · by_cases h0 : x = 0
    · subst h0
      rw [fl_zero]
      simp
      positivity
    · have h1 := fl_sub_abs_le x
      rw [ulpExp_of_small x h h0] at h1
      have e : (2 : ℚ) ^ (-1074 : ℤ) / 2 = 2 ^ (-1075 : ℤ) := by
        rw [div_eq_mul_inv, show (2 : ℚ)⁻¹ = 2 ^ (-1 : ℤ) by norm_num,
          ← zpow_add₀ (by norm_num : (2 : ℚ) ≠ 0)]
        norm_num
      rw [e] at h1
      have : 0 ≤ (2 : ℚ) ^ (-53 : ℤ) * |x| := by positivity
      linarith

/-- A multiple `m * 2 ^ e` of a power of two with `|m| ≤ 2 ^ 53` and
`e ≥ -1074` is a double: rounding leaves it unchanged. -/
theorem fl_eq_self_of_lt (m e : ℤ) (hm : |m| < 2 ^ 53) (he : -1074 ≤ e) :
    fl ((m : ℚ) * 2 ^ e) = (m : ℚ) * 2 ^ e := by
  by_cases hm0 : m = 0
  · subst hm0; simp [fl_zero]
  have h2 : (2 : ℚ) ≠ 0 := by norm_num
  set x : ℚ := (m : ℚ) * 2 ^ e with hxdef
  have hx0 : x ≠ 0 := mul_ne_zero (by exact_mod_cast hm0) (two_zpow_pos e).ne'
  have hpos : 0 < |x| := abs_pos.mpr hx0
  have hxlt : |x| < 2 ^ (53 + e) := by
    rw [hxdef, abs_mul, abs_of_pos (two_zpow_pos e), zpow_add₀ h2]
    apply mul_lt_mul_of_pos_right _ (two_zpow_pos e)
    have : ((|m| : ℤ) : ℚ) < 2 ^ 53 := by exact_mod_cast hm
    rw [Int.cast_abs] at this
    have h53 : (2 : ℚ) ^ (53 : ℤ) = 2 ^ (53 : ℕ) := by norm_num
    rw [h53]
    exact this
  have hlog : Int.log 2 |x| < 53 + e :=
    (Int.lt_zpow_iff_log_lt (b := 2) (by norm_num) hpos).mp (by exact_mod_cast hxlt)
  have hE : ulpExp x ≤ e := by
    rw [ulpExp_eq_log]
    rcases max_cases (Int.log 2 |x|) (-1022) with ⟨h, _⟩ | ⟨h, _⟩ <;> rw [h] <;> omega
  obtain ⟨k, hk⟩ : ∃ k : ℕ, e = ulpExp x + k := ⟨(e - ulpExp x).toNat, by omega⟩
  have hx' : x = ((m * 2 ^ k : ℤ) : ℚ) * 2 ^ ulpExp x := by
    have hpow : (2 : ℚ) ^ e = 2 ^ (ulpExp x) * 2 ^ k := by
      rw [hk, zpow_add₀ h2, zpow_natCast]
    calc x = (m : ℚ) * 2 ^ e := hxdef
      _ = _ := by rw [hpow]; push_cast; ring
  have hq : x / 2 ^ ulpExp x = ((m * 2 ^ k : ℤ) : ℚ) := by
    rw [div_eq_iff (two_zpow_pos _).ne']
    exact hx'
  unfold fl
  rw [hq, roundEven_intCast]
  exact hx'.symm

theorem fl_eq_self (m e : ℤ) (hm : |m| ≤ 2 ^ 53) (he : -1074 ≤ e) :
    fl ((m : ℚ) * 2 ^ e) = (m : ℚ) * 2 ^ e := by
  rcases lt_or_eq_of_le hm with h | h
  · exact fl_eq_self_of_lt m e h he
  · have h2 : (2 : ℚ) ≠ 0 := by norm_num
    have hs : (m : ℚ) * 2 ^ e = ((m / 2 : ℤ) : ℚ) * 2 ^ (e + 1) := by
      have hm2 : m = 2 * (m / 2) := by
        rcases abs_cases m with ⟨h1, _⟩ | ⟨h1, _⟩ <;> omega
      rw [zpow_add₀ h2]
      conv_lhs => rw [hm2]
      push_cast
      ring
    rw [hs]
    apply fl_eq_self_of_lt
    · rcases abs_cases m with ⟨h1, _⟩ | ⟨h1, _⟩ <;>
        rcases abs_cases (m / 2) with ⟨h3, _⟩ | ⟨h3, _⟩ <;> omega
    · omega

theorem roundEven_abs_le (x : ℚ) (n : ℕ) (h : |x| ≤ n) : |roundEven x| ≤ n := by
  rw [abs_le] at h ⊢
  constructor
  · have := roundEven_mono h.1
    rw [← Int.cast_natCast, ← Int.cast_neg, roundEven_intCast] at this
    exact this
  · have := roundEven_mono h.2
    rw [← Int.cast_natCast, roundEven_intCast] at this
    exact this

/-- Every value of `fl` is a double. -/
theorem fl_repr (x : ℚ) :
    ∃ m e : ℤ, |m| ≤ 2 ^ 53 ∧ -1074 ≤ e ∧ fl x = (m : ℚ) * 2 ^ e := by
  refine ⟨roundEven (x / 2 ^ ulpExp x), ulpExp x, ?_, ulpExp_ge x, rfl⟩
  have h2 : (2 : ℚ) ≠ 0 := by norm_num
  have hlt := abs_lt_ulpExp x
  have hq : |x / 2 ^ ulpExp x| ≤ ((2 ^ 53 : ℕ) : ℚ) := by
    rw [abs_div, abs_of_pos (two_zpow_pos _), div_le_iff₀ (two_zpow_pos _)]
    rw [zpow_add₀ h2, mul_comm] at hlt
    push_cast
    exact_mod_cast hlt.le
  have := roundEven_abs_le _ _ hq
  exact_mod_cast this

theorem fl_idem (x : ℚ) : fl (fl x) = fl x := by
  obtain ⟨m, e, hm, he, h⟩ := fl_repr x
  rw [h]
  exact fl_eq_self m e hm he

theorem fl_nonneg {x : ℚ} (hx : 0 ≤ x) : 0 ≤ fl x := by
  unfold fl
  have h : 0 ≤ x / 2 ^ ulpExp x := div_nonneg hx (two_zpow_pos _).le
  have := roundEven_mono h
  rw [← Int.cast_zero, roundEven_intCast] at this
  exact mul_nonneg (by exact_mod_cast this) (two_zpow_pos _).le

theorem fl_le_pow (x : ℚ) : fl x ≤ 2 ^ (ulpExp x + 53) := by
  have h2 : (2 : ℚ) ≠ 0 := by norm_num
  have hlt := abs_lt_ulpExp x
  have hq : x / 2 ^ ulpExp x ≤ ((2 ^ 53 : ℤ) : ℚ) := by
    rw [div_le_iff₀ (two_zpow_pos _)]
    rw [zpow_add₀ h2, mul_comm] at hlt
    push_cast
    exact le_trans (le_abs_self x) (by exact_mod_cast hlt.le)
  have := roundEven_mono hq
  rw [roundEven_intCast] at this
  unfold fl
  rw [zpow_add₀ h2, mul_comm ((2 : ℚ) ^ ulpExp x)]
  apply mul_le_mul_of_nonneg_right _ (two_zpow_pos _).le
  have h53 : (2 : ℚ) ^ (53 : ℤ) = ((2 ^ 53 : ℤ) : ℚ) := by norm_num
  rw [h53]
  exact_mod_cast this

theorem pow_le_fl (y : ℚ) (hy : 0 < y) (h : -1074 < ulpExp y) : 2 ^ (ulpExp y + 52) ≤ fl y := by
  have h2 : (2 : ℚ) ≠ 0 := by norm_num
  have hlog : -1022 < Int.log 2 |y| := by
    rw [ulpExp_eq_log] at h
    rcases max_cases (Int.log 2 |y|) (-1022) with ⟨h1, _⟩ | ⟨h1, _⟩ <;> rw [h1] at h <;> omega
  have he : ulpExp y + 52 = Int.log 2 |y| := by
    rw [ulpExp_eq_log]
    rw [max_eq_left hlog.le]; ring
  have hle : (2 : ℚ) ^ (ulpExp y + 52) ≤ y := by
    rw [he]
    have := Int.zpow_log_le_self (b := 2) (by norm_num) (abs_pos.mpr hy.ne')
    rw [abs_of_pos hy] at this
    rw [abs_of_pos hy]
    exact_mod_cast this
  have hq : ((2 ^ 52 : ℤ) : ℚ) ≤ y / 2 ^ ulpExp y := by
    rw [le_div_iff₀ (two_zpow_pos _)]
    rw [zpow_add₀ h2, mul_comm] at hle
    push_cast
    exact_mod_cast hle
  have := roundEven_mono hq
  rw [roundEven_intCast] at this
  unfold fl
  rw [zpow_add₀ h2, mul_comm ((2 : ℚ) ^ ulpExp y)]
  apply mul_le_mul_of_nonneg_right _ (two_zpow_pos _).le
  have h52 : (2 : ℚ) ^ (52 : ℤ) = ((2 ^ 52 : ℤ) : ℚ) := by norm_num
  rw [h52]
  exact_mod_cast this

theorem ulpExp_mono {x y : ℚ} (hx : 0 < x) (h : x ≤ y) : ulpExp x ≤ ulpExp y := by
  rw [ulpExp_eq_log, ulpExp_eq_log]
  have hy : 0 < y := lt_of_lt_of_le hx h
  rw [abs_of_pos hx, abs_of_pos hy]
  have := Int.log_mono_right (b := 2) hx h
  exact sub_le_sub_right (max_le_max this (le_refl _)) _

theorem fl_mono_pos {x y : ℚ} (hx : 0 < x) (h : x ≤ y) : fl x ≤ fl y := by
  have hy : 0 < y := lt_of_lt_of_le hx h
  have hE := ulpExp_mono hx h
  rcases lt_or_eq_of_le hE with hlt | heq
  · have h1 := fl_le_pow x
    have h2 := pow_le_fl y hy (lt_of_le_of_lt (ulpExp_ge x) hlt)
    have h3 : (2 : ℚ) ^ (ulpExp x + 53) ≤ 2 ^ (ulpExp y + 52) :=
      zpow_le_zpow_right₀ (by norm_num) (by omega)
    linarith
  · unfold fl
    rw [heq]
    apply mul_le_mul_of_nonneg_right _ (two_zpow_pos _).le
    have : x / 2 ^ ulpExp y ≤ y / 2 ^ ulpExp y :=
      div_le_div_of_nonneg_right h (two_zpow_pos _).le
    exact_mod_cast roundEven_mono this

/-- Rounding to nearest is monotone. -/
theorem fl_mono {x y : ℚ} (h : x ≤ y) : fl x ≤ fl y := by
  rcases lt_trichotomy x 0 with hx | hx | hx
  · rcases lt_or_le y 0 with hy | hy
    · have := fl_mono_pos (neg_pos.mpr hy) (neg_le_neg h)
      rw [fl_neg, fl_neg] at this
      linarith
    · have h1 := fl_nonneg (neg_pos.mpr hx).le
      rw [fl_neg] at h1
      have h2 := fl_nonneg hy
      linarith
  · subst hx
    rw [fl_zero]
    exact fl_nonneg h
  · exact fl_mono_pos hx h

theorem fl_nonpos {x : ℚ} (hx : x ≤ 0) : fl x ≤ 0 := by
  have := fl_mono hx
  rwa [fl_zero] at this

/-- A double above `x` is above the rounded `x`. -/
theorem fl_le_of_le {x y : ℚ} (hy : fl y = y) (h : x ≤ y) : fl x ≤ y := by
  have := fl_mono h
  rwa [hy] at this

theorem le_fl_of_le {x y : ℚ} (hx : fl x = x) (h : x ≤ y) : x ≤ fl y := by
  have := fl_mono h
  rwa [hx] at this

theorem fl_intCast (n : ℤ) (hn : |n| ≤ 2 ^ 53) : fl (n : ℚ) = n := by
  have := fl_eq_self n 0 hn (by norm_num)
  simpa using this

theorem fl_one : fl 1 = 1 := by
  have := fl_intCast 1 (by norm_num)
  simpa using this

theorem fl_neg_of_repr {x : ℚ} (hx : fl x = x) : fl (-x) = -x := by
  rw [fl_neg, hx]

/-- Upper bound of one rounding of a non-negative number. -/
theorem fl_le_mul {x : ℚ} (hx : 0 ≤ x) : fl x ≤ (1 + 2 ^ (-53 : ℤ)) * x + 2 ^ (-1075 : ℤ) := by
  have h := fl_error x
  rw [abs_of_nonneg hx] at h
  have := (abs_le.mp h).2
  linarith

theorem abs_fl_le (x : ℚ) : |fl x| ≤ (1 + 2 ^ (-53 : ℤ)) * |x| + 2 ^ (-1075 : ℤ) := by
  have h := fl_error x
  have h1 : |fl x| ≤ |fl x - x| + |x| := by
    have := abs_add (fl x - x) x
    simpa using this
  linarith

theorem abs_fl (x : ℚ) : |fl x| = fl |x| := by
  rcases le_total 0 x with h | h
  · rw [abs_of_nonneg h, abs_of_nonneg (fl_nonneg h)]
  · rw [abs_of_nonpos h, abs_of_nonpos (fl_nonpos h), fl_neg]
/-- One rounding of a positive number outside the subnormal range. -/
theorem fl_bounds_pos {y : ℚ} (hy : 2 ^ (-1022 : ℤ) ≤ y) :
    (1 - 2 ^ (-53 : ℤ)) * y ≤ fl y ∧ fl y ≤ (1 + 2 ^ (-53 : ℤ)) * y := by
  have hpos : 0 < y := lt_of_lt_of_le (two_zpow_pos _) hy
  have h := fl_rel_error y (by rwa [abs_of_pos hpos])
  rw [abs_of_pos hpos, abs_le] at h
  constructor <;> linarith [h.1, h.2]

theorem Dbl.fin_add_fin (a b : ℚ) : Dbl.fin a + Dbl.fin b = Dbl.fin (fl (a + b)) := rfl

theorem Dbl.fin_sub_fin (a b : ℚ) : Dbl.fin a - Dbl.fin b = Dbl.fin (fl (a - b)) := rfl

theorem Dbl.fin_mul_fin (a b : ℚ) : Dbl.fin a * Dbl.fin b = Dbl.fin (fl (a * b)) := rfl

theorem Dbl.fin_div_fin (a b : ℚ) (hb : b ≠ 0) :
    Dbl.fin a / Dbl.fin b = Dbl.fin (fl (a / b)) := by
  show Dbl.div (Dbl.fin a) (Dbl.fin b) = _
  simp only [Dbl.div, if_neg hb]

theorem Dbl.fin_le_fin (a b : ℚ) : Dbl.fin a ≤ Dbl.fin b ↔ a ≤ b := by
  show Dbl.le (Dbl.fin a) (Dbl.fin b) = true ↔ _
  simp [Dbl.le]

theorem Dbl.fin_lt_fin (a b : ℚ) : Dbl.fin a < Dbl.fin b ↔ a < b := by
  show Dbl.lt (Dbl.fin a) (Dbl.fin b) = true ↔ _
  simp [Dbl.lt]

/-! ## The registry: `generateSound`, the key polling step, `Arpeggiator::update` -/

theorem safeRemove_eq_filter (func : Note → Bool) (v : List Note) :
    safeRemove func v = v.filter func := by
  induction v with
  | nil => rfl
  | cons n rest ih =>
    cases h : func n <;> simp [safeRemove, h, ih]

theorem sound_finished_iff (inst : Instrument) (w time : ℚ) (n : Note) :
    (inst.sound w time n false).2 = true
      ↔ inst.a_envelope.amplitude time n.a_on n.a_off ≤ 0 := by
  unfold Instrument.sound
  by_cases h : inst.a_envelope.amplitude time n.a_on n.a_off ≤ 0 <;> simp [h]

theorem markFinished_eq (inst : Instrument) (wave : Note → ℚ) (time : ℚ) (n : Note) :
    markFinished inst wave time n
      = if inst.a_envelope.amplitude time n.a_on n.a_off ≤ 0 ∧ n.a_off > n.a_on then
          { n with a_active := false }
        else n := by
  simp only [markFinished, sound_finished_iff]

/-- What survives `generateSound`: exactly the entries whose flag `a_active`
was set and that are not both finished and released (`a_off > a_on`); they are
kept as they were. -/
theorem mem_generateSound_iff (inst : Instrument) (wave : Note → ℚ) (process : ℚ → ℚ)
    (time : ℚ) (notes : List Note) (m : Note) :
    m ∈ (generateSound inst wave process time notes).2
      ↔ m ∈ notes ∧ m.a_active = true
          ∧ ¬ (inst.a_envelope.amplitude time m.a_on m.a_off ≤ 0 ∧ m.a_off > m.a_on) := by
  simp only [generateSound, safeRemove_eq_filter, List.mem_filter, List.mem_map]
  constructor
  · rintro ⟨⟨a, ha, rfl⟩, hact⟩
    rw [markFinished_eq] at hact ⊢
    by_cases hc : inst.a_envelope.amplitude time a.a_on a.a_off ≤ 0 ∧ a.a_off > a.a_on
    · rw [if_pos hc] at hact
      simp at hact
    · rw [if_neg hc] at hact ⊢
      exact ⟨ha, hact, hc⟩
  · rintro ⟨hm, hact, hc⟩
    refine ⟨⟨m, hm, ?_⟩, hact⟩
    rw [markFinished_eq, if_neg hc]

theorem markFinished_fields (inst : Instrument) (wave : Note → ℚ) (time : ℚ) (n : Note) :
    (markFinished inst wave time n).a_id = n.a_id
      ∧ (markFinished inst wave time n).a_on = n.a_on
      ∧ (markFinished inst wave time n).a_off = n.a_off := by
  rw [markFinished_eq]
  split_ifs <;> exact ⟨rfl, rfl, rfl⟩

/-- The mixing and reaping step keeps the registry invariant: it changes no
id and no timestamp, and only removes entries. -/
theorem generateSound_keeps_invariant (inst : Instrument) (wave : Note → ℚ)
    (process : ℚ → ℚ) (time : ℚ) (notes : List Note) (h : RegistryInvariant notes) :
    RegistryInvariant (generateSound inst wave process time notes).2 := by
  unfold RegistryInvariant at h ⊢
  simp only [generateSound, safeRemove_eq_filter]
  refine List.Pairwise.sublist (List.filter_sublist _) ?_
  rw [List.pairwise_map]
  refine h.imp ?_
  intro a b hab ha hb
  obtain ⟨ha1, ha2, ha3⟩ := markFinished_fields inst wave time a
  obtain ⟨hb1, hb2, hb3⟩ := markFinished_fields inst wave time b
  rw [ha1, hb1]
  refine hab ?_ ?_
  · unfold Note.sounding at ha ⊢; rw [ha2, ha3] at ha; exact ha
  · unfold Note.sounding at hb ⊢; rw [hb2, hb3] at hb; exact hb

theorem modifyFirst_cons_neg (p : Note → Bool) (f : Note → Note) (n : Note) (l : List Note)
    (h : p n = false) : modifyFirst p f (n :: l) = n :: modifyFirst p f l := by
  simp [modifyFirst, h]

theorem modifyFirst_cons_pos (p : Note → Bool) (f : Note → Note) (n : Note) (l : List Note)
    (h : p n = true) : modifyFirst p f (n :: l) = f n :: l := by
  simp [modifyFirst, h]

theorem modifyFirst_length (p : Note → Bool) (f : Note → Note) (l : List Note) :
    (modifyFirst p f l).length = l.length := by
  induction l with
  | nil => rfl
  | cons n rest ih =>
    cases h : p n <;> simp [modifyFirst, h, ih]

/-- Either no element satisfies `p` and the list is returned as it is, or the
list splits around the first element satisfying `p` and only that element is
replaced. -/
theorem modifyFirst_spec (p : Note → Bool) (f : Note → Note) (l : List Note) :
    ((∀ n ∈ l, p n = false) ∧ modifyFirst p f l = l) ∨
      ∃ l1 x l2, l = l1 ++ x :: l2 ∧ p x = true ∧ (∀ n ∈ l1, p n = false)
        ∧ modifyFirst p f l = l1 ++ f x :: l2 := by
  induction l with
  | nil => exact Or.inl ⟨by simp, rfl⟩
  | cons n rest ih =>
    cases h : p n
    · rcases ih with ⟨hall, heq⟩ | ⟨l1, x, l2, hl, hx, hl1, heq⟩
      · left
        refine ⟨?_, by simp [modifyFirst, h, heq]⟩
        intro m hm
        rcases List.mem_cons.mp hm with rfl | hm
        · exact h
        · exact hall m hm
      · right
        refine ⟨n :: l1, x, l2, by simp [hl], hx, ?_, by simp [modifyFirst, h, heq]⟩
        intro m hm
        rcases List.mem_cons.mp hm with rfl | hm
        · exact h
        · exact hl1 m hm
    · right
      exact ⟨[], n, rest, rfl, h, by simp, by simp [modifyFirst, h]⟩

/-- A replacement that keeps `a_id` and `a_on` keeps them on the last element,
whichever element is replaced. -/
theorem modifyFirst_getLast (p : Note → Bool) (f : Note → Note)
    (hf : ∀ n, (f n).a_id = n.a_id ∧ (f n).a_on = n.a_on) (l : List Note) (m : Note)
    (hm : l.getLast? = some m) :
    ∃ m', (modifyFirst p f l).getLast? = some m' ∧ m'.a_id = m.a_id ∧ m'.a_on = m.a_on := by
  induction l with
  | nil => simp at hm
  | cons n rest ih =>
    cases rest with
    | nil =>
      simp at hm
      subst hm
      cases h : p n
      · exact ⟨n, by simp [modifyFirst, h], rfl, rfl⟩
      · exact ⟨f n, by simp [modifyFirst, h], (hf n).1, (hf n).2⟩
    | cons n2 rest2 =>
      have hm2 : (n2 :: rest2).getLast? = some m := by
        rw [List.getLast?_cons_cons] at hm; exact hm
      cases h : p n
      · obtain ⟨m', h1, h2⟩ := ih hm2
        refine ⟨m', ?_, h2⟩
        have hlen := modifyFirst_length p f (n2 :: rest2)
        cases hmf : modifyFirst p f (n2 :: rest2) with
        | nil => rw [hmf] at hlen; simp at hlen
        | cons a b =>
          rw [hmf] at h1
          rw [modifyFirst_cons_neg p f n _ h, hmf, List.getLast?_cons_cons]
          exact h1
      · refine ⟨m, ?_, rfl, rfl⟩
        rw [modifyFirst_cons_pos p f n _ h, List.getLast?_cons_cons]
        exact hm2

theorem castInt_of_nonneg (q : ℚ) (h0 : 0 ≤ q) (h1 : q < 2 ^ 31) : castInt q = ⌊q⌋ := by
  have hf0 : (0 : Int) ≤ ⌊q⌋ := Int.floor_nonneg.mpr h0
  have hf1 : ⌊q⌋ < 2 ^ 31 := by
    rw [Int.floor_lt]; exact_mod_cast h1
  simp only [castInt, truncToInt, if_pos h0]
  rw [if_pos ⟨by linarith, hf1⟩]

theorem toSizeT_of_nonneg (i : Int) (h0 : 0 ≤ i) (h1 : i < 2 ^ 31) : toSizeT i = i.toNat := by
  unfold toSizeT
  rw [Int.emod_eq_of_lt h0 (by linarith)]

/-- For a non-negative elapsed time whose double quotient fits an `int`,
truncation is the floor and the unsigned conversion changes nothing. -/
theorem note_index_of_nonneg (arp : Arpeggiator) (now : ℚ)
    (hd : 0 < arp.a_note_duration) (hs : arp.a_arpeggio_start_time ≤ now)
    (hq : fl (fl (now - arp.a_arpeggio_start_time) / arp.a_note_duration) < 2 ^ 31) :
    (arp.note_index now : Int)
      = ⌊fl (fl (now - arp.a_arpeggio_start_time) / arp.a_note_duration)⌋
          % (arp.a_chord.length : Int) := by
  have h0 : 0 ≤ fl (fl (now - arp.a_arpeggio_start_time) / arp.a_note_duration) :=
    fl_nonneg (div_nonneg (fl_nonneg (sub_nonneg.mpr hs)) hd.le)
  have hf0 : (0 : Int)
      ≤ ⌊fl (fl (now - arp.a_arpeggio_start_time) / arp.a_note_duration)⌋ :=
    Int.floor_nonneg.mpr h0
  have hf1 : ⌊fl (fl (now - arp.a_arpeggio_start_time) / arp.a_note_duration)⌋ < 2 ^ 31 := by
    rw [Int.floor_lt]; exact_mod_cast hq
  unfold Arpeggiator.note_index
  simp only []
  rw [Dbl.fin_sub_fin, Dbl.fin_div_fin _ _ hd.ne']
  show ((toSizeT (castInt _) % _ : ℕ) : Int) = _
  rw [castInt_of_nonneg _ h0 hq, toSizeT_of_nonneg _ hf0 hf1, Int.natCast_mod,
    Int.toNat_of_nonneg hf0]

theorem note_index_lt (arp : Arpeggiator) (now : ℚ) (hne : arp.a_chord ≠ []) :
    arp.note_index now < arp.a_chord.length :=
  Nat.mod_lt _ (List.length_pos.mpr hne)

theorem update_of_ne_nil (arp : Arpeggiator) (now : ℚ) (notes : List Note)
    (hne : arp.a_chord ≠ []) :
    arp.update now notes
      = if arp.note_index now > 0 then
          releaseNote (arp.a_chord.getD (arp.note_index now - 1) 0) now
            (notes ++ [Note.mk (arp.a_chord.getD (arp.note_index now) 0) now 0 true])
        else if arp.a_chord.length > 1 then
          releaseNote (arp.a_chord.getLastD 0) now
            (notes ++ [Note.mk (arp.a_chord.getD (arp.note_index now) 0) now 0 true])
        else notes ++ [Note.mk (arp.a_chord.getD (arp.note_index now) 0) now 0 true] := by
  have h : arp.a_chord.isEmpty = false := by
    cases hc : arp.a_chord with
    | nil => exact absurd hc hne
    | cons a b => rfl
  simp only [Arpeggiator.update, h]
  rfl

theorem releaseNote_length (id : Int) (time : ℚ) (notes : List Note) :
    (releaseNote id time notes).length = notes.length :=
  modifyFirst_length _ _ _

theorem releaseNote_getLast (id : Int) (time : ℚ) (notes : List Note) (m : Note)
    (hm : notes.getLast? = some m) :
    ∃ m', (releaseNote id time notes).getLast? = some m' ∧ m'.a_id = m.a_id
      ∧ m'.a_on = m.a_on := by
  unfold releaseNote
  exact modifyFirst_getLast (fun item => item.a_id == id)
    (fun note_found => { note_found with a_off := time, a_active := false })
    (fun n => ⟨rfl, rfl⟩) notes m hm

/-- The release either finds no entry with the id and changes nothing, or
changes exactly the first entry with that id. -/
theorem releaseNote_spec (id : Int) (time : ℚ) (notes : List Note) :
    ((∀ n ∈ notes, n.a_id ≠ id) ∧ releaseNote id time notes = notes) ∨
      ∃ l1 x l2, notes = l1 ++ x :: l2 ∧ x.a_id = id ∧ (∀ n ∈ l1, n.a_id ≠ id)
        ∧ releaseNote id time notes
            = l1 ++ { x with a_off := time, a_active := false } :: l2 := by
  rcases modifyFirst_spec (fun item => item.a_id == id)
      (fun note_found => { note_found with a_off := time, a_active := false }) notes with
    ⟨hall, heq⟩ | ⟨l1, x, l2, hl, hx, hl1, heq⟩
  · left
    refine ⟨fun n hn => ?_, heq⟩
    have := hall n hn
    simpa using this
  · right
    refine ⟨l1, x, l2, hl, by simpa using hx, fun n hn => ?_, heq⟩
    have := hl1 n hn
    simpa using this

/-! ## Claims on the registry -/

/-- C1, evaluation at the failing input.  Key 1 is pressed at clock value 1:
the key polling step puts one sounding entry with id 1 in the empty registry,
and the registry invariant holds.  The arpeggiator of `main` (its chord,
note duration 1/2, started at 0) is then updated at clock value 3/2: the step
index is 3, `chord[3] = 1`, and `update` appends a second sounding entry with
id 1; the note it releases has id `chord[2] = 8`.  The invariant no longer
holds. -/
theorem update_breaks_registry_invariant :
    keyStep 1 true 1 [] = [Note.mk 1 1 0 true] ∧
      RegistryInvariant [Note.mk 1 1 0 true] ∧
      (arp 0).note_index (3 / 2) = 3 ∧
      (arp 0).update (3 / 2) [Note.mk 1 1 0 true]
        = [Note.mk 1 1 0 true, Note.mk 1 (3 / 2) 0 true] ∧
      (Note.mk 1 1 0 true).sounding ∧ (Note.mk 1 (3 / 2) 0 true).sounding ∧
      ¬ RegistryInvariant ((arp 0).update (3 / 2) [Note.mk 1 1 0 true]) := by
  refine ⟨by decide!, by decide!, by decide!, by decide!, by decide!, by decide!, by decide!⟩

/-- C2, evaluation at the failing input.  The arpeggiator of `main` is updated
at clock values 1/2 and 1 on an empty registry: the second update releases the
note with id 5 played by the first, which sets `a_off = 1` and clears
`a_active`.  At clock value 1 the Piano envelope of that note is 251/300, not
finished, and `generateSound` removes the note all the same. -/
theorem generateSound_removes_unfinished_note :
    (arp 0).update 1 ((arp 0).update (1 / 2) [])
        = [Note.mk 5 (1 / 2) 1 false, Note.mk 8 1 0 true] ∧
      Instrument.Piano.a_envelope.amplitude 1 (1 / 2) 1 = 251 / 300 ∧
      (Instrument.Piano.sound 1 1 (Note.mk 5 (1 / 2) 1 false) false).2 = false ∧
      (generateSound .Piano (fun _ => 1) id 1
          [Note.mk 5 (1 / 2) 1 false, Note.mk 8 1 0 true]).2
        = [Note.mk 8 1 0 true] := by
  refine ⟨by decide!, by decide!, by decide!, by decide!⟩

/-- C3, as amended: a note of the registry with `offTime > onTime` for which
the active instrument reports envelope amplitude `≤ 0` at the current time is
no longer in the registry after one call of `generateSound`. -/
theorem generateSound_reaps_finished (inst : Instrument) (wave : Note → ℚ)
    (process : ℚ → ℚ) (time : ℚ) (notes : List Note) (n : Note)
    (_hn : n ∈ notes) (hrel : n.a_off > n.a_on)
    (hfin : inst.a_envelope.amplitude time n.a_on n.a_off ≤ 0) :
    n ∉ (generateSound inst wave process time notes).2 := by
  intro hmem
  rw [mem_generateSound_iff] at hmem
  exact hmem.2.2 ⟨hfin, hrel⟩

/-- C3, witness: a Piano note switched on at 0 and released at 1/2 is gone
after the call at time 1. -/
theorem generateSound_reaps_finished_witness :
    Instrument.Piano.a_envelope.amplitude 1 0 (1 / 2) ≤ 0 ∧
      Note.mk 5 0 (1 / 2) true ∉
        (generateSound .Piano (fun _ => 1) id 1 [Note.mk 5 0 (1 / 2) true]).2 :=
  have hfin : Instrument.Piano.a_envelope.amplitude 1 0 (1 / 2) ≤ 0 := by
    norm_num [ADSREnvelope.amplitude, Instrument.a_envelope, ADSREnvelope.ctor]
  ⟨hfin, generateSound_reaps_finished .Piano (fun _ => 1) id 1 [Note.mk 5 0 (1 / 2) true]
    (Note.mk 5 0 (1 / 2) true) (List.mem_singleton.mpr rfl) (by norm_num) hfin⟩

/-- C3, counterexample: a note with `offTime = onTime = 0` whose flag
`a_active` is set is in its released state in the sense `offTime ≥ onTime`, the
Piano reports amplitude 0 for it at time 1, and `generateSound` keeps it: the
test in `generateSound` is the strict `a_off > a_on`. -/
theorem generateSound_reaps_finished_counterexample :
    (Note.mk 5 0 0 true).a_off ≥ (Note.mk 5 0 0 true).a_on ∧
      Instrument.Piano.a_envelope.amplitude 1 0 0 ≤ 0 ∧
      (generateSound .Piano (fun _ => 1) id 1 [Note.mk 5 0 0 true]).2
        = [Note.mk 5 0 0 true] := by
  have hfin : Instrument.Piano.a_envelope.amplitude 1 0 0 = 0 := by
    norm_num [ADSREnvelope.amplitude, Instrument.a_envelope, ADSREnvelope.ctor]
  refine ⟨le_refl _, hfin.le, ?_⟩
  simp [generateSound, markFinished, safeRemove]

/-! ## Claims on the arpeggiator -/

/-- C4, as amended: when `now ≥ startTime`, `noteDuration > 0` and the quotient
`q = (now - startTime) / noteDuration` as the code computes it in double
arithmetic (the difference and the quotient each rounded to the nearest double)
is below `2 ^ 31`, so that it fits the `int` that `static_cast<int>` produces,
the step index computed by `Arpeggiator::update` is `floor(q) mod chordLength`.
When neither operation rounds, `q` is the exact quotient. -/
theorem note_index_eq_floor_mod (arp : Arpeggiator) (now : ℚ)
    (hd : 0 < arp.a_note_duration) (hs : arp.a_arpeggio_start_time ≤ now)
    (hq : fl (fl (now - arp.a_arpeggio_start_time) / arp.a_note_duration) < 2 ^ 31) :
    (arp.note_index now : Int)
        = ⌊fl (fl (now - arp.a_arpeggio_start_time) / arp.a_note_duration)⌋
            % (arp.a_chord.length : Int) ∧
      (fl (now - arp.a_arpeggio_start_time) = now - arp.a_arpeggio_start_time →
        fl ((now - arp.a_arpeggio_start_time) / arp.a_note_duration)
          = (now - arp.a_arpeggio_start_time) / arp.a_note_duration →
        (arp.note_index now : Int)
          = ⌊(now - arp.a_arpeggio_start_time) / arp.a_note_duration⌋
              % (arp.a_chord.length : Int)) := by
  have h := note_index_of_nonneg arp now hd hs hq
  refine ⟨h, fun h1 h2 => ?_⟩
  rw [h1, h2] at h
  exact h

/-- C4, witness: chord `[1, 5, 8]`, note duration 1/2, start 0, at time 7/4 the
quotient is 7/2, computed without rounding, and the step index is
`3 mod 3 = 0`. -/
theorem note_index_eq_floor_mod_witness :
    fl (fl ((7 / 4 : ℚ) - 0) / (1 / 2)) = 7 / 2 ∧
      ((Arpeggiator.mk [1, 5, 8] (1 / 2) 0).note_index (7 / 4) : Int)
        = ⌊fl (fl ((7 / 4 : ℚ) - 0) / (1 / 2))⌋ % (([1, 5, 8] : List Int).length : Int) ∧
      (Arpeggiator.mk [1, 5, 8] (1 / 2) 0).note_index (7 / 4) = 0 :=
  ⟨by decide!,
    (note_index_eq_floor_mod (Arpeggiator.mk [1, 5, 8] (1 / 2) 0) (7 / 4)
      (by norm_num) (by norm_num) (by decide!)).1, by decide!⟩

/-- C4, counterexample.  First input: chord `[1, 5, 8]`, note duration 0.1 (the
double nearest to 1/10, which is above 1/10), start time 0 and `now = 1`.  The
exact quotient is below 10 and its floor is 9, whose remainder modulo 3 is 0;
the division of the code rounds the quotient to 10.0 and the step index is 1.
Second input: chord `[1, 5, 8]`, note duration 1/2, start time 1 and
`now = 3/4`.  The quotient is -1/2; `static_cast<int>` rounds it toward zero,
so the code computes step index 0, while the floor is -1, whose remainder
modulo 3 is 2 (or -1 with the truncating remainder of C++). -/
theorem note_index_eq_floor_mod_counterexample :
    fl (1 / 10) = 3602879701896397 / 36028797018963968 ∧
      (Arpeggiator.mk [1, 5, 8] (fl (1 / 10)) 0).note_index 1 = 1 ∧
      ⌊((1 : ℚ) - 0) / fl (1 / 10)⌋ % (([1, 5, 8] : List Int).length : Int) = 0 ∧
      (Arpeggiator.mk [1, 5, 8] (1 / 2) 1).note_index (3 / 4) = 0 ∧
      ⌊((3 / 4 : ℚ) - 1) / (1 / 2)⌋ % (([1, 5, 8] : List Int).length : Int) = 2 ∧
      Int.tmod ⌊((3 / 4 : ℚ) - 1) / (1 / 2)⌋ (([1, 5, 8] : List Int).length : Int) = -1 := by
  refine ⟨by decide!, by decide!, by decide!, by decide!, by decide!, by decide!⟩

/-- C5, as amended: for a non-empty chord, `noteDuration > 0`,
`now ≥ startTime` and a quotient `q = (now - startTime) / noteDuration`, as the
code computes it in double arithmetic, below `2 ^ 31`, with
`s = floor(q) mod chordLength`,
`Arpeggiator::update(now)` makes the registry one entry longer, its last entry
has id `chord[s]` and `onTime = now`, and at most one entry of the registry with
the new note appended is released (its `offTime` becomes `now`, its id and
`onTime` stay): the first entry whose id is `chord[s-1]` when `s > 0`, or the
last chord id when `s = 0` and `chordLength > 1`.  Every other entry is
unchanged, and when no entry has that id nothing is released. -/
theorem update_plays_and_releases (arp : Arpeggiator) (now : ℚ) (notes : List Note)
    (hne : arp.a_chord ≠ []) (hd : 0 < arp.a_note_duration)
    (hs : arp.a_arpeggio_start_time ≤ now)
    (hq : fl (fl (now - arp.a_arpeggio_start_time) / arp.a_note_duration) < 2 ^ 31) :
    ∃ (s : Nat) (played : Note) (target : Int),
      (s : Int) = ⌊fl (fl (now - arp.a_arpeggio_start_time) / arp.a_note_duration)⌋
          % (arp.a_chord.length : Int) ∧
      s < arp.a_chord.length ∧
      played = Note.mk (arp.a_chord.getD s 0) now 0 true ∧
      target = (if 0 < s then arp.a_chord.getD (s - 1) 0 else arp.a_chord.getLastD 0) ∧
      (arp.update now notes).length = notes.length + 1 ∧
      (∃ m, (arp.update now notes).getLast? = some m ∧ m.a_id = arp.a_chord.getD s 0
        ∧ m.a_on = now) ∧
      (s = 0 ∧ arp.a_chord.length = 1 → arp.update now notes = notes ++ [played]) ∧
      (¬ (s = 0 ∧ arp.a_chord.length = 1) →
        ((∀ n ∈ notes ++ [played], n.a_id ≠ target)
          ∧ arp.update now notes = notes ++ [played]) ∨
        ∃ l1 x x' l2, notes ++ [played] = l1 ++ x :: l2 ∧ x.a_id = target ∧
          (∀ n ∈ l1, n.a_id ≠ target) ∧
          x'.a_id = x.a_id ∧ x'.a_on = x.a_on ∧ x'.a_off = now ∧
          arp.update now notes = l1 ++ x' :: l2) := by
  have hlt := note_index_lt arp now hne
  have hup := update_of_ne_nil arp now notes hne
  refine ⟨arp.note_index now, Note.mk (arp.a_chord.getD (arp.note_index now) 0) now 0 true,
    (if 0 < arp.note_index now then arp.a_chord.getD (arp.note_index now - 1) 0
      else arp.a_chord.getLastD 0),
    note_index_of_nonneg arp now hd hs hq, hlt, rfl, rfl, ?_, ?_, ?_, ?_⟩
  · rw [hup]
    split_ifs <;> simp [releaseNote_length]
  · have hlast : (notes ++ [Note.mk (arp.a_chord.getD (arp.note_index now) 0) now 0 true]).getLast?
        = some (Note.mk (arp.a_chord.getD (arp.note_index now) 0) now 0 true) := by
      simp
    rw [hup]
    split_ifs
    · exact releaseNote_getLast _ _ _ _ hlast
    · exact releaseNote_getLast _ _ _ _ hlast
    · exact ⟨_, hlast, rfl, rfl⟩
  · rintro ⟨h0, h1⟩
    rw [hup, if_neg (by omega), if_neg (by omega)]
  · intro hnot
    rw [hup]
    have hrel : ∀ id : Int, ∀ l : List Note,
        ((∀ n ∈ l, n.a_id ≠ id) ∧ releaseNote id now l = l) ∨
          ∃ l1 x x' l2, l = l1 ++ x :: l2 ∧ x.a_id = id ∧ (∀ n ∈ l1, n.a_id ≠ id) ∧
            x'.a_id = x.a_id ∧ x'.a_on = x.a_on ∧ x'.a_off = now ∧
            releaseNote id now l = l1 ++ x' :: l2 := by
      intro id l
      rcases releaseNote_spec id now l with h | ⟨l1, x, l2, hl, hx, hl1, heq⟩
      · exact Or.inl h
      · exact Or.inr ⟨l1, x, { x with a_off := now, a_active := false }, l2, hl, hx, hl1,
          rfl, rfl, rfl, heq⟩
    by_cases h0 : 0 < arp.note_index now
    · rw [if_pos h0, if_pos h0]
      exact hrel _ _
    · rw [if_neg h0, if_neg h0, if_pos (by omega)]
      exact hrel _ _

/-- C5, witness: chord `[1, 5, 8]`, note duration 1/2, start time 0.  At
`now = 0` the step is 0 and id 1 is played; at `now = 1/2` the step is 1, id 5
is played and the entry with id 1 is released; at `now = 3/2` the step is 0
again, id 1 is played and the entry with id 8 is released. -/
theorem update_plays_and_releases_witness :
    (Arpeggiator.mk [1, 5, 8] (1 / 2) 0).a_chord ≠ [] ∧
      ((Arpeggiator.mk [1, 5, 8] (1 / 2) 0).update (1 / 2) [Note.mk 1 0 0 true]).length
        = [Note.mk 1 0 0 true].length + 1 ∧
      (Arpeggiator.mk [1, 5, 8] (1 / 2) 0).note_index 0 = 0 ∧
      (Arpeggiator.mk [1, 5, 8] (1 / 2) 0).update 0 [] = [Note.mk 1 0 0 true] ∧
      (Arpeggiator.mk [1, 5, 8] (1 / 2) 0).note_index (1 / 2) = 1 ∧
      (Arpeggiator.mk [1, 5, 8] (1 / 2) 0).update (1 / 2) [Note.mk 1 0 0 true]
        = [Note.mk 1 0 (1 / 2) false, Note.mk 5 (1 / 2) 0 true] ∧
      (Arpeggiator.mk [1, 5, 8] (1 / 2) 0).note_index (3 / 2) = 0 ∧
      (Arpeggiator.mk [1, 5, 8] (1 / 2) 0).update (3 / 2) [Note.mk 8 1 0 true]
        = [Note.mk 8 1 (3 / 2) false, Note.mk 1 (3 / 2) 0 true] := by
  have hne : (Arpeggiator.mk [1, 5, 8] (1 / 2) 0).a_chord ≠ [] := by decide
  obtain ⟨_, _, _, _, _, _, _, hlen, _⟩ :=
    update_plays_and_releases (Arpeggiator.mk [1, 5, 8] (1 / 2) 0) (1 / 2)
      [Note.mk 1 0 0 true] hne (by norm_num) (by norm_num) (by decide!)
  exact ⟨hne, hlen, by decide!, by decide!, by decide!, by decide!, by decide!, by decide!⟩

/-- C5, counterexample.  First input: chord `[1, 5, 8]`, note duration 0.1 (the
double nearest to 1/10), start time 0 and `now = 1`.  Here `now ≥ startTime`
and `floor((now - startTime) / noteDuration) mod 3 = 0`, so the claim has id 1
played; the division of the code rounds the quotient to 10.0, the step is 1 and
the code appends a note with id 5.  Second input: chord `[1, 5, 8]`, note
duration 1, start time 0 and `now = 2147483649`, where the claim has id 1 played
as well; the quotient does not fit an `int`, the conversion yields `-2 ^ 31`,
the unsigned remainder is 2, and the code appends a note with id 8. -/
theorem update_plays_and_releases_counterexample :
    (0 : ℚ) ≤ 1 ∧
      ⌊((1 : ℚ) - 0) / fl (1 / 10)⌋ % (([1, 5, 8] : List Int).length : Int) = 0 ∧
      ([1, 5, 8] : List Int).getD 0 0 = 1 ∧
      (Arpeggiator.mk [1, 5, 8] (fl (1 / 10)) 0).update 1 [] = [Note.mk 5 1 0 true] ∧
      (0 : ℚ) ≤ 2147483649 ∧
      ⌊((2147483649 : ℚ) - 0) / 1⌋ % (([1, 5, 8] : List Int).length : Int) = 0 ∧
      (Arpeggiator.mk [1, 5, 8] 1 0).update 2147483649 []
        = [Note.mk 8 2147483649 0 true] := by
  refine ⟨by norm_num, by decide!, by decide!, by decide!, by norm_num, by decide!,
    by decide!⟩

/-! ## The envelope -/

theorem clamp_eq_max (x : ℚ) : (if x ≤ 0 then 0 else x) = max x 0 := by
  rcases le_total x 0 with h | h
  · rw [if_pos h, max_eq_right h]
  · rcases eq_or_lt_of_le h with h0 | h0
    · simp [← h0]
    · rw [if_neg (not_le.mpr h0), max_eq_left h]

theorem amplitude_of_on (e : ADSREnvelope) (time time_on time_off : ℚ)
    (h : time_on > time_off) :
    e.amplitude time time_on time_off = max (adsrLevel e (time - time_on)) 0 := by
  simp only [ADSREnvelope.amplitude, if_pos h]
  rw [clamp_eq_max]
  rfl

theorem amplitude_of_off (e : ADSREnvelope) (time time_on time_off : ℚ)
    (h : time_on ≤ time_off) :
    e.amplitude time time_on time_off
      = max (((time - time_off) / e.a_release_time) * (0 - adsrLevel e (time_off - time_on))
          + adsrLevel e (time_off - time_on)) 0 := by
  simp only [ADSREnvelope.amplitude, if_neg (not_lt.mpr h)]
  rw [clamp_eq_max]
  rfl

theorem adsrLevel_nonneg (e : ADSREnvelope) (life_time : ℚ) (hl : 0 ≤ life_time)
    (hs : 0 ≤ e.a_start_amplitude) (hu : 0 ≤ e.a_sustain_amplitude) :
    0 ≤ adsrLevel e life_time := by
  unfold adsrLevel
  split_ifs with h3 h2 h1
  · exact hu
  · obtain ⟨h2a, h2b⟩ := h2
    have hd : 0 < e.a_decay_time := by linarith
    have hf0 : 0 ≤ (life_time - e.a_attack_time) / e.a_decay_time :=
      div_nonneg (by linarith) hd.le
    have hf1 : (life_time - e.a_attack_time) / e.a_decay_time ≤ 1 := by
      rw [div_le_one hd]; linarith
    nlinarith [mul_nonneg hf0 hu, mul_nonneg (sub_nonneg.mpr hf1) hs]
  · exact mul_nonneg (div_nonneg hl (le_trans hl h1)) hs
  · exact le_refl 0

theorem adsrLevel_le_one (e : ADSREnvelope) (life_time : ℚ)
    (ha : 0 < e.a_attack_time) (hs0 : 0 ≤ e.a_start_amplitude)
    (hs1 : e.a_start_amplitude ≤ 1) (hu1 : e.a_sustain_amplitude ≤ 1) :
    adsrLevel e life_time ≤ 1 := by
  unfold adsrLevel
  split_ifs with h3 h2 h1
  · exact hu1
  · obtain ⟨h2a, h2b⟩ := h2
    have hd : 0 < e.a_decay_time := by linarith
    have hf0 : 0 ≤ (life_time - e.a_attack_time) / e.a_decay_time :=
      div_nonneg (by linarith) hd.le
    have hf1 : (life_time - e.a_attack_time) / e.a_decay_time ≤ 1 := by
      rw [div_le_one hd]; linarith
    nlinarith [mul_nonneg hf0 (sub_nonneg.mpr hu1), mul_nonneg (sub_nonneg.mpr hf1) (sub_nonneg.mpr hs1)]
  · have hf1 : life_time / e.a_attack_time ≤ 1 := by
      rw [div_le_one ha]; exact h1
    nlinarith [mul_nonneg (sub_nonneg.mpr hf1) hs0]
  · exact zero_le_one

/-- The released branch never exceeds the level at the release instant once
the release instant has passed. -/
theorem release_le_level (r rel t : ℚ) (hr : 0 ≤ r) (hrel : 0 < rel) (ht : 0 ≤ t) :
    (t / rel) * (0 - r) + r ≤ r := by
  have : 0 ≤ t / rel := div_nonneg ht hrel.le
  nlinarith [mul_nonneg this hr]

theorem amplitude_nonneg (e : ADSREnvelope) (time time_on time_off : ℚ) :
    0 ≤ e.amplitude time time_on time_off := by
  rcases lt_or_le time_off time_on with h | h
  · rw [amplitude_of_on e _ _ _ h]; exact le_max_right _ _
  · rw [amplitude_of_off e _ _ _ h]; exact le_max_right _ _

theorem catalog_envelope_bounds (inst : Instrument) :
    0 < inst.a_envelope.a_attack_time ∧ 0 < inst.a_envelope.a_decay_time
      ∧ 0 < inst.a_envelope.a_release_time
      ∧ 0 ≤ inst.a_envelope.a_sustain_amplitude ∧ inst.a_envelope.a_sustain_amplitude ≤ 1
      ∧ inst.a_envelope.a_start_amplitude = 1 := by
  cases inst <;> norm_num [Instrument.a_envelope, ADSREnvelope.ctor]

/-- C6, as amended: for the envelope of each of the five catalog instruments
the amplitude is never negative, and it is at most 1 whenever the note is
sounding (`onTime > offTime`) or the release instant has been reached
(`offTime ≤ now`). -/
theorem catalog_amplitude_range (inst : Instrument) (now onTime offTime : ℚ) :
    0 ≤ inst.a_envelope.amplitude now onTime offTime ∧
      (onTime > offTime ∨ offTime ≤ now →
        inst.a_envelope.amplitude now onTime offTime ≤ 1) := by
  refine ⟨amplitude_nonneg _ _ _ _, fun h => ?_⟩
  obtain ⟨ha, -, hr, hu0, hu1, hs⟩ := catalog_envelope_bounds inst
  have hlev : ∀ l, adsrLevel inst.a_envelope l ≤ 1 := fun l =>
    adsrLevel_le_one _ l ha (by rw [hs]; exact zero_le_one) (by rw [hs]) hu1
  rcases lt_or_le offTime onTime with hon | hoff
  · rw [amplitude_of_on _ _ _ _ hon]
    exact max_le (hlev _) zero_le_one
  · have hnow : offTime ≤ now := by
      rcases h with h | h
      · exact absurd h (not_lt.mpr hoff)
      · exact h
    rw [amplitude_of_off _ _ _ _ hoff]
    have hl0 : 0 ≤ adsrLevel inst.a_envelope (offTime - onTime) :=
      adsrLevel_nonneg _ _ (sub_nonneg.mpr hoff) (by rw [hs]; exact zero_le_one) hu0
    exact max_le (le_trans (release_le_level _ _ _ hl0 hr (sub_nonneg.mpr hnow)) (hlev _))
      zero_le_one

/-- C6, witness: the Piano envelope one second after a release at 1/2. -/
theorem catalog_amplitude_range_witness :
    ((0 : ℚ) > 1 / 2 ∨ (1 / 2 : ℚ) ≤ 1) ∧
      0 ≤ Instrument.Piano.a_envelope.amplitude 1 0 (1 / 2) ∧
      Instrument.Piano.a_envelope.amplitude 1 0 (1 / 2) ≤ 1 :=
  ⟨Or.inr (by norm_num), (catalog_amplitude_range .Piano 1 0 (1 / 2)).1,
    (catalog_amplitude_range .Piano 1 0 (1 / 2)).2 (Or.inr (by norm_num))⟩

/-- C6, counterexample: with the Piano envelope, a note switched on at 0 and
released at 1 has amplitude 52/15 > 1 when evaluated at time 0, before its
release instant. -/
theorem catalog_amplitude_range_counterexample :
    Instrument.Piano.a_envelope.amplitude 0 0 1 = 52 / 15 ∧
      ¬ (Instrument.Piano.a_envelope.amplitude 0 0 1 ≤ 1) := by
  have h : Instrument.Piano.a_envelope.amplitude 0 0 1 = 52 / 15 := by
    norm_num [ADSREnvelope.amplitude, Instrument.a_envelope, ADSREnvelope.ctor]
  rw [h]
  norm_num

/-- During the attack, with a non-negative decay time, only the first `if` of
`amplitude` fires. -/
theorem adsrLevel_attack (e : ADSREnvelope) (life_time : ℚ)
    (hd : 0 ≤ e.a_decay_time) (h1 : life_time ≤ e.a_attack_time) :
    adsrLevel e life_time = (life_time / e.a_attack_time) * e.a_start_amplitude := by
  unfold adsrLevel
  rw [if_neg (by linarith), if_neg (fun h => absurd h.1 (not_lt.mpr h1)), if_pos h1]

theorem amplitude_attack (e : ADSREnvelope) (t onTime offTime : ℚ)
    (hon : onTime > offTime) (ha : 0 < e.a_attack_time) (hs : 0 ≤ e.a_start_amplitude)
    (hd : 0 ≤ e.a_decay_time) (h0 : onTime ≤ t) (h1 : t ≤ onTime + e.a_attack_time) :
    e.amplitude t onTime offTime = ((t - onTime) / e.a_attack_time) * e.a_start_amplitude := by
  rw [amplitude_of_on _ _ _ _ hon, adsrLevel_attack _ _ hd (by linarith)]
  exact max_eq_left (mul_nonneg (div_nonneg (by linarith) ha.le) hs)

/-- C9, as amended: for a sounding note (`onTime > offTime`) with a positive
attack time, a non-negative peak amplitude and a non-negative decay time, the
amplitude is 0 at `onTime`, non-decreasing over
`onTime ≤ now ≤ onTime + attackTime`, and at most the peak amplitude there. -/
theorem attack_rises (e : ADSREnvelope) (onTime offTime : ℚ)
    (hon : onTime > offTime) (ha : 0 < e.a_attack_time) (hs : 0 ≤ e.a_start_amplitude)
    (hd : 0 ≤ e.a_decay_time) :
    e.amplitude onTime onTime offTime = 0 ∧
      (∀ t1 t2, onTime ≤ t1 → t1 ≤ t2 → t2 ≤ onTime + e.a_attack_time →
        e.amplitude t1 onTime offTime ≤ e.amplitude t2 onTime offTime) ∧
      (∀ t, onTime ≤ t → t ≤ onTime + e.a_attack_time →
        e.amplitude t onTime offTime ≤ e.a_start_amplitude) := by
  refine ⟨?_, ?_, ?_⟩
  · rw [amplitude_attack e _ _ _ hon ha hs hd (le_refl _) (by linarith)]
    simp
  · intro t1 t2 h0 h12 h2
    rw [amplitude_attack e _ _ _ hon ha hs hd h0 (by linarith),
      amplitude_attack e _ _ _ hon ha hs hd (by linarith) h2]
    exact mul_le_mul_of_nonneg_right
      (div_le_div_of_nonneg_right (by linarith) ha.le) hs
  · intro t h0 h1
    rw [amplitude_attack e _ _ _ hon ha hs hd h0 h1]
    have hf : (t - onTime) / e.a_attack_time ≤ 1 := by
      rw [div_le_one ha]; linarith
    calc (t - onTime) / e.a_attack_time * e.a_start_amplitude
        ≤ 1 * e.a_start_amplitude := mul_le_mul_of_nonneg_right hf hs
      _ = e.a_start_amplitude := one_mul _

/-- C9, witness: the Trumpet envelope, note on at 1 with the initial
`a_off = 0`, compared at 1, 21/20 and 11/10. -/
theorem attack_rises_witness :
    Instrument.Trumpet.a_envelope.amplitude 1 1 0 = 0 ∧
      Instrument.Trumpet.a_envelope.amplitude (21 / 20) 1 0
        ≤ Instrument.Trumpet.a_envelope.amplitude (11 / 10) 1 0 ∧
      Instrument.Trumpet.a_envelope.amplitude (11 / 10) 1 0
        ≤ Instrument.Trumpet.a_envelope.a_start_amplitude :=
  have h := attack_rises Instrument.Trumpet.a_envelope 1 0 (by norm_num)
    (by norm_num [Instrument.a_envelope])
    (by norm_num [Instrument.a_envelope, ADSREnvelope.ctor])
    (by norm_num [Instrument.a_envelope])
  ⟨h.1, h.2.1 (21 / 20) (11 / 10) (by norm_num) (by norm_num)
      (by norm_num [Instrument.a_envelope]),
    h.2.2 (11 / 10) (by norm_num) (by norm_num [Instrument.a_envelope])⟩

/-- C9, counterexample: an envelope with attack time 1/10, peak 1, sustain 1/2
and the negative decay time -1.  A note switched on at 1 (`a_off = 0`) is
sounding, yet its amplitude at `onTime` is the sustain level 1/2, because
`life_time > a_attack_time + a_decay_time` already holds at life time 0. -/
theorem attack_rises_counterexample :
    (1 : ℚ) > 0 ∧
      0 < (ADSREnvelope.mk (1 / 10) (-1) (1 / 2) (1 / 5) 1).a_attack_time ∧
      0 ≤ (ADSREnvelope.mk (1 / 10) (-1) (1 / 2) (1 / 5) 1).a_start_amplitude ∧
      (ADSREnvelope.mk (1 / 10) (-1) (1 / 2) (1 / 5) 1).amplitude 1 1 0 = 1 / 2 ∧
      (ADSREnvelope.mk (1 / 10) (-1) (1 / 2) (1 / 5) 1).amplitude 1 1 0 ≠ 0 := by
  have h : (ADSREnvelope.mk (1 / 10) (-1) (1 / 2) (1 / 5) 1).amplitude 1 1 0 = 1 / 2 := by
    norm_num [ADSREnvelope.amplitude]
  refine ⟨by norm_num, by norm_num, by norm_num, h, ?_⟩
  rw [h]; norm_num

/-! ## The envelope in double arithmetic -/

theorem amplitudeIEEE_of_on (e : ADSREnvelope) (time time_on time_off : ℚ)
    (h : time_on > time_off) :
    e.amplitudeIEEE time time_on time_off
      = if e.levelIEEE (Dbl.fin time - Dbl.fin time_on) ≤ Dbl.fin 0 then Dbl.fin 0
        else e.levelIEEE (Dbl.fin time - Dbl.fin time_on) := by
  simp only [ADSREnvelope.amplitudeIEEE, if_pos h]
  rfl

theorem amplitudeIEEE_of_off (e : ADSREnvelope) (time time_on time_off : ℚ)
    (h : time_on ≤ time_off) :
    e.amplitudeIEEE time time_on time_off
      = if ((Dbl.fin time - Dbl.fin time_off) / Dbl.fin e.a_release_time)
            * (Dbl.fin 0 - e.levelIEEE (Dbl.fin time_off - Dbl.fin time_on))
            + e.levelIEEE (Dbl.fin time_off - Dbl.fin time_on) ≤ Dbl.fin 0 then Dbl.fin 0
        else ((Dbl.fin time - Dbl.fin time_off) / Dbl.fin e.a_release_time)
            * (Dbl.fin 0 - e.levelIEEE (Dbl.fin time_off - Dbl.fin time_on))
            + e.levelIEEE (Dbl.fin time_off - Dbl.fin time_on) := by
  simp only [ADSREnvelope.amplitudeIEEE, if_neg (not_lt.mpr h)]
  rfl

/-- With a positive attack time held in a double, the three `if`s leave the
sustain level, the decay formula with a positive decay time, or the attack
formula. -/
theorem levelIEEE_cases (e : ADSREnvelope) (lt : ℚ) (hd : e.IsDouble)
    (ha : 0 < e.a_attack_time) :
    (fl (e.a_attack_time + e.a_decay_time) < lt
        ∧ e.levelIEEE (Dbl.fin lt) = Dbl.fin e.a_sustain_amplitude) ∨
      (e.a_attack_time < lt ∧ lt ≤ fl (e.a_attack_time + e.a_decay_time)
        ∧ 0 < e.a_decay_time
        ∧ e.levelIEEE (Dbl.fin lt)
          = Dbl.fin (fl (fl (fl (fl (lt - e.a_attack_time) / e.a_decay_time)
              * fl (e.a_sustain_amplitude - e.a_start_amplitude)) + e.a_start_amplitude))) ∨
      (lt ≤ e.a_attack_time ∧ ¬ fl (e.a_attack_time + e.a_decay_time) < lt
        ∧ e.levelIEEE (Dbl.fin lt)
          = Dbl.fin (fl (fl (lt / e.a_attack_time) * e.a_start_amplitude))) := by
  obtain ⟨hda, -, -, -, -⟩ := hd
  unfold ADSREnvelope.levelIEEE
  simp only [Dbl.fin_add_fin, Dbl.fin_le_fin, Dbl.fin_lt_fin, gt_iff_lt]
  by_cases h3 : fl (e.a_attack_time + e.a_decay_time) < lt
  · left
    exact ⟨h3, by rw [if_pos h3]⟩
  · right
    rw [if_neg h3]
    by_cases h1 : lt ≤ e.a_attack_time
    · right
      refine ⟨h1, h3, ?_⟩
      rw [if_neg (fun h => absurd h.1 (not_lt.mpr h1)), if_pos h1,
        Dbl.fin_div_fin _ _ ha.ne', Dbl.fin_mul_fin]
    · left
      have h1' : e.a_attack_time < lt := not_le.mp h1
      have h3' : lt ≤ fl (e.a_attack_time + e.a_decay_time) := not_lt.mp h3
      have hdec : 0 < e.a_decay_time := by
        by_contra hneg
        have : fl (e.a_attack_time + e.a_decay_time) ≤ e.a_attack_time :=
          fl_le_of_le hda (by linarith [not_lt.mp hneg])
        linarith
      refine ⟨h1', h3', hdec, ?_⟩
      rw [if_pos ⟨h1', h3'⟩, Dbl.fin_sub_fin, Dbl.fin_sub_fin, Dbl.fin_div_fin _ _ hdec.ne',
        Dbl.fin_mul_fin, Dbl.fin_add_fin]

/-- With a positive attack time the level is a double. -/
theorem levelIEEE_finite (e : ADSREnvelope) (lt : ℚ) (hd : e.IsDouble)
    (ha : 0 < e.a_attack_time) :
    ∃ l, e.levelIEEE (Dbl.fin lt) = Dbl.fin l ∧ fl l = l := by
  rcases levelIEEE_cases e lt hd ha with ⟨-, h⟩ | ⟨-, -, -, h⟩ | ⟨-, -, h⟩
  · exact ⟨_, h, hd.2.2.1⟩
  · exact ⟨_, h, fl_idem _⟩
  · exact ⟨_, h, fl_idem _⟩

/-- The level is not negative outside the gap that the rounding of
`a_attack_time + a_decay_time` may open. -/
theorem levelIEEE_nonneg (e : ADSREnvelope) (lt : ℚ) (hd : e.IsDouble)
    (ha : 0 < e.a_attack_time) (hs : 0 ≤ e.a_start_amplitude)
    (hu : 0 ≤ e.a_sustain_amplitude) (hlt : 0 ≤ lt)
    (hgap : e.a_start_amplitude ≤ e.a_sustain_amplitude
      ∨ lt ≤ e.a_attack_time + e.a_decay_time
      ∨ fl (e.a_attack_time + e.a_decay_time) < lt) :
    ∃ l, e.levelIEEE (Dbl.fin lt) = Dbl.fin l ∧ 0 ≤ l ∧ fl l = l := by
  obtain ⟨hda, hdd, hdu, hdr, hds⟩ := hd
  rcases levelIEEE_cases e lt ⟨hda, hdd, hdu, hdr, hds⟩ ha with
    ⟨-, h⟩ | ⟨h1, h3, hdec, h⟩ | ⟨-, -, h⟩
  · exact ⟨_, h, hu, hdu⟩
  · refine ⟨_, h, ?_, fl_idem _⟩
    have hx0 : 0 ≤ fl (fl (lt - e.a_attack_time) / e.a_decay_time) :=
      fl_nonneg (div_nonneg (fl_nonneg (by linarith)) hdec.le)
    rcases hgap with hg | hg | hg
    · have hD : 0 ≤ fl (e.a_sustain_amplitude - e.a_start_amplitude) :=
        fl_nonneg (by linarith)
      exact fl_nonneg (add_nonneg (fl_nonneg (mul_nonneg hx0 hD)) hs)
    · have hx1 : fl (fl (lt - e.a_attack_time) / e.a_decay_time) ≤ 1 := by
        apply fl_le_of_le fl_one
        rw [div_le_one hdec]
        exact fl_le_of_le hdd (by linarith)
      have hD : -e.a_start_amplitude ≤ fl (e.a_sustain_amplitude - e.a_start_amplitude) :=
        le_fl_of_le (fl_neg_of_repr hds) (by linarith)
      have hprod : -e.a_start_amplitude
          ≤ fl (fl (lt - e.a_attack_time) / e.a_decay_time)
            * fl (e.a_sustain_amplitude - e.a_start_amplitude) := by
        nlinarith
      have hfl : -e.a_start_amplitude
          ≤ fl (fl (fl (lt - e.a_attack_time) / e.a_decay_time)
            * fl (e.a_sustain_amplitude - e.a_start_amplitude)) :=
        le_fl_of_le (fl_neg_of_repr hds) hprod
      exact fl_nonneg (by linarith)
    · exact absurd hg (not_lt.mpr h3)
  · exact ⟨_, h, fl_nonneg (mul_nonneg (fl_nonneg (div_nonneg hlt ha.le)) hs), fl_idem _⟩

/-- The released branch for a level that is a double: four roundings and the
clamp. -/
theorem amplitudeIEEE_released (e : ADSREnvelope) (now onTime offTime l : ℚ)
    (hoff : onTime ≤ offTime) (hr : e.a_release_time ≠ 0)
    (hl : e.levelIEEE (Dbl.fin offTime - Dbl.fin onTime) = Dbl.fin l) (hld : fl l = l) :
    e.amplitudeIEEE now onTime offTime
      = if fl (fl (fl (fl (now - offTime) / e.a_release_time) * -l) + l) ≤ 0 then Dbl.fin 0
        else Dbl.fin (fl (fl (fl (fl (now - offTime) / e.a_release_time) * -l) + l)) := by
  rw [amplitudeIEEE_of_off e _ _ _ hoff, hl, Dbl.fin_sub_fin, Dbl.fin_sub_fin,
    Dbl.fin_div_fin _ _ hr, Dbl.fin_mul_fin, Dbl.fin_add_fin, zero_sub, fl_neg_of_repr hld]
  simp only [Dbl.fin_le_fin]

/-- From the end of the release on, the released branch is not positive. -/
theorem released_value_nonpos (rel l t : ℚ) (hr : 0 < rel) (hrd : fl rel = rel)
    (hl0 : 0 ≤ l) (hld : fl l = l) (ht : rel ≤ t) :
    fl (fl (fl (fl t / rel) * -l) + l) ≤ 0 := by
  have h1 : rel ≤ fl t := le_fl_of_le hrd ht
  have h2 : 1 ≤ fl (fl t / rel) := le_fl_of_le fl_one ((one_le_div hr).mpr h1)
  have h3 : fl (fl (fl t / rel) * -l) ≤ -l := by
    apply fl_le_of_le (fl_neg_of_repr hld)
    nlinarith
  exact fl_nonpos (by linarith)

/-- The released branch does not increase with time. -/
theorem released_value_antitone (rel l t1 t2 : ℚ) (hr : 0 < rel) (hl0 : 0 ≤ l)
    (ht : t1 ≤ t2) :
    fl (fl (fl (fl t2 / rel) * -l) + l) ≤ fl (fl (fl (fl t1 / rel) * -l) + l) := by
  have h1 : fl t1 ≤ fl t2 := fl_mono ht
  have h2 : fl (fl t1 / rel) ≤ fl (fl t2 / rel) :=
    fl_mono (div_le_div_of_nonneg_right h1 hr.le)
  have h3 : fl (fl (fl t2 / rel) * -l) ≤ fl (fl (fl t1 / rel) * -l) := by
    apply fl_mono
    nlinarith
  exact fl_mono (by linarith)

theorem level_at_release (e : ADSREnvelope) (onTime offTime : ℚ) :
    e.levelIEEE (Dbl.fin offTime - Dbl.fin onTime)
      = e.levelIEEE (Dbl.fin (fl (offTime - onTime))) := rfl

/-- C7, as amended: in double arithmetic, for a released note
(`onTime ≤ offTime`) and an envelope whose fields hold doubles, with a positive
attack time and a positive release time, the amplitude is 0 at every time
`now ≥ offTime + releaseTime` (the exact sum, which the sum computed in doubles
may fall short of) whenever the level at the release instant, the value the
attack, decay and sustain formula gives at `offTime - onTime`, is a number
`≥ 0`.  That is the case when the peak and the sustain level are
non-negative and either the peak does not exceed the sustain level, or the
held time `offTime - onTime`, as the code computes it, is at most
`attack + decay` or above the double that the code computes for
`attack + decay`. -/
theorem release_reaches_zero (e : ADSREnvelope) (onTime offTime : ℚ)
    (hd : e.IsDouble) (hoff : onTime ≤ offTime) (ha : 0 < e.a_attack_time)
    (hr : 0 < e.a_release_time) :
    (∀ l : ℚ, e.levelIEEE (Dbl.fin offTime - Dbl.fin onTime) = Dbl.fin l → 0 ≤ l →
        ∀ now, offTime + e.a_release_time ≤ now →
          e.amplitudeIEEE now onTime offTime = Dbl.fin 0) ∧
      (0 ≤ e.a_start_amplitude → 0 ≤ e.a_sustain_amplitude →
        (e.a_start_amplitude ≤ e.a_sustain_amplitude
          ∨ fl (offTime - onTime) ≤ e.a_attack_time + e.a_decay_time
          ∨ fl (e.a_attack_time + e.a_decay_time) < fl (offTime - onTime)) →
        ∀ now, offTime + e.a_release_time ≤ now →
          e.amplitudeIEEE now onTime offTime = Dbl.fin 0) := by
  have key : ∀ l : ℚ, e.levelIEEE (Dbl.fin offTime - Dbl.fin onTime) = Dbl.fin l → 0 ≤ l →
      ∀ now, offTime + e.a_release_time ≤ now →
        e.amplitudeIEEE now onTime offTime = Dbl.fin 0 := by
    intro l hl hl0 now hnow
    obtain ⟨l', hl', hld⟩ := levelIEEE_finite e (fl (offTime - onTime)) hd ha
    rw [← level_at_release, hl] at hl'
    have hll : l = l' := by injection hl'
    subst hll
    rw [amplitudeIEEE_released e now onTime offTime l hoff hr.ne' hl hld,
      if_pos (released_value_nonpos _ _ _ hr hd.2.2.2.1 hl0 hld (by linarith))]
  refine ⟨key, fun hs hu hgap now hnow => ?_⟩
  obtain ⟨l, hl, hl0, -⟩ := levelIEEE_nonneg e (fl (offTime - onTime)) hd ha hs hu
    (fl_nonneg (sub_nonneg.mpr hoff)) hgap
  exact key l hl hl0 now hnow

/-- C7, witness: the Piano envelope in doubles (attack 0.01, decay 0.6, sustain
0.8, release 0.3, peak 1.0), note on at 0 and released at 1: the level at the
release is the sustain level and the amplitude at time 2 is 0. -/
theorem release_reaches_zero_witness :
    (ADSREnvelope.mk (fl (1 / 100)) (fl (6 / 10)) (fl (8 / 10)) (fl (3 / 10)) 1).IsDouble ∧
      (ADSREnvelope.mk (fl (1 / 100)) (fl (6 / 10)) (fl (8 / 10)) (fl (3 / 10)) 1).amplitudeIEEE
        2 0 1 = Dbl.fin 0 :=
  have hd : (ADSREnvelope.mk (fl (1 / 100)) (fl (6 / 10)) (fl (8 / 10)) (fl (3 / 10))
      1).IsDouble := by decide!
  ⟨hd, (release_reaches_zero
      (ADSREnvelope.mk (fl (1 / 100)) (fl (6 / 10)) (fl (8 / 10)) (fl (3 / 10)) 1) 0 1
      hd (by norm_num) (by decide!) (by decide!)).2 (by norm_num) (by decide!)
      (Or.inr (Or.inr (by decide!))) 2 (by decide!)⟩

/-- C7, counterexample.  First input: attack time 0, decay 1/8, sustain 1,
release 1/4, peak 1, and a note with `onTime = offTime = 0`: the level at the
release is `0.0 / 0.0`, NaN, and so is the amplitude at time 1, after
`offTime + releaseTime`; the test `amplitude <= 0.0` is false for NaN.  Second
input: attack 0.1, decay 0.2, sustain 0, release 0.1, peak 1, a note switched
on at 0 and released at the double 0.1 + 0.2 (0.30000000000000004): the decay
formula gives the level `-2⁻⁵²`, and the amplitude at time 1 is positive.
Third input: attack 0.1, decay 0.2, sustain 1, release 0.9, peak 1, a note
switched on at 0 and released at 1.  The sum `offTime + releaseTime`, computed
in doubles, lies below the exact sum, and the amplitude at that double is
`2⁻⁵³`, not 0. -/
theorem release_reaches_zero_counterexample :
    (ADSREnvelope.mk 0 (1 / 8) 1 (1 / 4) 1).amplitudeIEEE 1 0 0 = Dbl.nan ∧
      (ADSREnvelope.mk (fl (1 / 10)) (fl (2 / 10)) 0 (fl (1 / 10)) 1).levelIEEE
        (Dbl.fin (fl (fl (1 / 10) + fl (2 / 10))) - Dbl.fin 0) = Dbl.fin (-(2 ^ (-52 : ℤ))) ∧
      fl (fl (1 / 10) + fl (2 / 10)) + fl (1 / 10) ≤ 1 ∧
      (ADSREnvelope.mk (fl (1 / 10)) (fl (2 / 10)) 0 (fl (1 / 10)) 1).amplitudeIEEE 1 0
        (fl (fl (1 / 10) + fl (2 / 10))) = Dbl.fin (6755399441055743 / 2 ^ 102) ∧
      fl (1 + fl (9 / 10)) < 1 + fl (9 / 10) ∧
      (ADSREnvelope.mk (fl (1 / 10)) (fl (2 / 10)) 1 (fl (9 / 10)) 1).amplitudeIEEE
        (fl (1 + fl (9 / 10))) 0 1 = Dbl.fin (2 ^ (-53 : ℤ)) := by
  refine ⟨by decide!, by decide!, by decide!, by decide!, by decide!, by decide!⟩

/-- C8, as amended: in double arithmetic, for a released note
(`onTime ≤ offTime`) and an envelope whose fields hold doubles, with a positive
attack time and a positive release time, the amplitude is a number that does
not increase with `now` whenever the level at the release instant is a number
`≥ 0`; that is the case under the conditions on the peak, the sustain level
and the held time stated for C7. -/
theorem release_non_increasing (e : ADSREnvelope) (onTime offTime : ℚ)
    (hd : e.IsDouble) (hoff : onTime ≤ offTime) (ha : 0 < e.a_attack_time)
    (hr : 0 < e.a_release_time) :
    (∀ l : ℚ, e.levelIEEE (Dbl.fin offTime - Dbl.fin onTime) = Dbl.fin l → 0 ≤ l →
        ∀ now1 now2, now1 ≤ now2 →
          e.amplitudeIEEE now2 onTime offTime ≤ e.amplitudeIEEE now1 onTime offTime) ∧
      (0 ≤ e.a_start_amplitude → 0 ≤ e.a_sustain_amplitude →
        (e.a_start_amplitude ≤ e.a_sustain_amplitude
          ∨ fl (offTime - onTime) ≤ e.a_attack_time + e.a_decay_time
          ∨ fl (e.a_attack_time + e.a_decay_time) < fl (offTime - onTime)) →
        ∀ now1 now2, now1 ≤ now2 →
          e.amplitudeIEEE now2 onTime offTime ≤ e.amplitudeIEEE now1 onTime offTime) := by
  have key : ∀ l : ℚ, e.levelIEEE (Dbl.fin offTime - Dbl.fin onTime) = Dbl.fin l → 0 ≤ l →
      ∀ now1 now2, now1 ≤ now2 →
        e.amplitudeIEEE now2 onTime offTime ≤ e.amplitudeIEEE now1 onTime offTime := by
    intro l hl hl0 now1 now2 hnow
    obtain ⟨l', hl', hld⟩ := levelIEEE_finite e (fl (offTime - onTime)) hd ha
    rw [← level_at_release, hl] at hl'
    have hll : l = l' := by injection hl'
    subst hll
    have hmono := released_value_antitone e.a_release_time l (now1 - offTime)
      (now2 - offTime) hr hl0 (by linarith)
    rw [amplitudeIEEE_released e now1 onTime offTime l hoff hr.ne' hl hld,
      amplitudeIEEE_released e now2 onTime offTime l hoff hr.ne' hl hld]
    split_ifs with h2 h1 h1
    · exact (Dbl.fin_le_fin _ _).mpr (le_refl 0)
    · exact (Dbl.fin_le_fin _ _).mpr (not_le.mp h1).le
    · exact absurd (le_trans hmono h1) h2
    · exact (Dbl.fin_le_fin _ _).mpr hmono
  refine ⟨key, fun hs hu hgap now1 now2 hnow => ?_⟩
  obtain ⟨l, hl, hl0, -⟩ := levelIEEE_nonneg e (fl (offTime - onTime)) hd ha hs hu
    (fl_nonneg (sub_nonneg.mpr hoff)) hgap
  exact key l hl hl0 now1 now2 hnow

/-- C8, witness: the Accordion envelope in doubles (attack 0.1, decay 0.2,
sustain 0.9, release 0.8, peak 1.0), note on at 0, released at 1, compared at
the times 1.1 and 1.5. -/
theorem release_non_increasing_witness :
    (ADSREnvelope.mk (fl (1 / 10)) (fl (2 / 10)) (fl (9 / 10)) (fl (8 / 10)) 1).amplitudeIEEE
        (fl (3 / 2)) 0 1
      ≤ (ADSREnvelope.mk (fl (1 / 10)) (fl (2 / 10)) (fl (9 / 10)) (fl (8 / 10))
        1).amplitudeIEEE (fl (11 / 10)) 0 1 :=
  (release_non_increasing
      (ADSREnvelope.mk (fl (1 / 10)) (fl (2 / 10)) (fl (9 / 10)) (fl (8 / 10)) 1) 0 1
      (by decide!) (by norm_num) (by decide!) (by decide!)).2 (by norm_num) (by decide!)
      (Or.inr (Or.inr (by decide!))) (fl (11 / 10)) (fl (3 / 2)) (by decide!)

/-- C8, counterexample.  First input: attack time 0, decay 1/8, sustain 1,
release 1/4, peak 1, and a note with `onTime = offTime = 0`: the amplitude is
NaN at the times 1 and 2, and `NaN <= NaN` is false.  Second input: attack
0.1, decay 0.2, sustain 0, release 0.1, peak 1, a note switched on at 0 and
released at the double 0.1 + 0.2: the amplitude is 0 at time 1/2 and positive
at the later time 1. -/
theorem release_non_increasing_counterexample :
    (ADSREnvelope.mk 0 (1 / 8) 1 (1 / 4) 1).amplitudeIEEE 1 0 0 = Dbl.nan ∧
      (ADSREnvelope.mk 0 (1 / 8) 1 (1 / 4) 1).amplitudeIEEE 2 0 0 = Dbl.nan ∧
      ¬ ((ADSREnvelope.mk 0 (1 / 8) 1 (1 / 4) 1).amplitudeIEEE 2 0 0
        ≤ (ADSREnvelope.mk 0 (1 / 8) 1 (1 / 4) 1).amplitudeIEEE 1 0 0) ∧
      (ADSREnvelope.mk (fl (1 / 10)) (fl (2 / 10)) 0 (fl (1 / 10)) 1).amplitudeIEEE
        (fl (fl (1 / 10) + fl (2 / 10))) 0 (fl (fl (1 / 10) + fl (2 / 10))) = Dbl.fin 0 ∧
      fl (fl (1 / 10) + fl (2 / 10)) ≤ 1 ∧
      ¬ ((ADSREnvelope.mk (fl (1 / 10)) (fl (2 / 10)) 0 (fl (1 / 10)) 1).amplitudeIEEE 1 0
          (fl (fl (1 / 10) + fl (2 / 10)))
        ≤ (ADSREnvelope.mk (fl (1 / 10)) (fl (2 / 10)) 0 (fl (1 / 10)) 1).amplitudeIEEE
          (fl (fl (1 / 10) + fl (2 / 10))) 0 (fl (fl (1 / 10) + fl (2 / 10)))) := by
  refine ⟨by decide!, by decide!, by decide!, by decide!, by decide!, by decide!⟩

/-- C10, as amended: in double arithmetic, for an envelope whose fields hold
doubles, with a positive attack time and a release time other than 0, the
release starts from the level the note had when it was released.  For
`onTime ≤ offTime` and any earlier off value `off0 < onTime`, the released
branch evaluated at the release instant and the sounding branch evaluated at
the same instant give the same number. -/
theorem release_starts_at_level (e : ADSREnvelope) (onTime offTime off0 : ℚ)
    (hd : e.IsDouble) (hoff : onTime ≤ offTime) (h0 : off0 < onTime)
    (ha : 0 < e.a_attack_time) (hr : e.a_release_time ≠ 0) :
    ∃ v : ℚ, e.amplitudeIEEE offTime onTime offTime = Dbl.fin v
      ∧ e.amplitudeIEEE offTime onTime off0 = Dbl.fin v := by
  obtain ⟨l, hl, hld⟩ := levelIEEE_finite e (fl (offTime - onTime)) hd ha
  rw [← level_at_release] at hl
  refine ⟨if l ≤ 0 then 0 else l, ?_, ?_⟩
  · rw [amplitudeIEEE_released e offTime onTime offTime l hoff hr hl hld]
    simp only [sub_self, fl_zero, zero_div, zero_mul, zero_add, hld]
    split_ifs <;> rfl
  · rw [amplitudeIEEE_of_on e _ _ _ h0, hl]
    simp only [Dbl.fin_le_fin]
    split_ifs <;> rfl

/-- C10, witness: the Saxophone envelope in doubles (attack 0.1, decay 0.2,
sustain 0.8, release 0.5, peak 1.0), note on at 1 and released at 1.2, against
the same note still carrying its initial `a_off = 0`. -/
theorem release_starts_at_level_witness :
    ∃ v : ℚ,
      (ADSREnvelope.mk (fl (1 / 10)) (fl (2 / 10)) (fl (8 / 10)) (fl (5 / 10)) 1).amplitudeIEEE
          (fl (6 / 5)) 1 (fl (6 / 5)) = Dbl.fin v
        ∧ (ADSREnvelope.mk (fl (1 / 10)) (fl (2 / 10)) (fl (8 / 10)) (fl (5 / 10))
          1).amplitudeIEEE (fl (6 / 5)) 1 0 = Dbl.fin v :=
  release_starts_at_level
    (ADSREnvelope.mk (fl (1 / 10)) (fl (2 / 10)) (fl (8 / 10)) (fl (5 / 10)) 1) 1 (fl (6 / 5)) 0
    (by decide!) (by decide!) (by norm_num) (by decide!) (by decide!)

/-- C10, counterexample: attack 1, decay 1, sustain 1/2, peak 1 and the release
time 0; a note switched on at 0 and released at 1/2.  The sounding branch,
evaluated at the release instant for the earlier off value -1, gives 1/2; the
released branch divides `0.0` by the release time `0.0` and gives NaN. -/
theorem release_starts_at_level_counterexample :
    (0 : ℚ) ≤ 1 / 2 ∧ (-1 : ℚ) < 0 ∧
      (ADSREnvelope.mk 1 1 (1 / 2) 0 1).amplitudeIEEE (1 / 2) 0 (-1) = Dbl.fin (1 / 2) ∧
      (ADSREnvelope.mk 1 1 (1 / 2) 0 1).amplitudeIEEE (1 / 2) 0 (1 / 2) = Dbl.nan := by
  refine ⟨by norm_num, by norm_num, by decide!, by decide!⟩

/-! ## The effects -/

theorem replicate_set_self (n i : Nat) (a : ℚ) :
    (List.replicate n a).set i a = List.replicate n a := by
  apply List.ext_getElem
  · simp
  · intro j h1 h2
    simp [List.getElem_set]

/-- The delay line after the impulse has been processed: the feedback value at
index 0 and zeros elsewhere. -/
theorem Delay.process_zero_tail (f : ℚ) (m j : Nat) (hj : 1 ≤ j) :
    (Delay.mk (f :: List.replicate (j + m) 0) j f).processAll (List.replicate (m + 1) 0)
      = some (Delay.mk (f :: List.replicate (j + m) 0) 0 f, List.replicate (m + 1) 0) := by
  induction m generalizing j with
  | zero =>
    obtain ⟨i, rfl⟩ : ∃ i, j = i + 1 := ⟨j - 1, by omega⟩
    simp [Delay.processAll, Delay.process, replicate_set_self]
  | succ m ih =>
    obtain ⟨i, rfl⟩ : ∃ i, j = i + 1 := ⟨j - 1, by omega⟩
    have h := ih (i + 1 + 1) (by omega)
    have e : i + 1 + 1 + m = i + 1 + (m + 1) := by omega
    rw [e] at h
    rw [List.replicate_succ, Delay.processAll]
    have hp : (Delay.mk (f :: List.replicate (i + 1 + (m + 1)) 0) (i + 1) f).process 0
        = some (Delay.mk (f :: List.replicate (i + 1 + (m + 1)) 0) (i + 1 + 1) f, 0) := by
      simp [Delay.process, replicate_set_self]
      omega
    rw [hp]
    simp only [h]

theorem Delay.processAll_append (d d1 : Delay) (xs ys outs : List ℚ)
    (h : d.processAll xs = some (d1, outs)) :
    d.processAll (xs ++ ys)
      = (d1.processAll ys).map (fun r => (r.1, outs ++ r.2)) := by
  induction xs generalizing d outs with
  | nil =>
    simp only [Delay.processAll, Option.some.injEq, Prod.mk.injEq] at h
    obtain ⟨rfl, rfl⟩ := h
    simp only [List.nil_append]
    cases d.processAll ys <;> simp
  | cons x xs ih =>
    rw [List.cons_append, Delay.processAll]
    rw [Delay.processAll] at h
    cases hp : d.process x with
    | none => rw [hp] at h; simp at h
    | some r =>
      obtain ⟨d2, out⟩ := r
      rw [hp] at h
      simp only at h ⊢
      cases hr : d2.processAll xs with
      | none => rw [hr] at h; simp at h
      | some r2 =>
        obtain ⟨d3, outs2⟩ := r2
        rw [hr] at h
        simp only [Option.some.injEq, Prod.mk.injEq] at h
        obtain ⟨rfl, rfl⟩ := h
        rw [ih d2 outs2 hr]
        cases d3.processAll ys <;> simp

/-- C11: for every delay length `L ≥ 1` and every feedback value `f`, a freshly
constructed `Delay` fed the unit impulse 1 followed by `L` zeros returns 1 at
position 0, 0 at every position `1 .. L-1` and exactly `f` at position `L`. -/
theorem delay_impulse_response (L : Nat) (f : ℚ) (hL : 1 ≤ L) :
    ∃ d d', Delay.ctor (L : Int) f = some d ∧
      d.processAll (1 :: List.replicate L 0)
        = some (d', 1 :: (List.replicate (L - 1) 0 ++ [f])) := by
  obtain ⟨n, rfl⟩ : ∃ n, L = n + 1 := ⟨L - 1, by omega⟩
  refine ⟨Delay.mk (List.replicate (n + 1) 0) 0 f, ?_⟩
  have hctor : Delay.ctor ((n + 1 : Nat) : Int) f
      = some (Delay.mk (List.replicate (n + 1) 0) 0 f) := by
    simp [Delay.ctor]
    omega
  cases n with
  | zero =>
    refine ⟨Delay.mk [f * f] 0 f, hctor, ?_⟩
    simp [Delay.processAll, Delay.process]
  | succ m =>
    refine ⟨Delay.mk (f * f :: List.replicate (m + 1) 0) 1 f, hctor, ?_⟩
    have h1 : (Delay.mk (List.replicate (m + 1 + 1) 0) 0 f).process 1
        = some (Delay.mk (f :: List.replicate (m + 1) 0) 1 f, 1) := by
      simp [Delay.process, List.replicate_succ]
    have h2 := Delay.process_zero_tail f m 1 (le_refl 1)
    rw [Nat.add_comm 1 m] at h2
    have h3 : (Delay.mk (f :: List.replicate (m + 1) 0) 0 f).processAll [0]
        = some (Delay.mk (f * f :: List.replicate (m + 1) 0) 1 f, [f]) := by
      simp [Delay.processAll, Delay.process]
    have h4 := Delay.processAll_append _ _ _ [0] _ h2
    rw [h3] at h4
    have e : List.replicate (m + 1 + 1) (0 : ℚ) = List.replicate (m + 1) 0 ++ [0] := by
      rw [List.replicate_succ' (m + 1)]
    rw [Delay.processAll, h1]
    simp only []
    rw [e, h4]
    simp

/-- C11, witness: delay length 3 and feedback 7/10. -/
theorem delay_impulse_response_witness :
    ∃ d d', Delay.ctor ((3 : Nat) : Int) (7 / 10) = some d ∧
      d.processAll (1 :: List.replicate 3 0)
        = some (d', 1 :: (List.replicate (3 - 1) 0 ++ [7 / 10])) :=
  delay_impulse_response 3 (7 / 10) (by decide)

/-- C12, evaluation at the failing input.  One tap of delay 1 and gain 1; the
inputs are 1, 0, 0.  The constructor makes a history buffer of 2 zeros.  The
first two outputs, 1 and 1/2, agree with the recurrence of the claim.  At step
2 the cursor is back at 0, the tap delay 1 exceeds it, and the code reads index
`2 - 1 - (1 - 0) = 0`, the value 1/2 written at step 0, two steps earlier; the
recurrence reads `h[1] = 1/4`, written one step earlier. -/
theorem multitap_reads_one_step_too_far :
    MultitapReverb.ctor [(1, 1)] = MultitapReverb.mk [(1, 1)] [0, 0] 0 ∧
      ((MultitapReverb.ctor [(1, 1)]).processAll [1, 0, 0]).map (fun r => r.2)
        = some [1, 1 / 2, 1 / 2] ∧
      reverbSpec [(1, 1)] [] [1, 0, 0] = [1, 1 / 2, 1 / 4] ∧
      (MultitapReverb.mk [(1, 1)] [1 / 2, 1 / 4] 0).tapSampleIndex 1 = 0 := by
  refine ⟨by decide!, by decide!, by decide!, by decide!⟩

/-! ## The scale and the oscillator -/

theorem semitone_eq : semitone = 4771397596969315 / 4503599627370496 := by decide!

theorem semitone_pow_twelve_gt : 2 < semitone ^ (12 : ℕ) := by
  rw [semitone_eq]
  norm_num

theorem semitone_pow_twelve_lt : semitone ^ (12 : ℕ) < 2 + 2 ^ (-49 : ℤ) := by
  rw [semitone_eq]
  norm_num

theorem semitone_pos : 0 < semitone := by
  rw [semitone_eq]
  norm_num

theorem semitone_zpow_ge (m : Int) (hm : -1000 ≤ m) : (2 : ℚ) ^ (-1000 : ℤ) ≤ semitone ^ m := by
  have h1 : (1 : ℚ) ≤ semitone := by rw [semitone_eq]; norm_num
  have h2 : semitone ≤ 2 := by rw [semitone_eq]; norm_num
  calc (2 : ℚ) ^ (-1000 : ℤ) ≤ semitone ^ (-1000 : ℤ) := by
        rw [zpow_neg, zpow_neg, zpow_ofNat, zpow_ofNat]
        exact inv_anti₀ (pow_pos semitone_pos _) (pow_le_pow_left₀ semitone_pos.le h2 1000)
    _ ≤ semitone ^ m := zpow_le_zpow_right₀ h1 hm

/-- The value of `scale` lies within the factors `(1 - 2⁻⁵²)(1 - 2⁻⁵³)` and
`(1 + 2⁻⁵²)(1 + 2⁻⁵³)` of `256 * semitone ^ m` when `pow` is accurate to
`2⁻⁵²`. -/
theorem scale_bounds (pow : ℚ → Int → ℚ) (m : Int) (hm : -1000 ≤ m)
    (hp : |pow semitone m - semitone ^ m| ≤ 2 ^ (-52 : ℤ) * semitone ^ m) :
    256 * semitone ^ m * ((1 - 2 ^ (-52 : ℤ)) * (1 - 2 ^ (-53 : ℤ))) ≤ fl (256 * pow semitone m) ∧
      fl (256 * pow semitone m)
        ≤ 256 * semitone ^ m * ((1 + 2 ^ (-52 : ℤ)) * (1 + 2 ^ (-53 : ℤ))) := by
  have hX := semitone_zpow_ge m hm
  have hXpos : 0 < semitone ^ m := zpow_pos semitone_pos m
  rw [abs_le] at hp
  have hp1 : (1 - 2 ^ (-52 : ℤ)) * semitone ^ m ≤ pow semitone m := by linarith [hp.1]
  have hp2 : pow semitone m ≤ (1 + 2 ^ (-52 : ℤ)) * semitone ^ m := by linarith [hp.2]
  have hy : (2 : ℚ) ^ (-1022 : ℤ) ≤ 256 * pow semitone m := by
    have e : (2 : ℚ) ^ (-1022 : ℤ) ≤ 256 * ((1 - 2 ^ (-52 : ℤ)) * 2 ^ (-1000 : ℤ)) := by
      norm_num
    have : (1 - (2 : ℚ) ^ (-52 : ℤ)) * 2 ^ (-1000 : ℤ) ≤ (1 - 2 ^ (-52 : ℤ)) * semitone ^ m :=
      mul_le_mul_of_nonneg_left hX (by norm_num)
    linarith
  obtain ⟨h1, h2⟩ := fl_bounds_pos hy
  have c1 : (0 : ℚ) ≤ 1 - 2 ^ (-53 : ℤ) := by norm_num
  have c2 : (0 : ℚ) ≤ 1 + 2 ^ (-53 : ℤ) := by norm_num
  constructor
  · calc 256 * semitone ^ m * ((1 - 2 ^ (-52 : ℤ)) * (1 - 2 ^ (-53 : ℤ)))
        = (1 - 2 ^ (-53 : ℤ)) * (256 * ((1 - 2 ^ (-52 : ℤ)) * semitone ^ m)) := by ring
      _ ≤ (1 - 2 ^ (-53 : ℤ)) * (256 * pow semitone m) :=
        mul_le_mul_of_nonneg_left (by linarith) c1
      _ ≤ fl (256 * pow semitone m) := h1
  · calc fl (256 * pow semitone m) ≤ (1 + 2 ^ (-53 : ℤ)) * (256 * pow semitone m) := h2
      _ ≤ (1 + 2 ^ (-53 : ℤ)) * (256 * ((1 + 2 ^ (-52 : ℤ)) * semitone ^ m)) :=
        mul_le_mul_of_nonneg_left (by linarith) c2
      _ = 256 * semitone ^ m * ((1 + 2 ^ (-52 : ℤ)) * (1 + 2 ^ (-53 : ℤ))) := by ring

/-- C13, as amended: raising the note by twelve steps doubles the frequency up
to rounding.  For a note with `-1000 ≤ noteId + 12 * octave ≤ 1000` and a
`std::pow` whose two results are accurate to a relative error of `2⁻⁵²`, the
frequency is positive and `scale(noteId + 12)` differs from
`2 * scale(noteId)` by at most `2⁻⁴⁸ * scale(noteId)`.  The twelfth power of the
semitone constant of the code, a double, is above 2. -/
theorem scale_octave_step (pow : ℚ → Int → ℚ) (octave note_id : Int)
    (hlo : -1000 ≤ note_id + 12 * octave) (_hhi : note_id + 12 * octave ≤ 1000)
    (hp1 : |pow semitone (note_id + 12 * octave) - semitone ^ (note_id + 12 * octave)|
      ≤ 2 ^ (-52 : ℤ) * semitone ^ (note_id + 12 * octave))
    (hp2 : |pow semitone (note_id + 12 + 12 * octave)
        - semitone ^ (note_id + 12 + 12 * octave)|
      ≤ 2 ^ (-52 : ℤ) * semitone ^ (note_id + 12 + 12 * octave)) :
    0 < scale pow octave note_id ∧
      |scale pow octave (note_id + 12) - 2 * scale pow octave note_id|
        ≤ 2 ^ (-48 : ℤ) * scale pow octave note_id ∧
      2 < semitone ^ (12 : ℕ) := by
  have hr := semitone_pos
  set m := note_id + 12 * octave with hm
  have hm' : note_id + 12 + 12 * octave = m + 12 := by rw [hm]; ring
  rw [hm'] at hp2
  have hXpos : 0 < semitone ^ m := zpow_pos hr m
  have hpow : semitone ^ (m + 12) = semitone ^ m * semitone ^ (12 : ℕ) := by
    rw [zpow_add₀ hr.ne']
    norm_cast
  obtain ⟨a1, a2⟩ := scale_bounds pow m hlo hp1
  obtain ⟨b1, b2⟩ := scale_bounds pow (m + 12) (by omega) hp2
  rw [hpow] at b1 b2
  have hR1 := semitone_pow_twelve_gt
  have hR2 := semitone_pow_twelve_lt
  have e1 : scale pow octave note_id = fl (256 * pow semitone m) := rfl
  have e2 : scale pow octave (note_id + 12) = fl (256 * pow semitone (m + 12)) := by
    unfold scale
    rw [hm']
  rw [e1, e2]
  set s1 := fl (256 * pow semitone m)
  set s2 := fl (256 * pow semitone (m + 12))
  set X := semitone ^ m
  set R := semitone ^ (12 : ℕ)
  have k1 : (0 : ℚ) < (1 - 2 ^ (-52 : ℤ)) * (1 - 2 ^ (-53 : ℤ)) := by norm_num
  have hs1 : 0 < s1 := lt_of_lt_of_le (by positivity) a1
  refine ⟨hs1, ?_, hR1⟩
  rw [abs_le]
  constructor
  · -- (2 - δ) s1 ≤ s2
    have n1 : (2 - (2 : ℚ) ^ (-48 : ℤ)) * ((1 + 2 ^ (-52 : ℤ)) * (1 + 2 ^ (-53 : ℤ)))
        ≤ 2 * ((1 - 2 ^ (-52 : ℤ)) * (1 - 2 ^ (-53 : ℤ))) := by norm_num
    have t1 : (2 - (2 : ℚ) ^ (-48 : ℤ)) * s1
        ≤ (2 - 2 ^ (-48 : ℤ)) * (256 * X * ((1 + 2 ^ (-52 : ℤ)) * (1 + 2 ^ (-53 : ℤ)))) :=
      mul_le_mul_of_nonneg_left a2 (by norm_num)
    have t2 : (2 - (2 : ℚ) ^ (-48 : ℤ)) * (256 * X * ((1 + 2 ^ (-52 : ℤ)) * (1 + 2 ^ (-53 : ℤ))))
        ≤ 256 * X * (2 * ((1 - 2 ^ (-52 : ℤ)) * (1 - 2 ^ (-53 : ℤ)))) := by
      have := mul_le_mul_of_nonneg_left n1 (by positivity : (0 : ℚ) ≤ 256 * X)
      linarith
    have t3 : 256 * X * (2 * ((1 - (2 : ℚ) ^ (-52 : ℤ)) * (1 - 2 ^ (-53 : ℤ))))
        ≤ 256 * (X * R) * ((1 - 2 ^ (-52 : ℤ)) * (1 - 2 ^ (-53 : ℤ))) := by
      have := mul_le_mul_of_nonneg_left hR1.le
        (by positivity : (0 : ℚ) ≤ 256 * X * ((1 - 2 ^ (-52 : ℤ)) * (1 - 2 ^ (-53 : ℤ))))
      linarith
    linarith
  · -- s2 ≤ (2 + δ) s1
    have n2 : (2 + (2 : ℚ) ^ (-49 : ℤ)) * ((1 + 2 ^ (-52 : ℤ)) * (1 + 2 ^ (-53 : ℤ)))
        ≤ (2 + 2 ^ (-48 : ℤ)) * ((1 - 2 ^ (-52 : ℤ)) * (1 - 2 ^ (-53 : ℤ))) := by norm_num
    have t1 : 256 * (X * R) * ((1 + (2 : ℚ) ^ (-52 : ℤ)) * (1 + 2 ^ (-53 : ℤ)))
        ≤ 256 * X * ((2 + 2 ^ (-49 : ℤ)) * ((1 + 2 ^ (-52 : ℤ)) * (1 + 2 ^ (-53 : ℤ)))) := by
      have := mul_le_mul_of_nonneg_left hR2.le
        (by positivity : (0 : ℚ) ≤ 256 * X * ((1 + 2 ^ (-52 : ℤ)) * (1 + 2 ^ (-53 : ℤ))))
      linarith
    have t2 : 256 * X * ((2 + (2 : ℚ) ^ (-49 : ℤ)) * ((1 + 2 ^ (-52 : ℤ)) * (1 + 2 ^ (-53 : ℤ))))
        ≤ 256 * X * ((2 + 2 ^ (-48 : ℤ)) * ((1 - 2 ^ (-52 : ℤ)) * (1 - 2 ^ (-53 : ℤ)))) :=
      mul_le_mul_of_nonneg_left n2 (by positivity)
    have t3 : (2 + (2 : ℚ) ^ (-48 : ℤ)) * (256 * X * ((1 - 2 ^ (-52 : ℤ)) * (1 - 2 ^ (-53 : ℤ))))
        ≤ (2 + 2 ^ (-48 : ℤ)) * s1 :=
      mul_le_mul_of_nonneg_left a1 (by norm_num)
    linarith

/-- C13, witness: octave 0, note 0 and the `pow` that returns the nearest
double; `scale(12)` is within `2⁻⁴⁸ * 256` of 512. -/
theorem scale_octave_step_witness :
    0 < scale powNearest 0 0 ∧
      |scale powNearest 0 (0 + 12) - 2 * scale powNearest 0 0|
        ≤ 2 ^ (-48 : ℤ) * scale powNearest 0 0 ∧
      2 < semitone ^ (12 : ℕ) :=
  scale_octave_step powNearest 0 0 (by norm_num) (by norm_num) (by decide!) (by decide!)

/-- C13, counterexample: with octave 0 and a `pow` that returns the nearest
double, `scale(0)` is 256 and `scale(12)` is `512 + 2⁻⁴²`
(512.0000000000002), not `2 * scale(0)`: the twelfth power of the double
semitone constant is above 2. -/
theorem scale_octave_step_counterexample :
    semitone = 4771397596969315 / 4503599627370496 ∧
      scale powNearest 0 0 = 256 ∧
      scale powNearest 0 (0 + 12) = 512 + 2 ^ (-42 : ℤ) ∧
      scale powNearest 0 (0 + 12) ≠ 2 * scale powNearest 0 0 := by
  refine ⟨by decide!, by decide!, by decide!, by decide!⟩

theorem sub_cube_le_sin (y : ℝ) (hy : 0 ≤ y) : y - y ^ 3 / 6 ≤ Real.sin y := by
  have hmono : MonotoneOn (fun t : ℝ => Real.sin t - t + t ^ 3 / 6) (Set.Ici 0) := by
    apply monotoneOn_of_deriv_nonneg (convex_Ici 0)
    · fun_prop
    · fun_prop
    · intro t _
      have hd : deriv (fun t : ℝ => Real.sin t - t + t ^ 3 / 6) t
          = Real.cos t - 1 + t ^ 2 / 2 := by
        have h1 : HasDerivAt (fun t : ℝ => Real.sin t - t + t ^ 3 / 6)
            (Real.cos t - 1 + 3 * t ^ 2 / 6) t := by
          have := ((Real.hasDerivAt_sin t).sub (hasDerivAt_id t)).add
            (((hasDerivAt_pow 3 t).div_const 6))
          convert this using 1
        rw [h1.deriv]; ring
      rw [hd]
      have := Real.one_sub_sq_div_two_le_cos (x := t)
      linarith
  have h0 := hmono (Set.mem_Ici.mpr (le_refl 0)) (Set.mem_Ici.mpr hy) hy
  simp at h0
  linarith

/-- The 49 partial sums of the saw series are bounded below by a cubic. -/
theorem saw_partial_sum_ge (x : ℝ) (hx : 0 ≤ x) :
    49 * x - 40425 / 6 * x ^ 3
      ≤ ∑ n ∈ Finset.Ico (1 : ℕ) 50, Real.sin ((n : ℝ) * x) / (n : ℝ) := by
  have hterm : ∀ n ∈ Finset.Ico (1 : ℕ) 50,
      x - (n : ℝ) ^ 2 * x ^ 3 / 6 ≤ Real.sin ((n : ℝ) * x) / (n : ℝ) := by
    intro n hn
    have hn1 : (1 : ℝ) ≤ n := by exact_mod_cast (Finset.mem_Ico.mp hn).1
    have hpos : (0 : ℝ) < n := by linarith
    rw [le_div_iff₀ hpos]
    have := sub_cube_le_sin ((n : ℝ) * x) (mul_nonneg hpos.le hx)
    nlinarith [this]
  have hsum : ∑ n ∈ Finset.Ico (1 : ℕ) 50, (x - (n : ℝ) ^ 2 * x ^ 3 / 6)
      = 49 * x - 40425 / 6 * x ^ 3 := by
    simp [Finset.sum_Ico_eq_sum_range, Finset.sum_range_succ]
    ring
  rw [← hsum]
  exact Finset.sum_le_sum hterm

theorem two_div_pi_pos : 0 < 2 / Real.pi := div_pos two_pos Real.pi_pos

/-- For a non-negative time and a positive frequency, `fmod(time, 1 / hertz)`
scaled by the frequency is the fractional part of `time * hertz`. -/
theorem hertz_mul_fmod (time hertz : ℝ) (ht : 0 ≤ time) (hh : 0 < hertz) :
    hertz * fmod time (1 / hertz) = Int.fract (time * hertz) := by
  have hq : time / (1 / hertz) = time * hertz := by field_simp
  unfold fmod
  rw [hq, if_pos (mul_nonneg ht hh.le)]
  unfold Int.fract
  field_simp

/-- C14, as amended: with the default LFO, shape and duty-cycle arguments, and a
`std::rand()` value between 0 and `RAND_MAX > 0`, `generateWaveform` returns a
sample in `[-1, 1]` for the kinds SINE, SQUARE, TRIANGLE, NOISE, PULSE, SAW_UP
and SAW_DOWN at every time and every frequency `> 0`, and for SAW_DIGITAL at
every time `≥ 0` and every frequency `> 0`.  Nothing is stated for
SAW_ANALOGUE. -/
theorem generateWaveform_range (RAND_MAX rand_value : ℕ) (time hertz : ℝ)
    (osc_type : OSCILLATOR_TYPE) (hh : 0 < hertz)
    (hmax : 0 < RAND_MAX) (hrand : rand_value ≤ RAND_MAX)
    (hkind : osc_type ≠ OSCILLATOR_TYPE.SAW_ANALOGUE)
    (hdig : osc_type = OSCILLATOR_TYPE.SAW_DIGITAL → 0 ≤ time) :
    -1 ≤ generateWaveform RAND_MAX rand_value time hertz osc_type 0 0 50 (1 / 2) ∧
      generateWaveform RAND_MAX rand_value time hertz osc_type 0 0 50 (1 / 2) ≤ 1 := by
  cases osc_type with
  | SINE =>
    simp only [generateWaveform]
    exact ⟨Real.neg_one_le_sin _, Real.sin_le_one _⟩
  | SQUARE =>
    simp only [generateWaveform]
    split_ifs <;> norm_num
  | TRIANGLE =>
    simp only [generateWaveform]
    have h1 := Real.neg_pi_div_two_le_arcsin
      (Real.sin (convertHertzToAngularFrequency hertz * time
        + 0 * hertz * Real.sin (convertHertzToAngularFrequency 0 * time)))
    have h2 := Real.arcsin_le_pi_div_two
      (Real.sin (convertHertzToAngularFrequency hertz * time
        + 0 * hertz * Real.sin (convertHertzToAngularFrequency 0 * time)))
    have hpi := Real.pi_pos
    constructor
    · have : -(Real.pi / 2) * (2 / Real.pi) = -1 := by field_simp; ring
      rw [← this]
      exact mul_le_mul_of_nonneg_right h1 two_div_pi_pos.le
    · have : (Real.pi / 2) * (2 / Real.pi) = 1 := by field_simp
      rw [← this]
      exact mul_le_mul_of_nonneg_right h2 two_div_pi_pos.le
  | SAW_ANALOGUE => exact absurd rfl hkind
  | SAW_DIGITAL =>
    simp only [generateWaveform]
    have ht := hdig rfl
    have hpi := Real.pi_pos
    have e : (2 / Real.pi) * (hertz * Real.pi * fmod time (1 / hertz) - Real.pi / 2)
        = 2 * (hertz * fmod time (1 / hertz)) - 1 := by
      field_simp
      ring
    rw [e, hertz_mul_fmod time hertz ht hh]
    have h0 := Int.fract_nonneg (time * hertz)
    have h1 := Int.fract_lt_one (time * hertz)
    constructor <;> linarith
  | NOISE =>
    simp only [generateWaveform]
    have hR : (0 : ℝ) < RAND_MAX := by exact_mod_cast hmax
    have hr : (rand_value : ℝ) ≤ RAND_MAX := by exact_mod_cast hrand
    have hr0 : (0 : ℝ) ≤ rand_value := Nat.cast_nonneg _
    have h1 : 2 * (rand_value : ℝ) / RAND_MAX ≤ 2 := by
      rw [div_le_iff₀ hR]; linarith
    have h0 : 0 ≤ 2 * (rand_value : ℝ) / RAND_MAX := by positivity
    constructor <;> linarith
  | PULSE =>
    simp only [generateWaveform]
    split_ifs <;> norm_num
  | SAW_UP =>
    simp only [generateWaveform]
    have h0 := Int.floor_le (1 / 2 + time * hertz)
    have h1 := Int.lt_floor_add_one (1 / 2 + time * hertz)
    constructor <;> linarith
  | SAW_DOWN =>
    simp only [generateWaveform]
    have h0 := Int.floor_le (1 / 2 + time * hertz)
    have h1 := Int.lt_floor_add_one (1 / 2 + time * hertz)
    constructor <;> linarith

/-- C14, witness: the SAW_DIGITAL kind at time 1/4 and frequency 1, with
`RAND_MAX = 32767`. -/
theorem generateWaveform_range_witness :
    -1 ≤ generateWaveform 32767 0 (1 / 4) 1 OSCILLATOR_TYPE.SAW_DIGITAL 0 0 50 (1 / 2) ∧
      generateWaveform 32767 0 (1 / 4) 1 OSCILLATOR_TYPE.SAW_DIGITAL 0 0 50 (1 / 2) ≤ 1 :=
  generateWaveform_range 32767 0 (1 / 4) 1 OSCILLATOR_TYPE.SAW_DIGITAL (by norm_num)
    (by norm_num) (by norm_num) (by decide) (fun _ => by norm_num)

/-- C14, counterexample: at frequency 1, the SAW_DIGITAL kind returns -2 at the
negative time -1/2 (`fmod` keeps the sign of the time), and the SAW_ANALOGUE kind
with its 49 partials returns more than 1 at time 1/128 (the overshoot of a
truncated saw series). -/
theorem generateWaveform_range_counterexample :
    generateWaveform 32767 0 (-1 / 2) 1 OSCILLATOR_TYPE.SAW_DIGITAL 0 0 50 (1 / 2) = -2 ∧
      1 < generateWaveform 32767 0 (1 / 128) 1 OSCILLATOR_TYPE.SAW_ANALOGUE 0 0 50 (1 / 2) := by
  constructor
  · simp only [generateWaveform]
    have hf : fmod (-1 / 2) (1 / 1) = -1 / 2 := by
      unfold fmod
      have hq : (-1 / 2 : ℝ) / (1 / 1) = -1 / 2 := by norm_num
      rw [hq, if_neg (by norm_num)]
      have hc : ⌈(-1 / 2 : ℝ)⌉ = 0 := by
        rw [Int.ceil_eq_iff]; norm_num
      rw [hc]; norm_num
    rw [hf]
    have hpi := Real.pi_pos
    field_simp
    ring
  · simp only [generateWaveform]
    have hc : ⌈(50 : ℝ)⌉₊ = 50 := by
      have : ((50 : ℕ) : ℝ) = 50 := by norm_num
      rw [← this, Nat.ceil_natCast]
    have hx : convertHertzToAngularFrequency 1 * (1 / 128)
        + 0 * 1 * Real.sin (convertHertzToAngularFrequency 0 * (1 / 128)) = Real.pi / 64 := by
      unfold convertHertzToAngularFrequency
      ring
    rw [hc, hx]
    have hpi := Real.pi_pos
    have hpi4 := Real.pi_lt_d4
    have hb := saw_partial_sum_ge (Real.pi / 64) (by positivity)
    have hlow : Real.pi / 2 < 49 * (Real.pi / 64) - 40425 / 6 * (Real.pi / 64) ^ 3 := by
      have hsq : Real.pi ^ 2 < 10 := by nlinarith
      nlinarith [mul_pos hpi hpi, mul_pos (mul_pos hpi hpi) hpi]
    have hsum : Real.pi / 2
        < ∑ n ∈ Finset.Ico (1 : ℕ) 50, Real.sin ((n : ℝ) * (Real.pi / 64)) / (n : ℝ) :=
      lt_of_lt_of_le hlow hb
    have : (1 : ℝ) = (Real.pi / 2) * (2 / Real.pi) := by field_simp
    rw [this]
    exact mul_lt_mul_of_pos_right hsum two_div_pi_pos

/-! ## The instruments -/

/-- C15, as amended: for a fixed active instrument, the envelope amplitude used
to render a note depends only on `now` and on the `onTime` and `offTime` of the
note.  Two notes with the same timestamps are rendered with one and the same
amplitude `a`, whatever their ids, their flags `a_active` and the values of
their oscillators: the sample of each is `a` times the value of its own
oscillators times the volume of the instrument.  The amplitude is not the same
whichever instrument is active (see the counterexample). -/
theorem sound_uses_instrument_envelope (inst : Instrument) (now : ℚ) (n1 n2 : Note)
    (hon : n1.a_on = n2.a_on) (hoff : n1.a_off = n2.a_off) :
    ∃ a : ℚ, ∀ (wave1 wave2 : ℚ) (fin1 fin2 : Bool),
      (inst.sound wave1 now n1 fin1).1 = a * wave1 * inst.a_volume ∧
        (inst.sound wave2 now n2 fin2).1 = a * wave2 * inst.a_volume := by
  refine ⟨inst.a_envelope.amplitude now n1.a_on n1.a_off, fun wave1 wave2 fin1 fin2 => ?_⟩
  unfold Instrument.sound
  rw [hon, hoff]
  exact ⟨rfl, rfl⟩

/-- C15, witness: the Piano and two notes switched on at 1 that differ in id and
in the flag `a_active`. -/
theorem sound_uses_instrument_envelope_witness :
    (Note.mk 1 1 0 true).a_on = (Note.mk 2 1 0 false).a_on ∧
      (Note.mk 1 1 0 true).a_off = (Note.mk 2 1 0 false).a_off ∧
      ∃ a : ℚ, ∀ (wave1 wave2 : ℚ) (fin1 fin2 : Bool),
        (Instrument.Piano.sound wave1 2 (Note.mk 1 1 0 true) fin1).1
            = a * wave1 * Instrument.Piano.a_volume ∧
          (Instrument.Piano.sound wave2 2 (Note.mk 2 1 0 false) fin2).1
            = a * wave2 * Instrument.Piano.a_volume :=
  ⟨rfl, rfl,
    sound_uses_instrument_envelope .Piano 2 (Note.mk 1 1 0 true) (Note.mk 2 1 0 false) rfl rfl⟩

/-- C15, counterexample: a note switched on at 1 (`a_off = 0`), rendered at
time 2, has envelope amplitude 4/5 when the Piano is active and 0 when the Drum
is active. -/
theorem sound_uses_instrument_envelope_counterexample :
    Instrument.Piano.a_envelope.amplitude 2 1 0 = 4 / 5 ∧
      Instrument.Drum.a_envelope.amplitude 2 1 0 = 0 ∧
      Instrument.Piano.a_envelope.amplitude 2 1 0
        ≠ Instrument.Drum.a_envelope.amplitude 2 1 0 := by
  have h1 : Instrument.Piano.a_envelope.amplitude 2 1 0 = 4 / 5 := by decide!
  have h2 : Instrument.Drum.a_envelope.amplitude 2 1 0 = 0 := by decide!
  refine ⟨h1, h2, ?_⟩
  rw [h1, h2]
  norm_num

/-- C16: for each catalog instrument, every time and every note, a call of
`sound(now, note, isFinished)` with `isFinished` initially false leaves
`isFinished` true if and only if the envelope amplitude of the instrument at
`(now, note.onTime, note.offTime)` is `≤ 0`. -/
theorem sound_sets_finished_iff (inst : Instrument) (wave now : ℚ) (note : Note) :
    (inst.sound wave now note false).2 = true
      ↔ inst.a_envelope.amplitude now note.a_on note.a_off ≤ 0 :=
  sound_finished_iff inst wave now note

/-! ## Zero-length buffers -/

theorem flanger_empty_read_index (sin : ℚ → ℚ) :
    Flanger.delay_read_index sin 44100 (Flanger.mk 0 [] 0 0 (1 / 2) (1 / 4) 0) = 0 := by
  simp only [Flanger.delay_read_index, zero_div, fl_zero, zero_mul, Nat.cast_zero, sub_zero,
    lt_irrefl, if_false]

/-- C17, evaluation at the failing input.  `Delay(0, 0.7)`, `CombFilter(0, 0.7)`
and `Flanger(0.0, 0.5, 0.25)` (with `SAMPLE_RATE = 44100`) are constructed
without failure, each with an empty buffer, and the first `process` or `filter`
call on each of them indexes that empty buffer, whatever `std::sin` returns. -/
theorem zero_length_buffer_is_constructed (sin : ℚ → ℚ) :
    Delay.ctor 0 (7 / 10) = some (Delay.mk [] 0 (7 / 10)) ∧
      (Delay.mk [] 0 (7 / 10)).process 1 = none ∧
      CombFilter.ctor 0 (7 / 10) = CombFilter.mk [] 0 (7 / 10) ∧
      (CombFilter.mk [] 0 (7 / 10)).filter 1 = none ∧
      Flanger.ctor 44100 0 (1 / 2) (1 / 4) = some (Flanger.mk 0 [] 0 0 (1 / 2) (1 / 4) 0) ∧
      Flanger.process sin 44100 (Flanger.mk 0 [] 0 0 (1 / 2) (1 / 4) 0) 1 = none := by
  refine ⟨by decide!, by decide!, by decide!, by decide!, by decide!, ?_⟩
  unfold Flanger.process
  simp only [flanger_empty_read_index]
  have h : castSizeT ((⌊(0 : ℚ)⌋ : ℤ) : ℚ) = some 0 := by decide!
  rw [h]
  simp only [List.length_nil, if_true]

/-! ## The block-filling loop -/

theorem channelLoop_time {σ : Type} (user : σ → Nat → ℚ → ℚ × σ)
    (a_channels nCurrentBlock n : Nat) (s : BlockRun σ) :
    (channelLoop user a_channels nCurrentBlock n s).a_global_time = s.a_global_time
      ∧ (channelLoop user a_channels nCurrentBlock n s).clock = s.clock := by
  unfold channelLoop
  induction a_channels generalizing s with
  | zero => simp
  | succ k ih =>
    rw [List.range_succ, List.foldl_append]
    simp only [List.foldl_cons, List.foldl_nil]
    exact ih s

/-- The loop started at counter `n` with `m` frames left to produce: the clock
goes through `m` rounded additions of the time step, and the recorded clock
values are the `m` successive results. -/
theorem fillLoop_clock {σ : Type} (user : σ → Nat → ℚ → ℚ × σ)
    (a_channels a_block_samples nCurrentBlock : Nat) (time_step : ℚ)
    (hc : 1 ≤ a_channels) (hb : a_block_samples < 2 ^ 32) (m : Nat) :
    ∀ (fuel n : Nat) (s : BlockRun σ), n + m * a_channels = a_block_samples → m ≤ fuel →
      ∃ s', fillLoop user a_channels a_block_samples nCurrentBlock time_step fuel n s = some s'
        ∧ s'.a_global_time = (fun t => fl (t + time_step))^[m] s.a_global_time
        ∧ s'.clock = s.clock
            ++ (List.range m).map
                (fun (i : ℕ) => (fun t => fl (t + time_step))^[i + 1] s.a_global_time) := by
  induction m with
  | zero =>
    intro fuel n s hn _
    have hnb : ¬ n < a_block_samples := by omega
    refine ⟨s, ?_, by simp, by simp⟩
    cases fuel <;> simp [fillLoop, hnb]
  | succ m ih =>
    intro fuel n s hn hfuel
    obtain ⟨fuel, rfl⟩ : ∃ k, fuel = k + 1 := ⟨fuel - 1, by omega⟩
    have hmul : (m + 1) * a_channels = m * a_channels + a_channels := by ring
    have hnb : n < a_block_samples := by omega
    have hmod : (n + a_channels) % 2 ^ 32 = n + a_channels :=
      Nat.mod_eq_of_lt (by omega)
    obtain ⟨ht, hcl⟩ := channelLoop_time user a_channels nCurrentBlock n s
    obtain ⟨s', hrun, htime, hclock⟩ := ih fuel (n + a_channels)
      { channelLoop user a_channels nCurrentBlock n s with
        a_global_time := fl ((channelLoop user a_channels nCurrentBlock n s).a_global_time
          + time_step)
        clock := (channelLoop user a_channels nCurrentBlock n s).clock
          ++ [fl ((channelLoop user a_channels nCurrentBlock n s).a_global_time + time_step)] }
      (by omega) (by omega)
    refine ⟨s', ?_, ?_, ?_⟩
    · rw [fillLoop, if_pos hnb]
      simp only [hmod]
      exact hrun
    · rw [htime]
      simp only [ht]
      rw [Function.iterate_succ_apply]
    · rw [hclock]
      simp only [ht, hcl, List.range_succ_eq_map, List.map_cons, List.map_map,
        List.append_assoc, List.singleton_append]
      congr 1

theorem iterate_clock_repr (step : ℚ) (t0 : ℚ) (h0 : fl t0 = t0) (i : Nat) :
    fl ((fun t => fl (t + step))^[i] t0) = (fun t => fl (t + step))^[i] t0 := by
  cases i with
  | zero => exact h0
  | succ k =>
    rw [Function.iterate_succ_apply']
    exact fl_idem _

theorem iterate_clock_le_succ (step : ℚ) (hstep : 0 ≤ step) (t0 : ℚ) (h0 : fl t0 = t0)
    (i : Nat) :
    (fun t => fl (t + step))^[i] t0 ≤ (fun t => fl (t + step))^[i + 1] t0 := by
  rw [Function.iterate_succ_apply']
  exact le_fl_of_le (iterate_clock_repr step t0 h0 i) (by linarith)

theorem iterate_clock_mono (step : ℚ) (hstep : 0 ≤ step) (t0 : ℚ) (h0 : fl t0 = t0)
    {i j : Nat} (hij : i ≤ j) :
    (fun t => fl (t + step))^[i] t0 ≤ (fun t => fl (t + step))^[j] t0 := by
  induction j with
  | zero =>
    have : i = 0 := by omega
    subst this
    exact le_refl _
  | succ k ih =>
    rcases Nat.lt_or_ge i (k + 1) with h | h
    · exact le_trans (ih (by omega)) (iterate_clock_le_succ step hstep t0 h0 k)
    · have : i = k + 1 := by omega
      subst this
      exact le_refl _

theorem clock_values_sorted (t0 step : ℚ) (hstep : 0 ≤ step) (h0 : fl t0 = t0) (m : Nat) :
    List.Chain' (fun a b : ℚ => a ≤ b)
      (t0 :: (List.range m).map (fun (i : ℕ) => (fun t => fl (t + step))^[i + 1] t0)) := by
  apply List.Pairwise.chain'
  rw [List.pairwise_cons]
  constructor
  · intro a ha
    obtain ⟨i, -, rfl⟩ := List.mem_map.mp ha
    exact iterate_clock_mono step hstep t0 h0 (Nat.zero_le (i + 1))
  · rw [List.pairwise_map]
    refine (List.pairwise_lt_range m).imp ?_
    intro i j hij
    exact iterate_clock_mono step hstep t0 h0 (by omega)

theorem one_add_pow_le (u : ℚ) (hu : 0 ≤ u) (n : Nat) (hn : 2 * (n : ℚ) * u ≤ 1) :
    (1 + u) ^ n ≤ 1 + 2 * (n : ℚ) * u := by
  induction n with
  | zero => simp
  | succ k ih =>
    have hk : 2 * (k : ℚ) * u ≤ 1 := by
      push_cast at hn
      nlinarith
    have h := ih hk
    rw [pow_succ]
    push_cast
    have h1 : (1 + u) ^ k * (1 + u) ≤ (1 + 2 * (k : ℚ) * u) * (1 + u) :=
      mul_le_mul_of_nonneg_right h (by linarith)
    nlinarith [mul_nonneg hu hu, mul_le_mul_of_nonneg_right hk hu]

/-- The clock after `i` rounded additions of the step `ts`, the double nearest
to `τ ≥ 2⁻³²`, started at `t0 ≥ 0`, lies within the factors `(1 - 2⁻⁵³)^(i+1)`
and `(1 + 2⁻⁵³)^(i+1)` of `t0 + i * τ`. -/
theorem iterate_clock_bounds (τ t0 : ℚ) (hτ : 2 ^ (-32 : ℤ) ≤ τ) (ht0 : 0 ≤ t0) (i : Nat) :
    (1 - 2 ^ (-53 : ℤ)) ^ (i + 1) * (t0 + i * τ) ≤ (fun t => fl (t + fl τ))^[i] t0 ∧
      (fun t => fl (t + fl τ))^[i] t0 ≤ (1 + 2 ^ (-53 : ℤ)) ^ (i + 1) * (t0 + i * τ) := by
  have hτpos : 0 < τ := lt_of_lt_of_le (two_zpow_pos _) hτ
  have hu0 : (0 : ℚ) ≤ 1 - 2 ^ (-53 : ℤ) := by norm_num
  have hu1 : (1 : ℚ) - 2 ^ (-53 : ℤ) ≤ 1 := by norm_num
  have hv1 : (1 : ℚ) ≤ 1 + 2 ^ (-53 : ℤ) := by norm_num
  obtain ⟨hs1, hs2⟩ := fl_bounds_pos (y := τ)
    (le_trans (zpow_le_zpow_right₀ (by norm_num) (by norm_num)) hτ)
  have hslow : (2 : ℚ) ^ (-1022 : ℤ) ≤ fl τ := by
    have : (2 : ℚ) ^ (-1022 : ℤ) ≤ (1 - 2 ^ (-53 : ℤ)) * 2 ^ (-32 : ℤ) := by norm_num
    have h2 : (1 - (2 : ℚ) ^ (-53 : ℤ)) * 2 ^ (-32 : ℤ) ≤ (1 - 2 ^ (-53 : ℤ)) * τ :=
      mul_le_mul_of_nonneg_left hτ hu0
    linarith
  induction i with
  | zero =>
    simp only [Function.iterate_zero, id_eq, Nat.cast_zero, zero_mul, add_zero, zero_add,
      pow_one]
    constructor
    · nlinarith
    · nlinarith
  | succ k ih =>
    obtain ⟨ih1, ih2⟩ := ih
    have hT : 0 ≤ t0 + (k : ℚ) * τ := by positivity
    have hc0 : 0 ≤ (fun t => fl (t + fl τ))^[k] t0 :=
      le_trans (mul_nonneg (pow_nonneg hu0 _) hT) ih1
    obtain ⟨b1, b2⟩ := fl_bounds_pos (y := (fun t => fl (t + fl τ))^[k] t0 + fl τ)
      (by linarith)
    rw [Function.iterate_succ_apply']
    have hp1 : (1 - (2 : ℚ) ^ (-53 : ℤ)) ^ (k + 1) ≤ 1 - 2 ^ (-53 : ℤ) := by
      calc (1 - (2 : ℚ) ^ (-53 : ℤ)) ^ (k + 1)
          = (1 - 2 ^ (-53 : ℤ)) ^ k * (1 - 2 ^ (-53 : ℤ)) := pow_succ _ _
        _ ≤ 1 * (1 - 2 ^ (-53 : ℤ)) :=
          mul_le_mul_of_nonneg_right (pow_le_one₀ hu0 hu1) hu0
        _ = _ := one_mul _
    have hp2 : (1 : ℚ) + 2 ^ (-53 : ℤ) ≤ (1 + 2 ^ (-53 : ℤ)) ^ (k + 1) := by
      calc (1 : ℚ) + 2 ^ (-53 : ℤ) = 1 * (1 + 2 ^ (-53 : ℤ)) := (one_mul _).symm
        _ ≤ (1 + 2 ^ (-53 : ℤ)) ^ k * (1 + 2 ^ (-53 : ℤ)) :=
          mul_le_mul_of_nonneg_right (one_le_pow₀ hv1) (by linarith)
        _ = _ := (pow_succ _ _).symm
    push_cast
    constructor
    · calc (1 - (2 : ℚ) ^ (-53 : ℤ)) ^ (k + 1 + 1) * (t0 + ((k : ℚ) + 1) * τ)
          = (1 - 2 ^ (-53 : ℤ)) * ((1 - 2 ^ (-53 : ℤ)) ^ (k + 1) * (t0 + k * τ)
              + (1 - 2 ^ (-53 : ℤ)) ^ (k + 1) * τ) := by ring
        _ ≤ (1 - 2 ^ (-53 : ℤ)) * ((fun t => fl (t + fl τ))^[k] t0 + fl τ) := by
          apply mul_le_mul_of_nonneg_left _ hu0
          have := mul_le_mul_of_nonneg_right hp1 hτpos.le
          linarith
        _ ≤ _ := b1
    · calc fl ((fun t => fl (t + fl τ))^[k] t0 + fl τ)
          ≤ (1 + 2 ^ (-53 : ℤ)) * ((fun t => fl (t + fl τ))^[k] t0 + fl τ) := b2
        _ ≤ (1 + 2 ^ (-53 : ℤ)) * ((1 + 2 ^ (-53 : ℤ)) ^ (k + 1) * (t0 + k * τ)
              + (1 + 2 ^ (-53 : ℤ)) ^ (k + 1) * τ) := by
          apply mul_le_mul_of_nonneg_left _ (by linarith)
          have := mul_le_mul_of_nonneg_right hp2 hτpos.le
          linarith
        _ = _ := by ring

/-- The clock after `i` rounded additions differs from `t0 + i * τ` by at most
`(i + 1) * 2⁻⁵²` times that value, for up to `2 ^ 32` additions. -/
theorem iterate_clock_error (τ t0 : ℚ) (hτ : 2 ^ (-32 : ℤ) ≤ τ) (ht0 : 0 ≤ t0) (i : Nat)
    (hi : i < 2 ^ 32) :
    |(fun t => fl (t + fl τ))^[i] t0 - (t0 + i * τ)|
      ≤ ((i : ℚ) + 1) * 2 ^ (-52 : ℤ) * (t0 + i * τ) := by
  have hτpos : 0 < τ := lt_of_lt_of_le (two_zpow_pos _) hτ
  have hT : 0 ≤ t0 + (i : ℚ) * τ := by positivity
  obtain ⟨h1, h2⟩ := iterate_clock_bounds τ t0 hτ ht0 i
  have hiq : ((i : ℚ) + 1) ≤ 2 ^ 32 := by
    have : i + 1 ≤ 2 ^ 32 := hi
    exact_mod_cast this
  have hn : 2 * ((i + 1 : ℕ) : ℚ) * 2 ^ (-53 : ℤ) ≤ 1 := by
    push_cast
    have : (2 : ℚ) * 2 ^ 32 * 2 ^ (-53 : ℤ) ≤ 1 := by norm_num
    nlinarith [two_zpow_pos (-53)]
  have hup := one_add_pow_le (2 ^ (-53 : ℤ)) (two_zpow_pos _).le (i + 1) hn
  have hlow : 1 + ((i + 1 : ℕ) : ℚ) * (-(2 : ℚ) ^ (-53 : ℤ)) ≤ (1 + -(2 : ℚ) ^ (-53 : ℤ)) ^ (i + 1) :=
    one_add_mul_le_pow (by norm_num) (i + 1)
  push_cast at hup hlow
  have e52 : (2 : ℚ) ^ (-52 : ℤ) = 2 * 2 ^ (-53 : ℤ) := by norm_num
  rw [abs_le, e52]
  constructor
  · have : (1 - ((i : ℚ) + 1) * 2 ^ (-53 : ℤ)) * (t0 + i * τ)
        ≤ (1 - 2 ^ (-53 : ℤ)) ^ (i + 1) * (t0 + i * τ) :=
      mul_le_mul_of_nonneg_right (by rw [sub_eq_add_neg (1 : ℚ) (2 ^ (-53 : ℤ))]; linarith) hT
    nlinarith [mul_nonneg (mul_nonneg (by positivity : (0 : ℚ) ≤ (i : ℚ) + 1) (two_zpow_pos (-53)).le) hT]
  · have : (1 + 2 ^ (-53 : ℤ)) ^ (i + 1) * (t0 + i * τ)
        ≤ (1 + 2 * ((i : ℚ) + 1) * 2 ^ (-53 : ℤ)) * (t0 + i * τ) :=
      mul_le_mul_of_nonneg_right hup hT
    nlinarith

/-- C18, as amended: in the sequential run of the block-filling loop, for a
sample rate `> 0` and a channel count `≥ 1` that divides the block size (32 bit
counts), started with a clock that holds a double `≥ 0`, the loop returns once
it is given at least `blockSamples / channels` iterations.  The clock has then
gone through `blockSamples / channels` additions of the double nearest to
`1 / sampleRate`, each rounded to the nearest double; the successive clock
values never decrease, and the final clock differs from
`blockSamples / sampleRate / channels` past the initial clock by at most
`(blockSamples / channels + 1) * 2⁻⁵²` times that value. -/
theorem block_clock_advance {σ : Type} (g : SoundGenerator)
    (user : σ → Nat → ℚ → ℚ × σ) (user_state : σ) (fuel : Nat)
    (hsr : 0 < g.a_sample_rate) (hsr32 : g.a_sample_rate < 2 ^ 32) (hc : 1 ≤ g.a_channels)
    (hdvd : g.a_channels ∣ g.a_block_samples) (hb : g.a_block_samples < 2 ^ 32)
    (ht0 : 0 ≤ g.a_global_time) (htd : fl g.a_global_time = g.a_global_time)
    (hfuel : g.a_block_samples / g.a_channels ≤ fuel) :
    ∃ s', g.fillBlock user user_state fuel = some s' ∧
      s'.a_global_time
        = (fun t => fl (t + fl (1 / (g.a_sample_rate : ℚ))))^[g.a_block_samples / g.a_channels]
            g.a_global_time ∧
      s'.clock = (List.range (g.a_block_samples / g.a_channels)).map
        (fun (i : ℕ) =>
          (fun t => fl (t + fl (1 / (g.a_sample_rate : ℚ))))^[i + 1] g.a_global_time) ∧
      List.Chain' (fun a b : ℚ => a ≤ b) (g.a_global_time :: s'.clock) ∧
      |s'.a_global_time - (g.a_global_time
          + (g.a_block_samples : ℚ) / (g.a_sample_rate : ℚ) / (g.a_channels : ℚ))|
        ≤ (((g.a_block_samples / g.a_channels : ℕ) : ℚ) + 1) * 2 ^ (-52 : ℤ)
          * (g.a_global_time
            + (g.a_block_samples : ℚ) / (g.a_sample_rate : ℚ) / (g.a_channels : ℚ)) := by
  obtain ⟨k, hk⟩ := hdvd
  have hdiv : g.a_block_samples / g.a_channels = k := by
    rw [hk]; exact Nat.mul_div_cancel_left k (by omega)
  rw [hdiv] at hfuel ⊢
  obtain ⟨s', hrun, htime, hclock⟩ := fillLoop_clock user g.a_channels g.a_block_samples
    ((g.a_block_current * g.a_block_samples) % 2 ^ 32) (fl (1 / (g.a_sample_rate : ℚ))) hc hb k
    fuel 0
    { a_global_time := g.a_global_time, user_state := user_state, writes := [], clock := [] }
    (by rw [hk]; ring) hfuel
  have hcq : (0 : ℚ) < g.a_channels := by exact_mod_cast hc
  have hsq : (0 : ℚ) < g.a_sample_rate := by exact_mod_cast hsr
  have hτ : (2 : ℚ) ^ (-32 : ℤ) ≤ 1 / (g.a_sample_rate : ℚ) := by
    have h32 : (g.a_sample_rate : ℚ) ≤ 2 ^ 32 := by exact_mod_cast hsr32.le
    rw [le_div_iff₀ hsq]
    have : (2 : ℚ) ^ (-32 : ℤ) * 2 ^ 32 = 1 := by norm_num
    nlinarith [two_zpow_pos (-32)]
  have hkb : k < 2 ^ 32 := by
    have : k ≤ g.a_block_samples := by
      rw [hk]; exact Nat.le_mul_of_pos_left k (by omega)
    omega
  have hT : (g.a_block_samples : ℚ) / (g.a_sample_rate : ℚ) / (g.a_channels : ℚ)
      = (k : ℚ) * (1 / (g.a_sample_rate : ℚ)) := by
    rw [hk]
    push_cast
    field_simp
    ring
  simp only [List.nil_append] at hclock
  refine ⟨s', hrun, htime, hclock, ?_, ?_⟩
  · rw [hclock]
    exact clock_values_sorted _ _ (fl_nonneg (by positivity)) htd k
  · rw [htime, hT]
    exact iterate_clock_error _ _ hτ ht0 k hkb

/-- C18, witness: the generator of `main` (2 channels, 8 blocks of 512 samples)
at a sample rate of 44100, started at clock 0: the block is produced and the
clock is within `257 * 2⁻⁵²` of `512 / 44100 / 2`, relatively. -/
theorem block_clock_advance_witness :
    ∃ s', (SoundGenerator.mk 44100 2 8 512 0 0).fillBlock
        (fun (s : Unit) (_ : Nat) (_ : ℚ) => ((0 : ℚ), s)) () 256 = some s' ∧
      |s'.a_global_time - (0 + ((512 : ℕ) : ℚ) / ((44100 : ℕ) : ℚ) / ((2 : ℕ) : ℚ))|
        ≤ ((((512 : ℕ) / (2 : ℕ) : ℕ) : ℚ) + 1) * 2 ^ (-52 : ℤ)
          * (0 + ((512 : ℕ) : ℚ) / ((44100 : ℕ) : ℚ) / ((2 : ℕ) : ℚ)) :=
  have h := block_clock_advance (SoundGenerator.mk 44100 2 8 512 0 0)
    (fun (s : Unit) (_ : Nat) (_ : ℚ) => ((0 : ℚ), s)) () 256
    (by decide) (by decide) (by decide) (by decide) (by decide) (le_refl _) fl_zero (by decide)
  h.elim (fun s' hs => ⟨s', hs.1, hs.2.2.2.2⟩)

/-- C18, counterexample: the generator of `main` (sample rate 44100, 2
channels, 512 samples a block) started at clock 0.  After one block the clock
is `6692696262570325 / 2 ^ 60` (0.00580498866213149), which is neither the
number `512 / 44100 / 2` nor the double that the expression
`512.0 / 44100 / 2` evaluates to (0.005804988662131519). -/
theorem block_clock_advance_counterexample :
    ((SoundGenerator.mk 44100 2 8 512 0 0).fillBlock
        (fun (s : Unit) (_ : Nat) (_ : ℚ) => ((0 : ℚ), s)) () 256).map
        (fun s => s.a_global_time) = some (6692696262570325 / 2 ^ 60) ∧
      (6692696262570325 / 2 ^ 60 : ℚ) ≠ 512 / 44100 / 2 ∧
      (6692696262570325 / 2 ^ 60 : ℚ) ≠ fl (fl (512 / 44100) / 2) := by
  refine ⟨by decide!, by norm_num, by decide!⟩

/-! ## The key polling step -/

theorem modifyFirst_of_split (p : Note → Bool) (f : Note → Note) (l1 l2 : List Note)
    (x : Note) (hx : p x = true) (hl1 : ∀ n ∈ l1, p n = false) :
    modifyFirst p f (l1 ++ x :: l2) = l1 ++ f x :: l2 := by
  induction l1 with
  | nil => exact modifyFirst_cons_pos p f x l2 hx
  | cons a l ih =>
    rw [List.cons_append, modifyFirst_cons_neg p f a _ (hl1 a (List.mem_cons_self a l)),
      ih (fun n hn => hl1 n (List.mem_cons_of_mem a hn)), List.cons_append]

/-- The key polling step on a registry whose first entry with id `k` is `x`:
only `x` is touched. -/
theorem keyStep_of_split (k : Int) (key_down : Bool) (curr_time : ℚ) (l1 l2 : List Note)
    (x : Note) (hx : x.a_id = k) (hl1 : ∀ n ∈ l1, n.a_id ≠ k) :
    keyStep k key_down curr_time (l1 ++ x :: l2)
      = l1 ++ (if key_down then
            (if x.a_off > x.a_on then { x with a_on := curr_time, a_active := true } else x)
          else (if x.a_off < x.a_on then { x with a_off := curr_time } else x)) :: l2 := by
  have hany : (l1 ++ x :: l2).any (fun item => item.a_id == k) = true := by
    simp [hx]
  unfold keyStep
  rw [if_pos hany]
  exact modifyFirst_of_split _ _ l1 l2 x (by simp [hx]) (fun n hn => by simpa using hl1 n hn)

/-- C19: in the key polling step, a release sets `offTime` once.  Let `x` be the
entry the lookup finds for key `k` (the first entry with that id), sounding
(`offTime < onTime`), and let the key be up at a time `now ≥ onTime`: the step
sets `offTime` of `x` to `now` and changes nothing else; and a later poll of
the resulting registry with the key still up, at any time, changes nothing. -/
theorem key_release_sets_off_once (k : Int) (now : ℚ) (l1 l2 : List Note) (x : Note)
    (hx : x.a_id = k) (hl1 : ∀ n ∈ l1, n.a_id ≠ k)
    (hs : x.a_off < x.a_on) (hnow : x.a_on ≤ now) :
    keyStep k false now (l1 ++ x :: l2) = l1 ++ { x with a_off := now } :: l2 ∧
      ∀ later : ℚ, now ≤ later →
        keyStep k false later (l1 ++ { x with a_off := now } :: l2)
          = l1 ++ { x with a_off := now } :: l2 := by
  constructor
  · rw [keyStep_of_split k false now l1 l2 x hx hl1]
    simp [hs]
  · intro later _
    rw [keyStep_of_split k false later l1 l2 { x with a_off := now } hx hl1]
    simp only [Bool.false_eq_true, if_false]
    rw [if_neg (not_lt.mpr hnow)]

/-- C19, witness: key 3 pressed at 1 and released at 2, polled again at 5, with
another note before it in the registry. -/
theorem key_release_sets_off_once_witness :
    keyStep 3 false 2 [Note.mk 7 0 0 true, Note.mk 3 1 0 true]
        = [Note.mk 7 0 0 true, Note.mk 3 1 2 true] ∧
      keyStep 3 false 5 [Note.mk 7 0 0 true, Note.mk 3 1 2 true]
        = [Note.mk 7 0 0 true, Note.mk 3 1 2 true] :=
  have h := key_release_sets_off_once 3 2 [Note.mk 7 0 0 true] [] (Note.mk 3 1 0 true) rfl
    (by decide) (by norm_num) (by norm_num)
  ⟨h.1, h.2 5 (by norm_num)⟩

/-- C20, as amended: in the key polling step, let `x` be the entry the lookup
finds for key `k` (the first entry with that id), in its release tail
(`offTime > onTime`), and let the key be down at a time `now > offTime`.  The
step sets `onTime` of `x` to `now` (and its flag `a_active`), adds no entry and
changes nothing else; afterwards `x` is sounding and, for an envelope with
`attackTime > 0` and `decayTime ≥ 0`, its amplitude at `now` is 0. -/
theorem key_restrike_restarts (k : Int) (now : ℚ) (l1 l2 : List Note) (x : Note)
    (e : ADSREnvelope) (hx : x.a_id = k) (hl1 : ∀ n ∈ l1, n.a_id ≠ k)
    (htail : x.a_off > x.a_on) (hnow : now > x.a_off)
    (ha : 0 < e.a_attack_time) (hd : 0 ≤ e.a_decay_time) :
    keyStep k true now (l1 ++ x :: l2)
        = l1 ++ { x with a_on := now, a_active := true } :: l2 ∧
      (keyStep k true now (l1 ++ x :: l2)).length = (l1 ++ x :: l2).length ∧
      Note.sounding { x with a_on := now, a_active := true } ∧
      e.amplitude now now x.a_off = 0 := by
  have hstep : keyStep k true now (l1 ++ x :: l2)
      = l1 ++ { x with a_on := now, a_active := true } :: l2 := by
    rw [keyStep_of_split k true now l1 l2 x hx hl1]
    simp [htail]
  refine ⟨hstep, ?_, hnow, ?_⟩
  · rw [hstep]; simp
  · rw [amplitude_of_on e now now x.a_off hnow, sub_self,
      adsrLevel_attack e 0 hd ha.le]
    simp

/-- C20, witness: key 3, released at 2 after a press at 1, is pressed again at
3, with the Piano envelope. -/
theorem key_restrike_restarts_witness :
    keyStep 3 true 3 [Note.mk 7 0 0 true, Note.mk 3 1 2 true]
        = [Note.mk 7 0 0 true, Note.mk 3 3 2 true] ∧
      Note.sounding (Note.mk 3 3 2 true) ∧
      Instrument.Piano.a_envelope.amplitude 3 3 2 = 0 :=
  have h := key_restrike_restarts 3 3 [Note.mk 7 0 0 true] [] (Note.mk 3 1 2 true)
    Instrument.Piano.a_envelope rfl (by decide) (by norm_num) (by norm_num)
    (by norm_num [Instrument.a_envelope]) (by norm_num [Instrument.a_envelope])
  ⟨h.1, h.2.2.1, h.2.2.2⟩

/-- C20, counterexample: an envelope with attack time 1/10, peak 1, sustain 1/2
and the negative decay time -1.  Key 3, released at 2 after a press at 1, is
pressed again at 3: the entry gets `onTime = 3`, and its amplitude at 3 is the
sustain level 1/2, not 0. -/
theorem key_restrike_restarts_counterexample :
    0 < (ADSREnvelope.mk (1 / 10) (-1) (1 / 2) (1 / 5) 1).a_attack_time ∧
      keyStep 3 true 3 [Note.mk 3 1 2 true] = [Note.mk 3 3 2 true] ∧
      (ADSREnvelope.mk (1 / 10) (-1) (1 / 2) (1 / 5) 1).amplitude 3 3 2 = 1 / 2 ∧
      (ADSREnvelope.mk (1 / 10) (-1) (1 / 2) (1 / 5) 1).amplitude 3 3 2 ≠ 0 := by
  refine ⟨by decide!, by decide!, by decide!, by decide!⟩

/-! ## Clipping and quantization -/

theorem clip_bounds (x max_value : ℚ) (hmax : 0 ≤ max_value) :
    -max_value ≤ clip x max_value ∧ clip x max_value ≤ max_value := by
  unfold clip
  split_ifs with h
  · exact ⟨le_min (by linarith) (by linarith), min_le_right _ _⟩
  · exact ⟨le_max_right _ _, max_le (by linarith) (by linarith)⟩

theorem clip_of_abs_le (x max_value : ℚ) (hx : |x| ≤ max_value) : clip x max_value = x := by
  rw [abs_le] at hx
  unfold clip
  split_ifs with h
  · exact min_eq_left hx.2
  · exact max_eq_left hx.1

/-- A value of magnitude at most 32767 is stored in an `int16_t` as its
truncation, which has magnitude at most 32767. -/
theorem castInt16_bounds (y : ℚ) (h0 : -32767 ≤ y) (h1 : y ≤ 32767) :
    castInt16 y = truncToInt y ∧ -32767 ≤ castInt16 y ∧ castInt16 y ≤ 32767 := by
  have ht : -32767 ≤ truncToInt y ∧ truncToInt y ≤ 32767 := by
    unfold truncToInt
    split_ifs with h
    · constructor
      · have := Int.floor_nonneg.mpr h
        linarith
      · have h2 : (⌊y⌋ : ℚ) ≤ 32767 := le_trans (Int.floor_le y) h1
        exact_mod_cast h2
    · constructor
      · have h2 : ((-32767 : Int) : ℚ) ≤ (⌈y⌉ : ℚ) := by
          push_cast
          exact le_trans h0 (Int.le_ceil y)
        exact_mod_cast h2
      · have : ⌈y⌉ ≤ 0 := Int.ceil_le.mpr (by push_cast; linarith)
        linarith
  have hc : castInt y = truncToInt y := by
    unfold castInt
    simp only []
    rw [if_pos ⟨by linarith [ht.1], by linarith [ht.2]⟩]
  have h16 : castInt16 y = truncToInt y := by
    unfold castInt16
    rw [hc, Int.emod_eq_of_lt (by linarith [ht.1]) (by linarith [ht.2])]
    ring
  rw [h16]
  exact ⟨rfl, ht⟩

/-- C21: for every sample `x` and every `max ≥ 0`, `clip(x, max)` lies in
`[-max, max]` and equals `x` whenever `|x| ≤ max`; consequently the value
`clip(x, 1.0) * 32767` lies in `[-32767, 32767]`, and so does the `int16_t`
it is converted to before it is written to the block. -/
theorem clip_range (x max_value : ℚ) (hmax : 0 ≤ max_value) :
    (-max_value ≤ clip x max_value ∧ clip x max_value ≤ max_value) ∧
      (|x| ≤ max_value → clip x max_value = x) ∧
      (-32767 ≤ clip x 1 * max_sample ∧ clip x 1 * max_sample ≤ 32767) ∧
      (-32767 ≤ castInt16 (clip x 1 * max_sample)
        ∧ castInt16 (clip x 1 * max_sample) ≤ 32767) := by
  have h1 := clip_bounds x 1 zero_le_one
  have hq : -32767 ≤ clip x 1 * max_sample ∧ clip x 1 * max_sample ≤ 32767 := by
    unfold max_sample
    constructor <;> linarith [h1.1, h1.2]
  exact ⟨clip_bounds x max_value hmax, clip_of_abs_le x max_value, hq,
    (castInt16_bounds _ hq.1 hq.2).2⟩

/-- C21, witness: the sample 3/2 is clipped to 1 and quantized to 32767; the
sample -1/4 is kept and quantized to -8191. -/
theorem clip_range_witness :
    clip (3 / 2) 1 = 1 ∧ castInt16 (clip (3 / 2) 1 * max_sample) = 32767 ∧
      clip (-1 / 4) 1 = -1 / 4 ∧ castInt16 (clip (-1 / 4) 1 * max_sample) = -8191 ∧
      castInt16 (clip (3 / 2) 1 * max_sample) ≤ 32767 :=
  ⟨by decide!, by decide!,
    (clip_range (-1 / 4) 1 zero_le_one).2.1 (by norm_num [abs_le]), by decide!,
    (clip_range (3 / 2) 1 zero_le_one).2.2.2.2⟩

/-! ## The multi-tap reverb: index safety -/

theorem subSizeT_of_le (a b : Nat) (hb : b ≤ a) (ha : a < 2 ^ 64) : subSizeT a b = a - b := by
  unfold subSizeT
  have h0 : (0 : Int) ≤ (a : Int) - (b : Int) := by omega
  have h1 : (a : Int) - (b : Int) < 2 ^ 64 := by
    have : ((a : Int)) < 2 ^ 64 := by exact_mod_cast ha
    omega
  rw [Int.emod_eq_of_lt h0 h1]
  omega

theorem largest_fold_ge (taps : List (Nat × ℚ)) :
    ∀ init : Nat,
      init ≤ taps.foldl (fun largestTimeOffset tap =>
          if tap.1 > largestTimeOffset then tap.1 else largestTimeOffset) init
        ∧ ∀ tap ∈ taps, tap.1 ≤ taps.foldl (fun largestTimeOffset tap =>
          if tap.1 > largestTimeOffset then tap.1 else largestTimeOffset) init := by
  induction taps with
  | nil => intro init; simp
  | cons t rest ih =>
    intro init
    simp only [List.foldl_cons, List.mem_cons]
    obtain ⟨h1, h2⟩ := ih (if t.1 > init then t.1 else init)
    constructor
    · refine le_trans ?_ h1
      split_ifs <;> omega
    · rintro tap (rfl | htap)
      · refine le_trans ?_ h1
        split_ifs <;> omega
      · exact h2 tap htap

theorem largest_fold_le (taps : List (Nat × ℚ)) (B : Nat) (hB : ∀ tap ∈ taps, tap.1 ≤ B) :
    ∀ init : Nat, init ≤ B →
      taps.foldl (fun largestTimeOffset tap =>
        if tap.1 > largestTimeOffset then tap.1 else largestTimeOffset) init ≤ B := by
  induction taps with
  | nil => intro init h; simpa using h
  | cons t rest ih =>
    intro init h
    simp only [List.foldl_cons]
    apply ih (fun tap htap => hB tap (List.mem_cons_of_mem t htap))
    split_ifs
    · exact hB t (List.mem_cons_self t rest)
    · exact h

/-- The state invariant of the reverb for a largest delay `D`. -/
theorem tapSampleIndex_lt (r : MultitapReverb) (D : Nat)
    (hlen : r.a_samples.length = D + 1) (hidx : r.a_sample_idx < D + 1)
    (hD : D + 1 < 2 ^ 64) (delay : Nat) (hd : delay ≤ D) :
    r.tapSampleIndex delay < r.a_samples.length := by
  unfold MultitapReverb.tapSampleIndex
  split_ifs with h
  · rw [hlen, subSizeT_of_le (D + 1) 1 (by omega) hD,
      subSizeT_of_le delay r.a_sample_idx (by omega) (by omega),
      subSizeT_of_le (D + 1 - 1) (delay - r.a_sample_idx) (by omega) (by omega)]
    omega
  · rw [hlen, subSizeT_of_le r.a_sample_idx delay (by omega) (by omega)]
    omega

theorem tap_fold_some (r : MultitapReverb) (taps : List (Nat × ℚ))
    (hvalid : ∀ tap ∈ taps, r.tapSampleIndex tap.1 < r.a_samples.length) :
    ∀ acc : ℚ, ∃ v : ℚ,
      taps.foldl (fun outSample tap =>
        match outSample, r.a_samples[r.tapSampleIndex tap.1]? with
        | some out, some s => some (out + s * tap.2)
        | _, _ => none) (some acc) = some v := by
  induction taps with
  | nil => intro acc; exact ⟨acc, rfl⟩
  | cons t rest ih =>
    intro acc
    have ht := hvalid t (List.mem_cons_self t rest)
    simp only [List.foldl_cons, List.getElem?_eq_getElem ht]
    exact ih (fun tap htap => hvalid tap (List.mem_cons_of_mem t htap)) _

theorem MultitapReverb.reverb_process_some (r : MultitapReverb) (D : Nat) (input : ℚ)
    (hlen : r.a_samples.length = D + 1) (hidx : r.a_sample_idx < D + 1)
    (hD : D + 1 < 2 ^ 64) (htaps : ∀ tap ∈ r.a_taps, tap.1 ≤ D) :
    ∃ r' out, r.process input = some (r', out) ∧ r'.a_taps = r.a_taps
      ∧ r'.a_samples.length = D + 1 ∧ r'.a_sample_idx < D + 1 := by
  have hvalid : ∀ tap ∈ r.a_taps, r.tapSampleIndex tap.1 < r.a_samples.length :=
    fun tap htap => tapSampleIndex_lt r D hlen hidx hD tap.1 (htaps tap htap)
  obtain ⟨v, hv⟩ := tap_fold_some r r.a_taps hvalid input
  have hne : r.a_samples.isEmpty = false := by
    cases hs : r.a_samples with
    | nil => rw [hs] at hlen; simp at hlen
    | cons a b => rfl
  have hw : r.a_sample_idx < r.a_samples.length := by omega
  unfold MultitapReverb.process
  simp only [hne, Bool.false_eq_true, if_false, if_pos hw]
  generalize hfold : List.foldl _ (some input) r.a_taps = o
  have ho : o = some v := by rw [← hfold]; exact hv
  subst ho
  refine ⟨_, _, rfl, rfl, ?_, ?_⟩
  · simp [hlen]
  · simp only [List.length_set, hlen]
    split_ifs <;> omega

theorem MultitapReverb.reverb_processAll_some (D : Nat) (hD : D + 1 < 2 ^ 64) (inputs : List ℚ) :
    ∀ r : MultitapReverb, r.a_samples.length = D + 1 → r.a_sample_idx < D + 1 →
      (∀ tap ∈ r.a_taps, tap.1 ≤ D) →
      ∃ r' outs, r.processAll inputs = some (r', outs) ∧ r'.a_taps = r.a_taps
        ∧ r'.a_samples.length = D + 1 ∧ r'.a_sample_idx < D + 1
        ∧ outs.length = inputs.length := by
  induction inputs with
  | nil => intro r hlen hidx _; exact ⟨r, [], rfl, rfl, hlen, hidx, rfl⟩
  | cons x rest ih =>
    intro r hlen hidx htaps
    obtain ⟨r1, out, hp, ht1, hl1, hi1⟩ := MultitapReverb.reverb_process_some r D x hlen hidx hD htaps
    obtain ⟨r2, outs, hp2, ht2, hl2, hi2, hlo⟩ := ih r1 hl1 hi1 (by rw [ht1]; exact htaps)
    refine ⟨r2, out :: outs, ?_, by rw [ht2, ht1], hl2, hi2, by simp [hlo]⟩
    rw [MultitapReverb.processAll, hp]
    simp only [hp2]

/-- C22: for every tap list whose largest delay is `≥ 1` (the delays being
`size_t` values whose largest leaves room for one more element), any number of
`process` calls on the freshly constructed reverb all return without reading or
writing outside the history buffer; afterwards the cursor is below the buffer
length and every tap's `tapSampleIndex` is a valid index of the buffer. -/
theorem multitap_indices_valid (taps : List (Nat × ℚ)) (inputs : List ℚ)
    (hlarge : ∃ tap ∈ taps, 1 ≤ tap.1) (hsize : ∀ tap ∈ taps, tap.1 + 1 < 2 ^ 64) :
    ∃ r outs, (MultitapReverb.ctor taps).processAll inputs = some (r, outs) ∧
      outs.length = inputs.length ∧
      r.a_taps = taps ∧
      r.a_sample_idx < r.a_samples.length ∧
      ∀ tap ∈ taps, r.tapSampleIndex tap.1 < r.a_samples.length := by
  obtain ⟨t0, ht0, h1⟩ := hlarge
  have hge := largest_fold_ge taps 0
  have hDpos : 1 ≤ taps.foldl (fun largestTimeOffset tap =>
      if tap.1 > largestTimeOffset then tap.1 else largestTimeOffset) 0 :=
    le_trans h1 (hge.2 t0 ht0)
  have hDle : taps.foldl (fun largestTimeOffset tap =>
      if tap.1 > largestTimeOffset then tap.1 else largestTimeOffset) 0 + 1 < 2 ^ 64 := by
    have := largest_fold_le taps (2 ^ 64 - 2) (fun tap htap => by
      have := hsize tap htap
      omega) 0 (by omega)
    omega
  have hctor : MultitapReverb.ctor taps = MultitapReverb.mk taps
      (List.replicate (taps.foldl (fun largestTimeOffset tap =>
        if tap.1 > largestTimeOffset then tap.1 else largestTimeOffset) 0 + 1) 0) 0 := by
    simp only [MultitapReverb.ctor]
    rw [if_neg (by omega)]
  obtain ⟨r, outs, hp, ht, hl, hi, hlo⟩ := MultitapReverb.reverb_processAll_some _ hDle inputs
    (MultitapReverb.ctor taps) (by rw [hctor]; simp) (by rw [hctor]; simp)
    (by rw [hctor]; exact hge.2)
  have htaps : r.a_taps = taps := by rw [ht, hctor]
  refine ⟨r, outs, hp, hlo, htaps, by omega, fun tap htap => ?_⟩
  exact tapSampleIndex_lt r _ hl hi hDle tap.1 (hge.2 tap htap)

/-- C22, witness: the taps (2, 1) and (1, 1/2) and seven inputs. -/
theorem multitap_indices_valid_witness :
    ∃ r outs, (MultitapReverb.ctor [(2, 1), (1, 1 / 2)]).processAll [1, 0, 0, 0, 0, 0, 0]
        = some (r, outs) ∧
      outs.length = ([1, 0, 0, 0, 0, 0, 0] : List ℚ).length ∧
      r.a_taps = [(2, 1), (1, 1 / 2)] ∧
      r.a_sample_idx < r.a_samples.length ∧
      ∀ tap ∈ [((2 : Nat), (1 : ℚ)), (1, 1 / 2)],
        r.tapSampleIndex tap.1 < r.a_samples.length :=
  multitap_indices_valid [(2, 1), (1, 1 / 2)] [1, 0, 0, 0, 0, 0, 0]
    ⟨(2, 1), by simp, by norm_num⟩
    (by
      intro tap htap
      simp only [List.mem_cons, List.mem_singleton, List.not_mem_nil, or_false] at htap
      rcases htap with rfl | rfl <;> norm_num)

/-! ## The arpeggiator: index safety -/

/-- C23: for every non-empty chord, every note duration `> 0` and every time
`now` (before the start time as well), the index `note_index` computed by
`Arpeggiator::update` is below the chord length, so `chord[note_index]` is an
element of the chord, and `note_index - 1`, read when `note_index > 0`, is below
the chord length too. -/
theorem note_index_in_bounds (arp : Arpeggiator) (now : ℚ) (hne : arp.a_chord ≠ [])
    (_hd : 0 < arp.a_note_duration) :
    arp.note_index now < arp.a_chord.length ∧
      (∃ id, arp.a_chord[arp.note_index now]? = some id) ∧
      (0 < arp.note_index now → arp.note_index now - 1 < arp.a_chord.length) := by
  have h := note_index_lt arp now hne
  refine ⟨h, ⟨arp.a_chord[arp.note_index now], ?_⟩, fun _ => by omega⟩
  exact List.getElem?_eq_getElem h

/-- C23, witness: chord `[1, 5, 8]`, note duration 1/2, start time 1 and the
earlier time 0: the quotient is -2, converted to `2 ^ 64 - 2`, and the index is
2. -/
theorem note_index_in_bounds_witness :
    (Arpeggiator.mk [1, 5, 8] (1 / 2) 1).note_index 0 = 2 ∧
      (Arpeggiator.mk [1, 5, 8] (1 / 2) 1).note_index 0
        < (Arpeggiator.mk [1, 5, 8] (1 / 2) 1).a_chord.length :=
  ⟨by decide!,
    (note_index_in_bounds (Arpeggiator.mk [1, 5, 8] (1 / 2) 1) 0 (by decide)
      (by norm_num)).1⟩

/-! ## The block-filling loop: write indices -/

theorem channelLoop_writes {σ : Type} (user : σ → Nat → ℚ → ℚ × σ)
    (a_channels nCurrentBlock n : Nat) (s : BlockRun σ) :
    (channelLoop user a_channels nCurrentBlock n s).writes.map Prod.fst
      = s.writes.map Prod.fst
        ++ (List.range a_channels).map (fun c => (nCurrentBlock + n + c) % 2 ^ 32) := by
  unfold channelLoop
  induction a_channels with
  | zero => simp
  | succ k ih =>
    rw [List.range_succ, List.foldl_append]
    simp only [List.foldl_cons, List.foldl_nil, List.map_append, List.map_cons, List.map_nil]
    rw [ih, List.append_assoc]

/-- Without wrap-around, one frame stores at consecutive indices. -/
theorem frame_indices (a_channels nCurrentBlock n : Nat)
    (h : nCurrentBlock + n + a_channels ≤ 2 ^ 32) :
    (List.range a_channels).map (fun c => (nCurrentBlock + n + c) % 2 ^ 32)
      = List.range' (nCurrentBlock + n) a_channels := by
  rw [List.range'_eq_map_range]
  apply List.map_congr_left
  intro c hc
  have := List.mem_range.mp hc
  exact Nat.mod_eq_of_lt (by omega)

/-- The loop started at counter `n` with `m` frames left: the stores go to the
consecutive indices from `nCurrentBlock + n` on, in increasing order. -/
theorem fillLoop_writes {σ : Type} (user : σ → Nat → ℚ → ℚ × σ)
    (a_channels a_block_samples nCurrentBlock : Nat) (time_step : ℚ)
    (hc : 1 ≤ a_channels) (hb : nCurrentBlock + a_block_samples < 2 ^ 32) (m : Nat) :
    ∀ (fuel n : Nat) (s : BlockRun σ), n + m * a_channels = a_block_samples → m ≤ fuel →
      ∃ s', fillLoop user a_channels a_block_samples nCurrentBlock time_step fuel n s = some s'
        ∧ s'.writes.map Prod.fst
            = s.writes.map Prod.fst ++ List.range' (nCurrentBlock + n) (m * a_channels) := by
  induction m with
  | zero =>
    intro fuel n s hn _
    have hnb : ¬ n < a_block_samples := by omega
    refine ⟨s, ?_, by simp⟩
    cases fuel <;> simp [fillLoop, hnb]
  | succ m ih =>
    intro fuel n s hn hfuel
    obtain ⟨fuel, rfl⟩ : ∃ k, fuel = k + 1 := ⟨fuel - 1, by omega⟩
    have hmul : (m + 1) * a_channels = m * a_channels + a_channels := by ring
    rw [hmul] at hn
    have hnb : n < a_block_samples := by omega
    have hmod : (n + a_channels) % 2 ^ 32 = n + a_channels :=
      Nat.mod_eq_of_lt (by omega)
    have hw := channelLoop_writes user a_channels nCurrentBlock n s
    rw [frame_indices a_channels nCurrentBlock n (by omega)] at hw
    obtain ⟨s', hrun, hwrites⟩ := ih fuel (n + a_channels)
      { channelLoop user a_channels nCurrentBlock n s with
        a_global_time := fl ((channelLoop user a_channels nCurrentBlock n s).a_global_time
          + time_step)
        clock := (channelLoop user a_channels nCurrentBlock n s).clock
          ++ [fl ((channelLoop user a_channels nCurrentBlock n s).a_global_time + time_step)] }
      (by omega) (by omega)
    refine ⟨s', ?_, ?_⟩
    · rw [fillLoop, if_pos hnb]
      simp only [hmod]
      exact hrun
    · rw [hwrites]
      simp only [hw, List.append_assoc]
      congr 1
      rw [← Nat.add_assoc, List.range'_append_1, hmul]

/-- The method `create` succeeds exactly when the block memory holds all the
blocks: `blockCount * blockSamples` fits 32 bits. -/
theorem create_isSome_iff (SAMPLE_RATE channels blocks block_samples : Nat) :
    (SoundGenerator.create SAMPLE_RATE channels blocks block_samples).isSome = true
      ↔ blocks * block_samples < 2 ^ 32 := by
  unfold SoundGenerator.create
  split_ifs with h
  · simp only [Option.isSome_some, true_iff]
    exact h
  · simp only [Option.isSome_none, Bool.false_eq_true, false_iff]
    exact h

/-- C24: in the block-filling loop of a generator whose block memory `create`
has set up (`create` succeeds with its channel count, block count and block
size), for a current block index `b < blockCount` and a channel count `≥ 1`
that divides `blockSamples`, the loop returns once it is given
`blockSamples / channels` iterations; its stores go to the indices
`b * blockSamples`, `b * blockSamples + 1`, … in increasing order, each of them
lies inside the current block `[b * blockSamples, (b + 1) * blockSamples)`,
every position of that block is written exactly once, and the advanced block
index is below `blockCount`. -/
theorem block_writes_in_block {σ : Type} (g : SoundGenerator)
    (user : σ → Nat → ℚ → ℚ × σ) (user_state : σ) (fuel : Nat)
    (hb : g.a_block_current < g.a_block_count) (hc : 1 ≤ g.a_channels)
    (hdvd : g.a_channels ∣ g.a_block_samples)
    (hcreate : (SoundGenerator.create g.a_sample_rate g.a_channels g.a_block_count
      g.a_block_samples).isSome = true)
    (hfuel : g.a_block_samples / g.a_channels ≤ fuel) :
    ∃ s', g.fillBlock user user_state fuel = some s' ∧
      s'.writes.map Prod.fst
        = List.range' (g.a_block_current * g.a_block_samples) g.a_block_samples ∧
      (∀ w ∈ s'.writes, g.a_block_current * g.a_block_samples ≤ w.1
        ∧ w.1 < (g.a_block_current + 1) * g.a_block_samples) ∧
      (∀ p, g.a_block_current * g.a_block_samples ≤ p →
        p < (g.a_block_current + 1) * g.a_block_samples →
        (s'.writes.map Prod.fst).count p = 1) ∧
      ∃ b', g.nextBlock = some b' ∧ b' < g.a_block_count := by
  have hfit : g.a_block_count * g.a_block_samples < 2 ^ 32 :=
    (create_isSome_iff _ _ _ _).mp hcreate
  obtain ⟨k, hk⟩ := hdvd
  have hdiv : g.a_block_samples / g.a_channels = k := by
    rw [hk]; exact Nat.mul_div_cancel_left k (by omega)
  rw [hdiv] at hfuel
  have hsucc : (g.a_block_current + 1) * g.a_block_samples
      = g.a_block_current * g.a_block_samples + g.a_block_samples := by ring
  have hle : (g.a_block_current + 1) * g.a_block_samples
      ≤ g.a_block_count * g.a_block_samples := Nat.mul_le_mul_right _ hb
  have hmod : (g.a_block_current * g.a_block_samples) % 2 ^ 32
      = g.a_block_current * g.a_block_samples := Nat.mod_eq_of_lt (by omega)
  obtain ⟨s', hrun, hwrites⟩ := fillLoop_writes user g.a_channels g.a_block_samples
    ((g.a_block_current * g.a_block_samples) % 2 ^ 32) (fl (1 / (g.a_sample_rate : ℚ))) hc
    (by rw [hmod]; omega) k fuel 0
    { a_global_time := g.a_global_time, user_state := user_state, writes := [], clock := [] }
    (by rw [hk]; ring) hfuel
  have hidx : s'.writes.map Prod.fst
      = List.range' (g.a_block_current * g.a_block_samples) g.a_block_samples := by
    rw [hwrites, hmod]
    simp only [List.map_nil, List.nil_append, Nat.add_zero]
    rw [Nat.mul_comm k g.a_channels, ← hk]
  have hmem : ∀ p, p ∈ s'.writes.map Prod.fst
      ↔ g.a_block_current * g.a_block_samples ≤ p
        ∧ p < (g.a_block_current + 1) * g.a_block_samples := by
    intro p
    rw [hidx, List.mem_range'_1, hsucc]
  refine ⟨s', hrun, hidx, ?_, ?_, ?_⟩
  · intro w hw
    exact (hmem w.1).mp (List.mem_map_of_mem Prod.fst hw)
  · intro p h0 h1
    apply List.count_eq_one_of_mem
    · rw [hidx]; exact List.nodup_range' _ _
    · exact (hmem p).mpr ⟨h0, h1⟩
  · have hcount : g.a_block_count ≠ 0 := by omega
    refine ⟨((g.a_block_current + 1) % 2 ^ 32) % g.a_block_count, ?_,
      Nat.mod_lt _ (by omega)⟩
    unfold SoundGenerator.nextBlock
    rw [if_neg hcount]

/-- C24, witness: the generator of `main` (2 channels, 8 blocks of 512 samples)
filling block 3: `create` succeeds with these sizes, the stores go to the
indices 1536, …, 2047 and the next block is 4. -/
theorem block_writes_in_block_witness :
    (SoundGenerator.create 44100 2 8 512).isSome = true ∧
      ∃ s', (SoundGenerator.mk 44100 2 8 512 3 0).fillBlock
          (fun (s : Unit) (_ : Nat) (_ : ℚ) => ((0 : ℚ), s)) () 256 = some s' ∧
        s'.writes.map Prod.fst = List.range' (3 * 512) 512 ∧
        (SoundGenerator.mk 44100 2 8 512 3 0).nextBlock = some 4 :=
  have h := block_writes_in_block (SoundGenerator.mk 44100 2 8 512 3 0)
    (fun (s : Unit) (_ : Nat) (_ : ℚ) => ((0 : ℚ), s)) () 256
    (by decide) (by decide) (by decide) (by decide) (by decide)
  ⟨by decide, h.elim (fun s' hs => ⟨s', hs.1, hs.2.1, by decide⟩)⟩

/-! ## The flanger: index safety -/

theorem flanger_first_read_index (sin : ℚ → ℚ) (hsin : sin 0 = 0) :
    Flanger.delay_read_index sin 44100
        (Flanger.mk 5 (List.replicate 220 0) 0 0 (fl (1 / 10 ^ 16)) (1 / 4) 0) = 220 := by
  have h : Flanger.delay_read_index sin 44100
        (Flanger.mk 5 (List.replicate 220 0) 0 0 (fl (1 / 10 ^ 16)) (1 / 4) 0)
      = Flanger.delay_read_index (fun _ => 0) 44100
        (Flanger.mk 5 (List.replicate 220 0) 0 0 (fl (1 / 10 ^ 16)) (1 / 4) 0) := by
    simp only [Flanger.delay_read_index, mul_zero, fl_zero, hsin]
  rw [h]
  decide!

/-- A call of `process` whose first read index is outside the buffer leaves
defined behaviour. -/
theorem flanger_process_of_bad_index (sin : ℚ → ℚ) (SAMPLE_RATE : ℚ) (f : Flanger)
    (input : ℚ) (n : Nat)
    (hc : castSizeT ((⌊Flanger.delay_read_index sin SAMPLE_RATE f⌋ : ℤ) : ℚ) = some n)
    (hn : f.a_delay_buffer[n]? = none) :
    Flanger.process sin SAMPLE_RATE f input = none := by
  unfold Flanger.process
  simp only [hc, hn]
  split_ifs <;> rfl

/-- C25, evaluation at the failing input.  `Flanger(5.0, 1e-16, 0.25)` with
`SAMPLE_RATE = 44100`: the constructor builds a buffer of 220 samples, and the
depth, the double nearest to `10⁻¹⁶`, lies in `[0, 1/2]`.  At the first call of
`process` the phase is 0 and `std::sin` returns 0: the delay is about
`1.1 · 10⁻¹⁴` samples, `a_curr_write_idx - delay_samples` is negative, and the
sum of that value and the buffer size 220 rounds to 220.0.  So `read_index1`
is 220, the size of the buffer, and `a_delay_buffer[read_index1]` is read
outside the buffer. -/
theorem flanger_reads_past_buffer (sin : ℚ → ℚ) (input : ℚ) (hsin : sin 0 = 0) :
    Flanger.ctor 44100 5 (fl (1 / 10 ^ 16)) (1 / 4)
        = some (Flanger.mk 5 (List.replicate 220 0) 0 0 (fl (1 / 10 ^ 16)) (1 / 4) 0) ∧
      (0 : ℚ) ≤ fl (1 / 10 ^ 16) ∧ fl (1 / 10 ^ 16) ≤ 1 / 2 ∧
      Flanger.delay_read_index sin 44100
        (Flanger.mk 5 (List.replicate 220 0) 0 0 (fl (1 / 10 ^ 16)) (1 / 4) 0) = 220 ∧
      castSizeT ((⌊(220 : ℚ)⌋ : ℤ) : ℚ) = some 220 ∧
      (List.replicate 220 (0 : ℚ))[220]? = none ∧
      Flanger.process sin 44100
        (Flanger.mk 5 (List.replicate 220 0) 0 0 (fl (1 / 10 ^ 16)) (1 / 4) 0) input = none := by
  have hidx := flanger_first_read_index sin hsin
  have hcast : castSizeT ((⌊(220 : ℚ)⌋ : ℤ) : ℚ) = some 220 := by decide!
  have hget : (List.replicate 220 (0 : ℚ))[220]? = none := by decide!
  refine ⟨by decide!, by decide!, by decide!, hidx, hcast, hget, ?_⟩
  exact flanger_process_of_bad_index sin 44100 _ input 220 (by rw [hidx]; exact hcast) hget

/-- C25, witness: the evaluation with the identity in the place of `std::sin`
and the input sample 1. -/
theorem flanger_reads_past_buffer_witness :
    (fun x : ℚ => x) 0 = 0 ∧
      Flanger.process (fun x => x) 44100
        (Flanger.mk 5 (List.replicate 220 0) 0 0 (fl (1 / 10 ^ 16)) (1 / 4) 0) 1 = none :=
  ⟨rfl, (flanger_reads_past_buffer (fun x => x) 1 rfl).2.2.2.2.2.2⟩

/-! ## Finished notes -/

/-- C26: a finished note is silent.  For each catalog instrument, every time
and every note, when `sound()` reports the note finished the sample it returns
is exactly 0, so adding it leaves the mixed sum of `generateSound` as it
was. -/
theorem finished_note_is_silent (inst : Instrument) (wave now : ℚ) (note : Note)
    (hfin : (inst.sound wave now note false).2 = true) :
    (inst.sound wave now note false).1 = 0 ∧
      ∀ mixed_output : ℚ, mixed_output + (inst.sound wave now note false).1 = mixed_output := by
  have hle := (sound_finished_iff inst wave now note).mp hfin
  have hge := amplitude_nonneg inst.a_envelope now note.a_on note.a_off
  have h0 : inst.a_envelope.amplitude now note.a_on note.a_off = 0 := le_antisymm hle hge
  have h : (inst.sound wave now note false).1 = 0 := by
    simp only [Instrument.sound, h0]
    ring
  exact ⟨h, fun m => by rw [h, add_zero]⟩

/-- C26, witness: a Trumpet note switched on at 0 and released at 1, rendered at
time 2 with wave value 1. -/
theorem finished_note_is_silent_witness :
    (Instrument.Trumpet.sound 1 2 (Note.mk 4 0 1 true) false).2 = true ∧
      (Instrument.Trumpet.sound 1 2 (Note.mk 4 0 1 true) false).1 = 0 :=
  have hfin : (Instrument.Trumpet.sound 1 2 (Note.mk 4 0 1 true) false).2 = true := by
    decide!
  ⟨hfin, (finished_note_is_silent .Trumpet 1 2 (Note.mk 4 0 1 true) hfin).1⟩

/-! ## The key polling step: unique ids -/

/-- The key polling step when no entry has id `k`. -/
theorem keyStep_of_absent (k : Int) (key_down : Bool) (curr_time : ℚ) (notes : List Note)
    (h : ∀ n ∈ notes, n.a_id ≠ k) :
    keyStep k key_down curr_time notes
      = if key_down then notes ++ [Note.mk k curr_time 0 true] else notes := by
  have hany : ¬ (notes.any (fun item => item.a_id == k) = true) := by
    simp only [List.any_eq_true, beq_iff_eq, not_exists, not_and]
    exact fun n hn => h n hn
  unfold keyStep
  rw [if_neg hany]

/-- The lookup of the key polling step: either no entry has id `k`, or the
registry splits around the first entry with id `k`. -/
theorem registry_split (k : Int) (notes : List Note) :
    (∀ n ∈ notes, n.a_id ≠ k) ∨
      ∃ l1 x l2, notes = l1 ++ x :: l2 ∧ x.a_id = k ∧ ∀ n ∈ l1, n.a_id ≠ k := by
  rcases releaseNote_spec k 0 notes with ⟨h, -⟩ | ⟨l1, x, l2, hl, hx, hl1, -⟩
  · exact Or.inl h
  · exact Or.inr ⟨l1, x, l2, hl, hx, hl1⟩

/-- C27, as amended: the key polling step keeps ids unique.  If no two entries
of the registry share an id, then after handling any key `k`, pressed or not,
at any time, still no two entries share an id.  When no entry has id `k`, a new
entry for `k` is appended if the key is down and nothing happens otherwise.
When an entry has id `k`, no entry is added or removed, every other entry is
left as it was, and the entry keeps its id: it is unchanged, or its `onTime` is
set to the current time and its flag `a_active` is set (re-strike), or its
`offTime` is set to the current time (release). -/
theorem keyStep_keeps_ids_unique (k : Int) (key_down : Bool) (curr_time : ℚ)
    (notes : List Note) (huniq : UniqueIds notes) :
    UniqueIds (keyStep k key_down curr_time notes) ∧
      ((∀ n ∈ notes, n.a_id ≠ k) →
        keyStep k key_down curr_time notes
          = if key_down then notes ++ [Note.mk k curr_time 0 true] else notes) ∧
      ((∃ n ∈ notes, n.a_id = k) →
        ∃ l1 x x' l2, notes = l1 ++ x :: l2 ∧ x.a_id = k ∧
          keyStep k key_down curr_time notes = l1 ++ x' :: l2 ∧
          (x' = x ∨ x' = { x with a_on := curr_time, a_active := true }
            ∨ x' = { x with a_off := curr_time })) := by
  rcases registry_split k notes with habs | ⟨l1, x, l2, hl, hx, hl1⟩
  · have hstep := keyStep_of_absent k key_down curr_time notes habs
    refine ⟨?_, fun _ => hstep, ?_⟩
    · rw [hstep]
      cases key_down
      · exact huniq
      · unfold UniqueIds at huniq ⊢
        simp only [if_true, List.map_append, List.map_cons, List.map_nil]
        rw [List.nodup_append]
        refine ⟨huniq, List.nodup_singleton k, ?_⟩
        intro a ha hk
        rw [List.mem_singleton] at hk
        obtain ⟨n, hn, rfl⟩ := List.mem_map.mp ha
        exact habs n hn hk
    · rintro ⟨n, hn, hk⟩
      exact absurd hk (habs n hn)
  · have hstep := keyStep_of_split k key_down curr_time l1 l2 x hx hl1
    have hcases : ∀ x' : Note,
        x' = (if key_down then
            (if x.a_off > x.a_on then { x with a_on := curr_time, a_active := true } else x)
          else (if x.a_off < x.a_on then { x with a_off := curr_time } else x)) →
        x'.a_id = x.a_id ∧ (x' = x ∨ x' = { x with a_on := curr_time, a_active := true }
          ∨ x' = { x with a_off := curr_time }) := by
      intro x' hx'
      subst hx'
      cases key_down <;> simp only [if_true, Bool.false_eq_true, if_false] <;>
        split_ifs <;> simp
    obtain ⟨hid, hshape⟩ := hcases _ rfl
    rw [hl] at huniq ⊢
    rw [hstep]
    refine ⟨?_, fun habs => absurd hx (habs x (by simp)), fun _ =>
      ⟨l1, x, _, l2, rfl, hx, rfl, hshape⟩⟩
    unfold UniqueIds at huniq ⊢
    simp only [List.map_append, List.map_cons] at huniq ⊢
    rw [hid]
    exact huniq

/-- C27, witness: a registry with ids 7 and 3; key 3 is released at time 2, and
key 5, absent, is pressed at time 2. -/
theorem keyStep_keeps_ids_unique_witness :
    UniqueIds [Note.mk 7 0 0 true, Note.mk 3 1 0 true] ∧
      UniqueIds (keyStep 3 false 2 [Note.mk 7 0 0 true, Note.mk 3 1 0 true]) ∧
      keyStep 5 true 2 [Note.mk 7 0 0 true, Note.mk 3 1 0 true]
        = [Note.mk 7 0 0 true, Note.mk 3 1 0 true, Note.mk 5 2 0 true] :=
  have hu : UniqueIds [Note.mk 7 0 0 true, Note.mk 3 1 0 true] := by decide
  ⟨hu, (keyStep_keeps_ids_unique 3 false 2 _ hu).1, by decide!⟩

/-- C27, counterexample: the registry holds one entry with id 1, released at 2
after a press at 1, whose flag `a_active` is cleared (as a release by
`Arpeggiator::update` leaves it).  Key 1 is down at time 3: the step changes
not only the timestamp `onTime` of the entry but also its flag `a_active`. -/
theorem keyStep_keeps_ids_unique_counterexample :
    UniqueIds [Note.mk 1 1 2 false] ∧
      keyStep 1 true 3 [Note.mk 1 1 2 false] = [Note.mk 1 3 2 true] ∧
      (Note.mk 1 3 2 true).a_active ≠ (Note.mk 1 1 2 false).a_active := by
  refine ⟨by decide, by decide!, by decide⟩

/-! ## The low-pass filter -/

/-- In double arithmetic the coefficient of the filter lies in `[0, 1]`. -/
theorem lowpass_alpha_range (cutoff_freq time_step : ℚ) (hc : 0 < cutoff_freq)
    (ht : 0 < time_step) (htd : fl time_step = time_step) :
    0 ≤ (LowPassFilter.ctor cutoff_freq time_step).a_alpha
      ∧ (LowPassFilter.ctor cutoff_freq time_step).a_alpha ≤ 1 := by
  have hsum : time_step ≤ fl (cutoff_freq + time_step) := le_fl_of_le htd (by linarith)
  have hpos : 0 < fl (cutoff_freq + time_step) := lt_of_lt_of_le ht hsum
  constructor
  · exact fl_nonneg (div_nonneg ht.le hpos.le)
  · exact fl_le_of_le fl_one ((div_le_one hpos).mpr hsum)

/-- One call of `filter` with a coefficient in `[0, 1]`: the magnitude of the
output exceeds the bound on the input and the stored output by the roundings
only. -/
theorem lowpass_step_bounded (f : LowPassFilter) (x M : ℚ)
    (ha0 : 0 ≤ f.a_alpha) (ha1 : f.a_alpha ≤ 1) (hM : 0 ≤ M)
    (hprev : |f.a_prev_y| ≤ M) (hx : |x| ≤ M) :
    |(f.filter x).2| ≤ (1 + 2 ^ (-51 : ℤ)) * M + 2 ^ (-1072 : ℤ)
      ∧ (f.filter x).1.a_prev_y = (f.filter x).2
      ∧ (f.filter x).1.a_alpha = f.a_alpha := by
  refine ⟨?_, rfl, rfl⟩
  show |fl (fl (f.a_alpha * x) + fl (fl (1 - f.a_alpha) * f.a_prev_y))| ≤ _
  set α := f.a_alpha
  set p := f.a_prev_y
  set β := fl (1 - α) with hβ
  have hβ0 : 0 ≤ β := fl_nonneg (by linarith)
  have hβ1 : β ≤ (1 + 2 ^ (-53 : ℤ)) * (1 - α) + 2 ^ (-1075 : ℤ) := fl_le_mul (by linarith)
  have hA : |fl (α * x)| ≤ (1 + 2 ^ (-53 : ℤ)) * (α * M) + 2 ^ (-1075 : ℤ) := by
    have h1 := abs_fl_le (α * x)
    have h2 : |α * x| ≤ α * M := by
      rw [abs_mul, abs_of_nonneg ha0]
      exact mul_le_mul_of_nonneg_left hx ha0
    have h3 : (1 + (2 : ℚ) ^ (-53 : ℤ)) * |α * x| ≤ (1 + 2 ^ (-53 : ℤ)) * (α * M) :=
      mul_le_mul_of_nonneg_left h2 (by norm_num)
    linarith
  have hB : |fl (β * p)| ≤ (1 + 2 ^ (-53 : ℤ)) * (β * M) + 2 ^ (-1075 : ℤ) := by
    have h1 := abs_fl_le (β * p)
    have h2 : |β * p| ≤ β * M := by
      rw [abs_mul, abs_of_nonneg hβ0]
      exact mul_le_mul_of_nonneg_left hprev hβ0
    have h3 : (1 + (2 : ℚ) ^ (-53 : ℤ)) * |β * p| ≤ (1 + 2 ^ (-53 : ℤ)) * (β * M) :=
      mul_le_mul_of_nonneg_left h2 (by norm_num)
    linarith
  have hS : |fl (α * x) + fl (β * p)|
      ≤ (1 + 2 ^ (-53 : ℤ)) * (α * M) + (1 + 2 ^ (-53 : ℤ)) * (β * M)
        + 2 * 2 ^ (-1075 : ℤ) := by
    have := abs_add (fl (α * x)) (fl (β * p))
    linarith
  have hY := abs_fl_le (fl (α * x) + fl (β * p))
  have hY2 : (1 + (2 : ℚ) ^ (-53 : ℤ)) * |fl (α * x) + fl (β * p)|
      ≤ (1 + 2 ^ (-53 : ℤ)) * ((1 + 2 ^ (-53 : ℤ)) * (α * M) + (1 + 2 ^ (-53 : ℤ)) * (β * M)
        + 2 * 2 ^ (-1075 : ℤ)) :=
    mul_le_mul_of_nonneg_left hS (by norm_num)
  have hβM : β * M ≤ ((1 + 2 ^ (-53 : ℤ)) * (1 - α) + 2 ^ (-1075 : ℤ)) * M :=
    mul_le_mul_of_nonneg_right hβ1 hM
  have hαM : 0 ≤ α * M := mul_nonneg ha0 hM
  have h1αM : 0 ≤ (1 - α) * M := mul_nonneg (by linarith) hM
  -- numeric facts on the two constants
  have n1 : (1 + (2 : ℚ) ^ (-53 : ℤ)) ^ 2 ≤ 1 + 2 ^ (-51 : ℤ) := by norm_num
  have n2 : (1 + (2 : ℚ) ^ (-53 : ℤ)) ^ 3 + (1 + 2 ^ (-53 : ℤ)) ^ 2 * 2 ^ (-1075 : ℤ)
      ≤ 1 + 2 ^ (-51 : ℤ) := by norm_num
  have n3 : (1 + (2 : ℚ) ^ (-53 : ℤ)) * (2 * 2 ^ (-1075 : ℤ)) + 2 ^ (-1075 : ℤ)
      ≤ 2 ^ (-1072 : ℤ) := by norm_num
  have e1 : (1 + (2 : ℚ) ^ (-53 : ℤ)) * ((1 + 2 ^ (-53 : ℤ)) * (α * M)
        + (1 + 2 ^ (-53 : ℤ)) * (((1 + 2 ^ (-53 : ℤ)) * (1 - α) + 2 ^ (-1075 : ℤ)) * M)
        + 2 * 2 ^ (-1075 : ℤ)) + 2 ^ (-1075 : ℤ)
      = (1 + 2 ^ (-53 : ℤ)) ^ 2 * (α * M)
        + ((1 + 2 ^ (-53 : ℤ)) ^ 3 + (1 + 2 ^ (-53 : ℤ)) ^ 2 * 2 ^ (-1075 : ℤ)) * ((1 - α) * M)
        + (1 + 2 ^ (-53 : ℤ)) ^ 2 * 2 ^ (-1075 : ℤ) * (α * M)
        + ((1 + 2 ^ (-53 : ℤ)) * (2 * 2 ^ (-1075 : ℤ)) + 2 ^ (-1075 : ℤ)) := by ring
  have t1 : (1 + (2 : ℚ) ^ (-53 : ℤ)) ^ 2 * (α * M)
      + (1 + 2 ^ (-53 : ℤ)) ^ 2 * 2 ^ (-1075 : ℤ) * (α * M)
      ≤ (1 + 2 ^ (-51 : ℤ)) * (α * M) := by
    have n4 : (1 + (2 : ℚ) ^ (-53 : ℤ)) ^ 2 + (1 + 2 ^ (-53 : ℤ)) ^ 2 * 2 ^ (-1075 : ℤ)
        ≤ 1 + 2 ^ (-51 : ℤ) := by norm_num
    have := mul_le_mul_of_nonneg_right n4 hαM
    linarith
  have t2 : ((1 + (2 : ℚ) ^ (-53 : ℤ)) ^ 3 + (1 + 2 ^ (-53 : ℤ)) ^ 2 * 2 ^ (-1075 : ℤ))
      * ((1 - α) * M) ≤ (1 + 2 ^ (-51 : ℤ)) * ((1 - α) * M) :=
    mul_le_mul_of_nonneg_right n2 h1αM
  have t3 : (1 + (2 : ℚ) ^ (-53 : ℤ)) * ((1 + 2 ^ (-53 : ℤ)) * (β * M))
      ≤ (1 + 2 ^ (-53 : ℤ)) * ((1 + 2 ^ (-53 : ℤ))
        * (((1 + 2 ^ (-53 : ℤ)) * (1 - α) + 2 ^ (-1075 : ℤ)) * M)) :=
    mul_le_mul_of_nonneg_left (mul_le_mul_of_nonneg_left hβM (by norm_num)) (by norm_num)
  have e2 : (1 + (2 : ℚ) ^ (-51 : ℤ)) * (α * M) + (1 + 2 ^ (-51 : ℤ)) * ((1 - α) * M)
      = (1 + 2 ^ (-51 : ℤ)) * M := by ring
  linarith

/-- Successive calls keep the coefficient and every output within the bound
that `n` calls accumulate. -/
theorem lowpass_all_bounded (M : ℚ) (hM : 0 ≤ M) (inputs : List ℚ) :
    ∀ (f : LowPassFilter) (K : ℚ), 0 ≤ f.a_alpha → f.a_alpha ≤ 1 → M ≤ K →
      |f.a_prev_y| ≤ K → (∀ x ∈ inputs, |x| ≤ M) →
      ∀ y ∈ (f.filterAll inputs).2,
        |y| ≤ (1 + 2 ^ (-51 : ℤ)) ^ inputs.length * (K + inputs.length * 2 ^ (-1072 : ℤ)) := by
  have hc1 : (1 : ℚ) ≤ 1 + 2 ^ (-51 : ℤ) := by norm_num
  have hd0 : (0 : ℚ) ≤ 2 ^ (-1072 : ℤ) := (two_zpow_pos _).le
  induction inputs with
  | nil =>
    intro f K _ _ _ _ _ y hy
    simp [LowPassFilter.filterAll] at hy
  | cons x rest ih =>
    intro f K ha0 ha1 hMK hprev hin y hy
    have hK : 0 ≤ K := le_trans hM hMK
    have hx : |x| ≤ K := le_trans (hin x (List.mem_cons_self _ _)) hMK
    obtain ⟨hstep, hst, hal⟩ := lowpass_step_bounded f x K ha0 ha1 hK hprev hx
    set K' := (1 + 2 ^ (-51 : ℤ)) * K + 2 ^ (-1072 : ℤ) with hK'
    have hKK' : K ≤ K' := by
      have : 0 ≤ (2 : ℚ) ^ (-51 : ℤ) * K := mul_nonneg (two_zpow_pos _).le hK
      rw [hK']; linarith
    have hpow1 : (1 : ℚ) ≤ (1 + 2 ^ (-51 : ℤ)) ^ rest.length := one_le_pow₀ hc1
    have hfinal : (1 + 2 ^ (-51 : ℤ)) ^ rest.length * (K' + rest.length * 2 ^ (-1072 : ℤ))
        ≤ (1 + 2 ^ (-51 : ℤ)) ^ (x :: rest).length
          * (K + ((x :: rest).length : ℚ) * 2 ^ (-1072 : ℤ)) := by
      rw [List.length_cons, pow_succ]
      push_cast
      have hr : (0 : ℚ) ≤ rest.length := Nat.cast_nonneg _
      have h1 : K' + (rest.length : ℚ) * 2 ^ (-1072 : ℤ)
          ≤ (1 + 2 ^ (-51 : ℤ)) * (K + ((rest.length : ℚ) + 1) * 2 ^ (-1072 : ℤ)) := by
        rw [hK']
        have : 0 ≤ (2 : ℚ) ^ (-51 : ℤ) * (((rest.length : ℚ) + 1) * 2 ^ (-1072 : ℤ)) := by
          positivity
        nlinarith
      calc (1 + 2 ^ (-51 : ℤ)) ^ rest.length * (K' + rest.length * 2 ^ (-1072 : ℤ))
          ≤ (1 + 2 ^ (-51 : ℤ)) ^ rest.length
            * ((1 + 2 ^ (-51 : ℤ)) * (K + ((rest.length : ℚ) + 1) * 2 ^ (-1072 : ℤ))) :=
            mul_le_mul_of_nonneg_left h1 (by positivity)
        _ = _ := by ring
    simp only [LowPassFilter.filterAll, List.mem_cons] at hy
    rcases hy with rfl | hy
    · have h0 : (1 + 2 ^ (-51 : ℤ)) * K + 2 ^ (-1072 : ℤ)
          ≤ (1 + 2 ^ (-51 : ℤ)) ^ rest.length * (K' + rest.length * 2 ^ (-1072 : ℤ)) := by
        have hr : (0 : ℚ) ≤ (rest.length : ℚ) * 2 ^ (-1072 : ℤ) := by positivity
        have hK'0 : 0 ≤ K' + (rest.length : ℚ) * 2 ^ (-1072 : ℤ) := by linarith
        calc (1 + 2 ^ (-51 : ℤ)) * K + 2 ^ (-1072 : ℤ) = K' := rfl
          _ ≤ K' + (rest.length : ℚ) * 2 ^ (-1072 : ℤ) := by linarith
          _ = 1 * (K' + (rest.length : ℚ) * 2 ^ (-1072 : ℤ)) := (one_mul _).symm
          _ ≤ _ := mul_le_mul_of_nonneg_right hpow1 hK'0
      exact le_trans hstep (le_trans h0 hfinal)
    · have := ih (f.filter x).1 K' (by rw [hal]; exact ha0) (by rw [hal]; exact ha1)
        (le_trans hMK hKK') (by rw [hst]; exact hstep)
        (fun z hz => hin z (List.mem_cons_of_mem _ hz)) y hy
      exact le_trans this hfinal

/-- C28, as amended: in double arithmetic, for a cutoff `> 0` and a time step
`> 0` (a double) the coefficient `alpha` lies in `[0, 1]`, and for any bound
`M ≥ 0`, if the stored previous output and the input have magnitude `≤ M`, the
output of `LowPassFilter::filter` has magnitude at most
`(1 + 2⁻⁵¹) * M + 2⁻¹⁰⁷²`; hence, starting from the zero state, every output of
a sequence of `n` inputs bounded by `M` has magnitude at most
`(1 + 2⁻⁵¹)ⁿ * (M + n * 2⁻¹⁰⁷²)`. -/
theorem lowpass_bounded (cutoff_freq time_step M : ℚ) (hc : 0 < cutoff_freq)
    (ht : 0 < time_step) (htd : fl time_step = time_step) (hM : 0 ≤ M) :
    (0 ≤ (LowPassFilter.ctor cutoff_freq time_step).a_alpha
        ∧ (LowPassFilter.ctor cutoff_freq time_step).a_alpha ≤ 1) ∧
      (∀ prev_y x, |prev_y| ≤ M → |x| ≤ M →
        |((LowPassFilter.mk (LowPassFilter.ctor cutoff_freq time_step).a_alpha prev_y).filter
            x).2| ≤ (1 + 2 ^ (-51 : ℤ)) * M + 2 ^ (-1072 : ℤ)) ∧
      (∀ inputs : List ℚ, (∀ x ∈ inputs, |x| ≤ M) →
        ∀ y ∈ ((LowPassFilter.ctor cutoff_freq time_step).filterAll inputs).2,
          |y| ≤ (1 + 2 ^ (-51 : ℤ)) ^ inputs.length
            * (M + inputs.length * 2 ^ (-1072 : ℤ))) := by
  obtain ⟨ha0, ha1⟩ := lowpass_alpha_range cutoff_freq time_step hc ht htd
  refine ⟨⟨ha0, ha1⟩, ?_, ?_⟩
  · intro prev_y x hp hx
    exact (lowpass_step_bounded
      (LowPassFilter.mk (LowPassFilter.ctor cutoff_freq time_step).a_alpha prev_y) x M
      ha0 ha1 hM hp hx).1
  · intro inputs hin
    exact lowpass_all_bounded M hM inputs (LowPassFilter.ctor cutoff_freq time_step) M
      ha0 ha1 (le_refl M) (by simpa [LowPassFilter.ctor] using hM) hin

/-- C28, witness: the filter `LowPassFilter(4.0, 1.0)` and the bound 3.  The
coefficient lies in `[0, 1]`, and with the stored output 3 and the input -3 the
output has magnitude at most `(1 + 2⁻⁵¹) * 3 + 2⁻¹⁰⁷²`. -/
theorem lowpass_bounded_witness :
    fl 1 = 1 ∧
      (0 ≤ (LowPassFilter.ctor 4 1).a_alpha ∧ (LowPassFilter.ctor 4 1).a_alpha ≤ 1) ∧
      |((LowPassFilter.mk (LowPassFilter.ctor 4 1).a_alpha 3).filter (-3)).2|
        ≤ (1 + 2 ^ (-51 : ℤ)) * 3 + 2 ^ (-1072 : ℤ) :=
  ⟨fl_one, (lowpass_bounded 4 1 3 (by norm_num) (by norm_num) fl_one (by norm_num)).1,
    (lowpass_bounded 4 1 3 (by norm_num) (by norm_num) fl_one (by norm_num)).2.1 3 (-3)
      (by norm_num [abs_le]) (by norm_num [abs_le])⟩

/-- C28, counterexample: the filter `LowPassFilter(4.0, 1.0)`, whose coefficient
is the double nearest to 1/5.  With the stored output 3 and the input 3, both of
magnitude `≤ 3`, the output is `3 + 2⁻⁵¹` (3.0000000000000004), above 3.  And
started from the zero state and fed the constant input 3, the filter returns
that same value above 3 at the 160th call. -/
theorem lowpass_bounded_counterexample :
    (LowPassFilter.ctor 4 1).a_alpha = fl (1 / 5) ∧
      ((LowPassFilter.mk (LowPassFilter.ctor 4 1).a_alpha 3).filter 3).2 = 3 + 2 ^ (-51 : ℤ) ∧
      ¬ (|((LowPassFilter.mk (LowPassFilter.ctor 4 1).a_alpha 3).filter 3).2| ≤ 3) ∧
      ((LowPassFilter.ctor 4 1).filterAll (List.replicate 160 3)).2.getLast?
        = some (3 + 2 ^ (-51 : ℤ)) := by
  refine ⟨by decide!, by decide!, by decide!, by decide!⟩

end AudioSynth
